import Mathlib

/-!
Verification development for the news-scraper repository.

This file gives a shallow embedding, in Lean 4, of the discovery-and-extraction
core of the repository: URL canonicalization (`canonicalize_url_clean` in
`news_scraper/spiders/newsspider.py` together with the parts of CPython's
`urllib.parse` that it calls), date parsing (`parse_iso8601_date` and
`extractors/base.py`'s `parse_datetime_from_meta`), the per-site article
extractors (`extractors/ap.py`, `bbc.py`, `foxnews.py`, `nyt.py`, `cbs.py`),
and the spider orchestration (`NewsSpider.parse`, `NewsSpider.process_article`).

Python strings are modelled as `List Char` (Unicode scalar values; CPython
strings may additionally contain lone surrogates, which cannot arise from the
inputs this code receives).  Machine floats that hold the hand-tuned
confidence literals (0.95, 0.90, ...) are modelled as rationals: every literal
appearing in the code is exactly representable and order comparisons agree.
Python exceptions are modelled with `Except`, and functions that CPython
documents as raising are given explicit error branches.
-/

namespace NewsScraper

abbrev Str := List Char

/-- Model of CPython `str.lower` restricted to ASCII case mapping (hostnames and
schemes handled by the repository are ASCII; the full Unicode case table is out
of scope of this model). -/
def lowerC (c : Char) : Char :=
  if 65 ≤ c.toNat ∧ c.toNat ≤ 90 then Char.ofNat (c.toNat + 32) else c

def lowerS (s : Str) : Str := s.map lowerC

/-- ASCII alphabetic test, matching `str.isascii() and str.isalpha()` on one char. -/
def isAsciiAlpha (c : Char) : Bool :=
  (97 ≤ c.toNat ∧ c.toNat ≤ 122) ∨ (65 ≤ c.toNat ∧ c.toNat ≤ 90)

def isAsciiDigit (c : Char) : Bool := 48 ≤ c.toNat ∧ c.toNat ≤ 57

def isAsciiAlnum (c : Char) : Bool := isAsciiAlpha c ∨ isAsciiDigit c

/-- `urllib.parse.scheme_chars`: ASCII letters, digits and `+`, `-`, `.`. -/
def isSchemeChar (c : Char) : Bool := isAsciiAlnum c ∨ c = '+' ∨ c = '-' ∨ c = '.'

/-- Split a list at the first occurrence of `sep` (CPython `str.split(sep, 1)`
when `sep` occurs).  Returns `none` when `sep` does not occur. -/
def splitFirst (sep : Char) : Str → Option (Str × Str)
  | [] => none
  | c :: t =>
    if c = sep then some ([], t)
    else (splitFirst sep t).map (fun p => (c :: p.1, p.2))

/-- Split a list at the last occurrence of `sep`; the second component is
`sep`-free.  Models searching from `str.rfind(sep)`. -/
def splitLast (sep : Char) (s : Str) : Option (Str × Str) :=
  match splitFirst sep s.reverse with
  | none => none
  | some (a, b) => some (b.reverse, a.reverse)

/-- CPython `str.split(sep)` for a one-char separator on a nonempty string:
`"a&&b".split("&") = ["a","","b"]`. -/
def splitAll (sep : Char) : Str → List Str
  | [] => [[]]
  | c :: t =>
    if c = sep then [] :: splitAll sep t
    else match splitAll sep t with
         | [] => [[c]]
         | h :: r => (c :: h) :: r

/-- Membership of a contiguous substring, CPython `sub in s`. -/
def substrIn (sub s : Str) : Bool :=
  match s with
  | [] => decide (sub = [])
  | _ :: t => sub.isPrefixOf s || substrIn sub t

/-- CPython `str.rstrip("/")`. -/
def rstripSlash (s : Str) : Str := (s.reverse.dropWhile (· = '/')).reverse

/-- The `_WHATWG_C0_CONTROL_OR_SPACE` set stripped from the front of a URL by
`urllib.parse.urlsplit`. -/
def isC0OrSpace (c : Char) : Bool := c.toNat ≤ 0x20

/-- The `_UNSAFE_URL_BYTES_TO_REMOVE` (tab, carriage return, newline) removed
everywhere in a URL by `urllib.parse.urlsplit`. -/
def isUnsafeUrlByte (c : Char) : Bool := c = '\t' ∨ c = '\r' ∨ c = '\n'

/-- The WHATWG-mandated cleanup `urlsplit` performs before parsing:
left-strip C0 controls and spaces, then delete tab/CR/LF everywhere. -/
def cleanUrl (s : Str) : Str :=
  (s.dropWhile isC0OrSpace).filter (fun c => ¬ isUnsafeUrlByte c)

/-- Result of `urllib.parse.urlsplit`. -/
structure SplitResult where
  scheme : Str
  netloc : Str
  path : Str
  query : Str
  fragment : Str
  deriving DecidableEq, Repr

/-- Result of `urllib.parse.urlparse` (adds the path-params component). -/
structure ParseResult where
  scheme : Str
  netloc : Str
  path : Str
  params : Str
  query : Str
  fragment : Str
  deriving DecidableEq, Repr

/-- Scheme detection step of `urlsplit`: a scheme is split off when the text
before the first `:` is nonempty, starts with an ASCII letter and otherwise
consists of `scheme_chars`; `urlsplit` lowercases it. -/
def splitScheme (url : Str) : Str × Str :=
  match splitFirst ':' url with
  | none => ([], url)
  | some (pre, post) =>
    if pre ≠ [] ∧ isAsciiAlpha (pre.headI) ∧ pre.tail.all isSchemeChar then
      (lowerS pre, post)
    else ([], url)

def isNetlocStop (c : Char) : Bool := c = '/' ∨ c = '?' ∨ c = '#'

/-- Netloc extraction of `urlsplit`: when the remainder starts with `//`, the
netloc is everything up to the next `/`, `?` or `#`.  `urlsplit` raises
`ValueError` on a netloc containing `[` without `]` or vice versa (the
additional validation of the text inside balanced brackets, and the NFKC
check of `_checknetloc`, are abstracted as succeeding: no claim exercises
IPv6 literals or non-ASCII hosts). -/
def splitNetloc (url : Str) : Except Unit (Str × Str) :=
  if url.take 2 = ['/', '/'] then
    let rest := url.drop 2
    let netloc := rest.takeWhile (fun c => ¬ isNetlocStop c)
    let remainder := rest.dropWhile (fun c => ¬ isNetlocStop c)
    if (('[' ∈ netloc) ↔ (']' ∈ netloc)) then .ok (netloc, remainder)
    else .error ()
  else .ok ([], url)

/-- Fragment split of `urlsplit`: `url.split('#', 1)` when `#` occurs. -/
def splitFragment (url : Str) : Str × Str :=
  match splitFirst '#' url with
  | some (a, b) => (a, b)
  | none => (url, [])

/-- Query split of `urlsplit`: `url.split('?', 1)` when `?` occurs. -/
def splitQuery (url : Str) : Str × Str :=
  match splitFirst '?' url with
  | some (a, b) => (a, b)
  | none => (url, [])

/-- Model of `urllib.parse.urlsplit` (allow_fragments=True). -/
def urlsplitM (u : Str) : Except Unit SplitResult :=
  let sp := splitScheme (cleanUrl u)
  match splitNetloc sp.2 with
  | .error e => .error e
  | .ok nl =>
    let fr := splitFragment nl.2
    let qr := splitQuery fr.1
    .ok ⟨sp.1, nl.1, qr.1, qr.2, fr.2⟩

/-- `urllib.parse.uses_params`. -/
def usesParams : List Str :=
  [[], ['f','t','p'], ['h','d','l'], ['p','r','o','s','p','e','r','o'],
   ['h','t','t','p'], ['i','m','a','p'], ['h','t','t','p','s'],
   ['s','h','t','t','p'], ['r','t','s','p'], ['r','t','s','p','u'],
   ['s','i','p'], ['s','i','p','s'], ['s','n','e','w','s'],
   ['t','e','l'], ['w','a','i','s']]

/-- `urllib.parse._splitparams`: split path-params at the first `;` occurring
at or after the last `/` (or the first `;` anywhere when the url has no `/`). -/
def splitParams (url : Str) : Str × Str :=
  if '/' ∈ url then
    match splitLast '/' url with
    | some (pre, suf) =>
      match splitFirst ';' suf with
      | some (s1, s2) => (pre ++ '/' :: s1, s2)
      | none => (url, [])
    | none => (url, [])
  else
    match splitFirst ';' url with
    | some (a, b) => (a, b)
    | none => (url, [])

/-- Model of `urllib.parse.urlparse`. -/
def urlparseM (u : Str) : Except Unit ParseResult :=
  match urlsplitM u with
  | .error e => .error e
  | .ok sr =>
    if sr.scheme ∈ usesParams ∧ ';' ∈ sr.path then
      let (p, prm) := splitParams sr.path
      .ok ⟨sr.scheme, sr.netloc, p, prm, sr.query, sr.fragment⟩
    else
      .ok ⟨sr.scheme, sr.netloc, sr.path, [], sr.query, sr.fragment⟩

/-! ## UTF-8 and percent-coding (CPython `urllib.parse.quote_plus` / `unquote`) -/

/-- UTF-8 encoding of one Unicode scalar value, as a list of byte values. -/
def utf8Encode (c : Char) : List Nat :=
  let n := c.toNat
  if n < 0x80 then [n]
  else if n < 0x800 then [0xC0 + n / 64, 0x80 + n % 64]
  else if n < 0x10000 then
    [0xE0 + n / 4096, 0x80 + (n / 64) % 64, 0x80 + n % 64]
  else
    [0xF0 + n / 262144, 0x80 + (n / 4096) % 64, 0x80 + (n / 64) % 64, 0x80 + n % 64]

def isUtf8Cont (b : Nat) : Bool := 0x80 ≤ b ∧ b ≤ 0xBF

/-- The Unicode replacement character U+FFFD, produced by `errors="replace"`. -/
def replChar : Char := Char.ofNat 0xFFFD

/-- UTF-8 decoding with `errors="replace"` (the mode `urllib.parse.unquote`
decodes percent-decoded bytes with).  Each maximal invalid subpart yields one
U+FFFD, following CPython's incremental decoder. -/
def utf8Decode : List Nat → Str
  | [] => []
  | b :: bs =>
    if _h80 : b < 0x80 then
      Char.ofNat b :: utf8Decode bs
    else if 0xC2 ≤ b ∧ b ≤ 0xDF then
      match bs with
      | b2 :: bs' =>
        if isUtf8Cont b2 then Char.ofNat ((b - 0xC0) * 64 + (b2 - 0x80)) :: utf8Decode bs'
        else replChar :: utf8Decode (b2 :: bs')
      | [] => [replChar]
    else if 0xE0 ≤ b ∧ b ≤ 0xEF then
      match bs with
      | b2 :: bs' =>
        if (b = 0xE0 ∧ 0xA0 ≤ b2 ∧ b2 ≤ 0xBF) ∨
           (b = 0xED ∧ 0x80 ≤ b2 ∧ b2 ≤ 0x9F) ∨
           (b ≠ 0xE0 ∧ b ≠ 0xED ∧ isUtf8Cont b2) then
          match bs' with
          | b3 :: bs'' =>
            if isUtf8Cont b3 then
              Char.ofNat ((b - 0xE0) * 4096 + (b2 - 0x80) * 64 + (b3 - 0x80)) :: utf8Decode bs''
            else replChar :: utf8Decode (b3 :: bs'')
          | [] => [replChar]
        else replChar :: utf8Decode (b2 :: bs')
      | [] => [replChar]
    else if 0xF0 ≤ b ∧ b ≤ 0xF4 then
      match bs with
      | b2 :: bs' =>
        if (b = 0xF0 ∧ 0x90 ≤ b2 ∧ b2 ≤ 0xBF) ∨
           (b = 0xF4 ∧ 0x80 ≤ b2 ∧ b2 ≤ 0x8F) ∨
           (b ≠ 0xF0 ∧ b ≠ 0xF4 ∧ isUtf8Cont b2) then
          match bs' with
          | b3 :: bs'' =>
            if isUtf8Cont b3 then
              match bs'' with
              | b4 :: bs''' =>
                if isUtf8Cont b4 then
                  Char.ofNat ((b - 0xF0) * 262144 + (b2 - 0x80) * 4096 +
                              (b3 - 0x80) * 64 + (b4 - 0x80)) :: utf8Decode bs'''
                else replChar :: utf8Decode (b4 :: bs''')
              | [] => [replChar]
            else replChar :: utf8Decode (b3 :: bs'')
          | [] => [replChar]
        else replChar :: utf8Decode (b2 :: bs')
      | [] => [replChar]
    else replChar :: utf8Decode bs
termination_by l => l.length
decreasing_by all_goals simp_arith

def isHexDigit (c : Char) : Bool :=
  isAsciiDigit c ∨ (97 ≤ c.toNat ∧ c.toNat ≤ 102) ∨ (65 ≤ c.toNat ∧ c.toNat ≤ 70)

def hexVal (c : Char) : Nat :=
  if isAsciiDigit c then c.toNat - 48
  else if 97 ≤ c.toNat ∧ c.toNat ≤ 102 then c.toNat - 97 + 10
  else c.toNat - 65 + 10

/-- The byte-level percent decoding performed by `unquote_to_bytes` inside one
ASCII run: `%` followed by two hex digits becomes a byte, any other character
contributes its own code point as a byte (the run is ASCII). -/
def pctDecodeBytes : Str → List Nat
  | [] => []
  | c :: rest =>
    if c = '%' then
      match rest with
      | h1 :: h2 :: rest' =>
        if isHexDigit h1 ∧ isHexDigit h2 then
          (hexVal h1 * 16 + hexVal h2) :: pctDecodeBytes rest'
        else 0x25 :: pctDecodeBytes (h1 :: h2 :: rest')
      | r => 0x25 :: pctDecodeBytes r
    else c.toNat :: pctDecodeBytes rest
termination_by l => l.length
decreasing_by all_goals simp_arith [List.length]

def isAsciiChar (c : Char) : Bool := c.toNat ≤ 0x7F

/-- Model of `urllib.parse.unquote(s, encoding="utf-8", errors="replace")`:
the string is cut into maximal ASCII runs (the `_asciire` split); each ASCII
run is percent-decoded to bytes and UTF-8-decoded with replacement; non-ASCII
characters pass through unchanged. -/
def unquoteM (s : Str) : Str :=
  match s with
  | [] => []
  | c :: t =>
    if isAsciiChar c then
      let run := (c :: t).takeWhile isAsciiChar
      let rest := (c :: t).dropWhile isAsciiChar
      utf8Decode (pctDecodeBytes run) ++ unquoteM rest
    else
      c :: unquoteM t
termination_by s.length
decreasing_by
  · simp only [List.dropWhile]
    have hc : isAsciiChar c = true := by assumption
    simp only [hc, if_true, List.length_cons]
    exact Nat.lt_succ_of_le (List.dropWhile_sublist _).length_le
  · simp

/-- The `+`-to-space replacement `parse_qsl` applies before `unquote`. -/
def replPlus (s : Str) : Str := s.map (fun c => if c = '+' then ' ' else c)

/-- `urllib.parse._ALWAYS_SAFE`: ASCII letters, digits and `_.-~`. -/
def alwaysSafe (c : Char) : Bool :=
  isAsciiAlnum c ∨ c = '_' ∨ c = '.' ∨ c = '-' ∨ c = '~'

def hexDigitUpper (n : Nat) : Char :=
  if n < 10 then Char.ofNat (48 + n) else Char.ofNat (55 + n)

/-- Percent-escape of one byte, uppercase hex as produced by `quote`. -/
def pctByte (b : Nat) : Str := ['%', hexDigitUpper (b / 16), hexDigitUpper (b % 16)]

/-- Model of `urllib.parse.quote_plus(s, safe="")`: always-safe characters are
kept, a space becomes `+`, anything else is percent-encoded bytewise from its
UTF-8 encoding. -/
def quotePlus (s : Str) : Str :=
  s.flatMap (fun c =>
    if alwaysSafe c then [c]
    else if c = ' ' then ['+']
    else (utf8Encode c).flatMap pctByte)

/-! ## `parse_qs` / `urlencode` -/

/-- One field of `parse_qsl(qs, keep_blank_values=False)`: split at the first
`=`; fields without `=` or with an empty raw value are dropped; name and value
get `+`-to-space then `unquote`. -/
def parseQslField (field : Str) : Option (Str × Str) :=
  if field = [] then none
  else
    match splitFirst '=' field with
    | none => none
    | some (name, value) =>
      if value = [] then none
      else some (unquoteM (replPlus name), unquoteM (replPlus value))

/-- Model of `urllib.parse.parse_qsl(qs, keep_blank_values=False)`. -/
def parseQsl (qs : Str) : List (Str × Str) :=
  if qs = [] then [] else (splitAll '&' qs).filterMap parseQslField

/-- Grouping of pairs into a key-ordered multi-dict, as `parse_qs` builds its
result dict: keys in first-occurrence order, values in occurrence order. -/
def groupPairs : List (Str × Str) → List (Str × List Str)
  | [] => []
  | (k, v) :: t =>
    (k, v :: (t.filter (fun p => p.1 = k)).map (·.2)) ::
      groupPairs (t.filter (fun p => p.1 ≠ k))
termination_by l => l.length
decreasing_by
  exact Nat.lt_succ_of_le (List.length_filter_le _ _)

/-- Model of `urllib.parse.parse_qs(qs, keep_blank_values=False)`, with the
dict's insertion order made explicit. -/
def parseQs (qs : Str) : List (Str × List Str) := groupPairs (parseQsl qs)

/-- Flattening of a multi-dict into its key/value pairs, in iteration order. -/
def ungroup (d : List (Str × List Str)) : List (Str × Str) :=
  d.flatMap (fun kv => kv.2.map (fun v => (kv.1, v)))

/-- `"&".join` on a list of encoded fields. -/
def joinAmp : List Str → Str
  | [] => []
  | f :: fs => f ++ fs.flatMap (fun g => '&' :: g)

/-- One `k=v` field as emitted by `urlencode(..., doseq=True, quote_via=quote_plus)`. -/
def encField (p : Str × Str) : Str := quotePlus p.1 ++ '=' :: quotePlus p.2

/-- Model of `urllib.parse.urlencode(d, doseq=True)` on a multi-dict: each key
is emitted once per value, keys and values `quote_plus`-encoded, fields joined
with `&`. -/
def urlencodeSeq (l : List (Str × List Str)) : Str :=
  joinAmp ((ungroup l).map encField)

/-! ## `urlunparse` and `canonicalize_url_clean` -/

/-- Model of `urllib.parse.urlunsplit`. -/
def urlunsplitM (scheme netloc url query fragment : Str) : Str :=
  let url :=
    if netloc ≠ [] ∨ (url ≠ [] ∧ url.take 2 = ['/', '/']) then
      let url := if url ≠ [] ∧ url.take 1 ≠ ['/'] then '/' :: url else url
      '/' :: '/' :: netloc ++ url
    else url
  let url := if scheme ≠ [] then scheme ++ ':' :: url else url
  let url := if query ≠ [] then url ++ '?' :: query else url
  if fragment ≠ [] then url ++ '#' :: fragment else url

/-- Model of `urllib.parse.urlunparse`. -/
def urlunparseM (scheme netloc url params query fragment : Str) : Str :=
  let url := if params ≠ [] then url ++ ';' :: params else url
  urlunsplitM scheme netloc url query fragment

/-- `TRACKING_PARAMS` from `news_scraper/spiders/newsspider.py` (note the set
literally contains `trkInfo` with a capital `I`, which a lowercased key can
never equal). -/
def TRACKING_PARAMS : List Str :=
  ["utm_source".toList, "utm_medium".toList, "utm_campaign".toList,
   "utm_term".toList, "utm_content".toList, "utm_id".toList,
   "utm_source_platform".toList, "utm_creative_format".toList,
   "utm_marketing_tactic".toList, "gclid".toList, "gclsrc".toList,
   "dclid".toList, "fbclid".toList, "msclkid".toList, "twclid".toList,
   "igshid".toList, "mc_cid".toList, "mc_eid".toList, "ref".toList,
   "referer".toList, "referrer".toList, "source".toList, "_ga".toList,
   "_gl".toList, "_hsenc".toList, "_hsmi".toList, "trk".toList,
   "trkInfo".toList]

/-- The query-rebuilding step of `canonicalize_url_clean`: parse the query,
drop tracking keys, re-encode (the empty dict yields the empty query, mirroring
`urlencode(filtered_params, doseq=True) if filtered_params else ""`). -/
def canonQueryPart (q : Str) : Str :=
  if (parseQs q).filter (fun kv => lowerS kv.1 ∉ TRACKING_PARAMS) ≠ [] then
    urlencodeSeq ((parseQs q).filter (fun kv => lowerS kv.1 ∉ TRACKING_PARAMS))
  else []

/-- The query/path/assembly step of `canonicalize_url_clean` applied to a
successful parse. -/
def canonCore (pr : ParseResult) : Str :=
  let cleanQuery := canonQueryPart pr.query
  let cleanPath := if pr.path ≠ ['/'] then rstripSlash pr.path else ['/']
  urlunparseM (lowerS pr.scheme) (lowerS pr.netloc) cleanPath pr.params cleanQuery []

/-- Model of `canonicalize_url_clean` from `news_scraper/spiders/newsspider.py`:
parse, drop tracking params, re-encode the remaining query, lowercase scheme
and netloc, strip a trailing slash from a non-root path, drop the fragment;
on a parse `ValueError` return the input unchanged. -/
def canonicalizeUrlClean (u : Str) : Str :=
  match urlparseM u with
  | .error _ => u
  | .ok pr => canonCore pr

/-! ## Character-level lemmas -/

theorem char_eq_of_toNat_eq {a b : Char} (h : a.toNat = b.toNat) : a = b :=
  Char.eq_of_val_eq (UInt32.toNat.inj h)

theorem char_toNat_ofNat {n : Nat} (h : Nat.isValidChar n) : (Char.ofNat n).toNat = n := by
  unfold Char.ofNat
  simp only [h, dif_pos, Char.ofNatAux, Char.toNat]
  rfl

theorem lowerC_cases (c : Char) :
    lowerC c = c ∨ (65 ≤ c.toNat ∧ c.toNat ≤ 90 ∧ (lowerC c).toNat = c.toNat + 32) := by
  unfold lowerC
  by_cases h : 65 ≤ c.toNat ∧ c.toNat ≤ 90
  · refine Or.inr ⟨h.1, h.2, ?_⟩
    simp only [h, and_self, if_true]
    exact char_toNat_ofNat (Or.inl (by omega))
  · simp [h]

theorem lowerC_toNat_le (c : Char) : (lowerC c).toNat ≤ c.toNat + 32 := by
  rcases lowerC_cases c with h | ⟨_, _, h⟩
  · rw [h]; omega
  · omega

theorem lowerC_lower_range {c : Char} (h1 : 65 ≤ c.toNat) (h2 : c.toNat ≤ 90) :
    97 ≤ (lowerC c).toNat ∧ (lowerC c).toNat ≤ 122 := by
  unfold lowerC
  have h : 65 ≤ c.toNat ∧ c.toNat ≤ 90 := ⟨h1, h2⟩
  simp only [h, and_self, if_true]
  rw [char_toNat_ofNat (Or.inl (by omega))]
  omega

theorem lowerC_lowerC (c : Char) : lowerC (lowerC c) = lowerC c := by
  rcases lowerC_cases c with h | ⟨h1, h2, h3⟩
  · rw [h]; exact h
  · rcases lowerC_cases (lowerC c) with h' | ⟨h1', h2', _⟩
    · exact h'
    · omega

theorem lowerS_idem (s : Str) : lowerS (lowerS s) = lowerS s := by
  simp only [lowerS, List.map_map]
  exact List.map_congr_left (fun c _ => lowerC_lowerC c)

/-- A character whose code is not an uppercase ASCII letter is fixed by `lowerC`. -/
theorem lowerC_eq_self {c : Char} (h : ¬(65 ≤ c.toNat ∧ c.toNat ≤ 90)) : lowerC c = c := by
  unfold lowerC
  simp [h]

/-- `lowerC` hits a target char that is not an ASCII letter only trivially. -/
theorem lowerC_eq_iff {c x : Char} (hx : ¬(97 ≤ x.toNat ∧ x.toNat ≤ 122))
    (hx2 : ¬(65 ≤ x.toNat ∧ x.toNat ≤ 90)) : lowerC c = x ↔ c = x := by
  constructor
  · intro h
    rcases lowerC_cases c with h' | ⟨h1, h2, h3⟩
    · rwa [h'] at h
    · exfalso
      rw [h] at h3
      omega
  · intro h
    subst h
    exact lowerC_eq_self hx2

theorem isAsciiAlpha_lowerC {c : Char} (h : isAsciiAlpha c) : isAsciiAlpha (lowerC c) := by
  simp only [isAsciiAlpha, decide_eq_true_eq] at *
  rcases lowerC_cases c with h' | ⟨h1, h2, h3⟩
  · rwa [h']
  · omega

theorem isSchemeChar_lowerC {c : Char} (h : isSchemeChar c) : isSchemeChar (lowerC c) := by
  simp only [isSchemeChar, isAsciiAlnum, isAsciiAlpha, isAsciiDigit,
    Bool.or_eq_true, decide_eq_true_eq] at *
  rcases lowerC_cases c with h' | ⟨h1, h2, h3⟩
  · rwa [h']
  · left; left; omega

theorem lowerC_toNat_cases (c : Char) :
    (lowerC c).toNat = c.toNat ∨ (97 ≤ (lowerC c).toNat ∧ (lowerC c).toNat ≤ 122) := by
  rcases lowerC_cases c with h | ⟨h1, h2, h3⟩
  · rw [h]; left; rfl
  · right; omega

/-! ## Splitter lemmas -/

theorem splitFirst_cons (sep c : Char) (t : Str) :
    splitFirst sep (c :: t) =
      if c = sep then some ([], t)
      else (splitFirst sep t).map (fun p => (c :: p.1, p.2)) := rfl

theorem splitFirst_eq_none {sep : Char} {s : Str} (h : sep ∉ s) : splitFirst sep s = none := by
  induction s with
  | nil => rfl
  | cons c t ih =>
    simp only [List.mem_cons, not_or] at h
    rw [splitFirst_cons, if_neg (Ne.symm h.1), ih h.2, Option.map_none']

theorem splitFirst_append_sep {sep : Char} {a b : Str} (h : sep ∉ a) :
    splitFirst sep (a ++ sep :: b) = some (a, b) := by
  induction a with
  | nil => simp [splitFirst]
  | cons c t ih =>
    simp only [List.mem_cons, not_or] at h
    rw [List.cons_append, splitFirst_cons, if_neg (Ne.symm h.1), ih h.2, Option.map_some']

/-- Decomposition produced by `splitFirst`. -/
theorem splitFirst_eq_some {sep : Char} {s a b : Str}
    (h : splitFirst sep s = some (a, b)) : s = a ++ sep :: b ∧ sep ∉ a := by
  induction s generalizing a b with
  | nil => simp [splitFirst] at h
  | cons c t ih =>
    rw [splitFirst_cons] at h
    by_cases hc : c = sep
    · rw [if_pos hc] at h
      simp only [Option.some_inj, Prod.mk.injEq] at h
      rw [← h.1, ← h.2, hc]
      simp
    · rw [if_neg hc] at h
      simp only [Option.map_eq_some'] at h
      obtain ⟨⟨a', b'⟩, hsp, heq⟩ := h
      simp only [Prod.mk.injEq] at heq
      obtain ⟨ih1, ih2⟩ := ih hsp
      constructor
      · rw [← heq.1, ← heq.2, ih1]; rfl
      · rw [← heq.1]
        simp only [List.mem_cons, not_or]
        exact ⟨Ne.symm hc, ih2⟩

/-- When the first segment contains the separator, appending more text on the
right splits at the same place. -/
theorem splitFirst_append_left {sep : Char} {a : Str} (b : Str) {p q : Str}
    (h : splitFirst sep a = some (p, q)) :
    splitFirst sep (a ++ b) = some (p, q ++ b) := by
  obtain ⟨h1, h2⟩ := splitFirst_eq_some h
  rw [h1, List.append_assoc, List.cons_append]
  exact splitFirst_append_sep h2

theorem splitFirst_append_none {sep : Char} {a b : Str} (h : sep ∉ a) :
    splitFirst sep (a ++ b) =
      (splitFirst sep b).map (fun p => (a ++ p.1, p.2)) := by
  induction a with
  | nil => simp [List.map_id']
  | cons c t ih =>
    simp only [List.mem_cons, not_or] at h
    rw [List.cons_append, splitFirst_cons, if_neg (Ne.symm h.1), ih h.2]
    cases splitFirst sep b <;> simp

theorem takeWhile_append_all {p : Char → Bool} {a : Str} (b : Str)
    (h : ∀ c ∈ a, p c) : (a ++ b).takeWhile p = a ++ b.takeWhile p := by
  induction a with
  | nil => rfl
  | cons c t ih =>
    simp only [List.cons_append, List.takeWhile_cons, h c (by simp), if_true]
    rw [ih (fun x hx => h x (by simp [hx]))]

theorem dropWhile_append_all {p : Char → Bool} {a : Str} (b : Str)
    (h : ∀ c ∈ a, p c) : (a ++ b).dropWhile p = b.dropWhile p := by
  induction a with
  | nil => rfl
  | cons c t ih =>
    simp only [List.cons_append, List.dropWhile_cons, h c (by simp), if_true]
    exact ih (fun x hx => h x (by simp [hx]))

theorem takeWhile_cons_neg {p : Char → Bool} {c : Char} (t : Str) (h : ¬ p c) :
    (c :: t).takeWhile p = [] := by
  simp [List.takeWhile_cons, h]

theorem dropWhile_cons_neg {p : Char → Bool} {c : Char} (t : Str) (h : ¬ p c) :
    (c :: t).dropWhile p = c :: t := by
  simp [List.dropWhile_cons, h]

/-! ### `rstripSlash` -/

theorem rstripSlash_append_slashes {a b : Str} (h : ∀ c ∈ b, c = '/') :
    rstripSlash (a ++ b) = rstripSlash a := by
  unfold rstripSlash
  rw [List.reverse_append, dropWhile_append_all _ (by
    intro c hc
    simp only [List.mem_reverse] at hc
    simpa using h c hc)]

theorem rstripSlash_no_trailing_slash (s : Str) :
    ∀ c, (rstripSlash s).getLast? = some c → c ≠ '/' := by
  intro c hc
  unfold rstripSlash at hc
  rw [List.getLast?_reverse] at hc
  have := List.head?_dropWhile_not (fun c => decide (c = '/')) s.reverse
  rw [hc] at this
  simpa using this

theorem rstripSlash_eq_self {s : Str} (h : ∀ c, s.getLast? = some c → c ≠ '/') :
    rstripSlash s = s := by
  unfold rstripSlash
  cases hs : s.reverse with
  | nil =>
    have : s = [] := by simpa using congrArg List.reverse hs
    simp [this]
  | cons c t =>
    have hc : s.getLast? = some c := by
      rw [← List.head?_reverse, hs]; rfl
    rw [dropWhile_cons_neg _ (by simpa using h c hc), ← hs, List.reverse_reverse]

theorem rstripSlash_idem (s : Str) : rstripSlash (rstripSlash s) = rstripSlash s :=
  rstripSlash_eq_self (rstripSlash_no_trailing_slash s)

/-- `rstripSlash s` is a prefix of `s`. -/
theorem rstripSlash_isPrefix (s : Str) : rstripSlash s <+: s := by
  unfold rstripSlash
  obtain ⟨t, ht⟩ : s.reverse.dropWhile (· = '/') <:+ s.reverse :=
    (List.dropWhile_suffix _)
  exact ⟨t.reverse, by rw [← List.reverse_append, ht, List.reverse_reverse]⟩

theorem rstripSlash_subset {s : Str} {c : Char} (h : c ∈ rstripSlash s) : c ∈ s :=
  (rstripSlash_isPrefix s).subset h

/-! ## UTF-8 round-trip lemmas -/

theorem char_valid_toNat (c : Char) :
    c.toNat < 0xD800 ∨ (0xE000 ≤ c.toNat ∧ c.toNat < 0x110000) := by
  have h := c.valid
  unfold UInt32.isValidChar Nat.isValidChar at h
  exact h

theorem utf8Decode_cons_eq (b : Nat) (bs : List Nat) (h : b < 0x80) :
    utf8Decode (b :: bs) = Char.ofNat b :: utf8Decode bs := by
  conv_lhs => unfold utf8Decode
  simp only [h]
  rfl

theorem utf8Decode_two (b1 b2 : Nat) (bs : List Nat)
    (h1 : 0xC2 ≤ b1 ∧ b1 ≤ 0xDF) (h2 : isUtf8Cont b2 = true) :
    utf8Decode (b1 :: b2 :: bs) =
      Char.ofNat ((b1 - 0xC0) * 64 + (b2 - 0x80)) :: utf8Decode bs := by
  have e1 : ¬ (b1 < 0x80) := by omega
  conv_lhs => unfold utf8Decode
  simp [e1, h1, h2]

theorem utf8Decode_three (b1 b2 b3 : Nat) (bs : List Nat)
    (h1 : 0xE0 ≤ b1 ∧ b1 ≤ 0xEF)
    (h2 : (b1 = 0xE0 ∧ 0xA0 ≤ b2 ∧ b2 ≤ 0xBF) ∨ (b1 = 0xED ∧ 0x80 ≤ b2 ∧ b2 ≤ 0x9F) ∨
          (b1 ≠ 0xE0 ∧ b1 ≠ 0xED ∧ isUtf8Cont b2 = true))
    (h3 : isUtf8Cont b3 = true) :
    utf8Decode (b1 :: b2 :: b3 :: bs) =
      Char.ofNat ((b1 - 0xE0) * 4096 + (b2 - 0x80) * 64 + (b3 - 0x80)) :: utf8Decode bs := by
  have e1 : ¬ (b1 < 0x80) := by omega
  have e2 : ¬ (0xC2 ≤ b1 ∧ b1 ≤ 0xDF) := by omega
  conv_lhs => unfold utf8Decode
  simp only [e1, dite_false, if_false, e2, h1, and_self, if_true, if_pos h2, h3]

theorem utf8Decode_four (b1 b2 b3 b4 : Nat) (bs : List Nat)
    (h1 : 0xF0 ≤ b1 ∧ b1 ≤ 0xF4)
    (h2 : (b1 = 0xF0 ∧ 0x90 ≤ b2 ∧ b2 ≤ 0xBF) ∨ (b1 = 0xF4 ∧ 0x80 ≤ b2 ∧ b2 ≤ 0x8F) ∨
          (b1 ≠ 0xF0 ∧ b1 ≠ 0xF4 ∧ isUtf8Cont b2 = true))
    (h3 : isUtf8Cont b3 = true) (h4 : isUtf8Cont b4 = true) :
    utf8Decode (b1 :: b2 :: b3 :: b4 :: bs) =
      Char.ofNat ((b1 - 0xF0) * 262144 + (b2 - 0x80) * 4096 + (b3 - 0x80) * 64 +
        (b4 - 0x80)) :: utf8Decode bs := by
  have e1 : ¬ (b1 < 0x80) := by omega
  have e2 : ¬ (0xC2 ≤ b1 ∧ b1 ≤ 0xDF) := by omega
  have e3 : ¬ (0xE0 ≤ b1 ∧ b1 ≤ 0xEF) := by omega
  conv_lhs => unfold utf8Decode
  simp only [e1, dite_false, if_false, e2, e3, h1, and_self, if_true, if_pos h2, h3, h4]

theorem utf8Decode_encode (c : Char) (bs : List Nat) :
    utf8Decode (utf8Encode c ++ bs) = c :: utf8Decode bs := by
  have hval := char_valid_toNat c
  have hofn : Char.ofNat c.toNat = c := Char.ofNat_toNat c
  unfold utf8Encode
  by_cases h1 : c.toNat < 0x80
  · simp only [h1, if_true, List.cons_append, List.nil_append]
    rw [utf8Decode_cons_eq _ _ h1, hofn]
  · by_cases h2 : c.toNat < 0x800
    · simp only [h1, if_false, h2, if_true, List.cons_append, List.nil_append]
      rw [utf8Decode_two _ _ _ (by omega) (by simp only [isUtf8Cont, decide_eq_true_eq]; omega)]
      rw [show (0xC0 + c.toNat / 64 - 0xC0) * 64 + (0x80 + c.toNat % 64 - 0x80)
            = c.toNat by omega, hofn]
    · by_cases h3 : c.toNat < 0x10000
      · simp only [h1, if_false, h2, if_false, h3, if_true, List.cons_append,
          List.nil_append]
        rw [utf8Decode_three _ _ _ _ (by omega)
          (by simp only [isUtf8Cont, decide_eq_true_eq]; omega)
          (by simp only [isUtf8Cont, decide_eq_true_eq]; omega)]
        rw [show (0xE0 + c.toNat / 4096 - 0xE0) * 4096 +
              (0x80 + c.toNat / 64 % 64 - 0x80) * 64 + (0x80 + c.toNat % 64 - 0x80)
              = c.toNat by omega, hofn]
      · simp only [h1, if_false, h2, if_false, h3, if_false, List.cons_append,
          List.nil_append]
        rw [utf8Decode_four _ _ _ _ _ (by omega)
          (by simp only [isUtf8Cont, decide_eq_true_eq]; omega)
          (by simp only [isUtf8Cont, decide_eq_true_eq]; omega)
          (by simp only [isUtf8Cont, decide_eq_true_eq]; omega)]
        rw [show (0xF0 + c.toNat / 262144 - 0xF0) * 262144 +
              (0x80 + c.toNat / 4096 % 64 - 0x80) * 4096 +
              (0x80 + c.toNat / 64 % 64 - 0x80) * 64 + (0x80 + c.toNat % 64 - 0x80)
              = c.toNat by omega, hofn]

theorem utf8Decode_nil : utf8Decode [] = [] := by
  unfold utf8Decode
  rfl

theorem utf8Decode_flat (v : Str) : utf8Decode (v.flatMap utf8Encode) = v := by
  induction v with
  | nil => rw [List.flatMap_nil, utf8Decode_nil]
  | cons c t ih =>
    rw [List.flatMap_cons, utf8Decode_encode, ih]

/-! ## Percent-coding round-trip lemmas -/

theorem toNat_hexDigitUpper {m : Nat} (h : m < 16) :
    (hexDigitUpper m).toNat = if m < 10 then 48 + m else 55 + m := by
  unfold hexDigitUpper
  by_cases h10 : m < 10
  · rw [if_pos h10, if_pos h10, char_toNat_ofNat (Or.inl (by omega))]
  · rw [if_neg h10, if_neg h10, char_toNat_ofNat (Or.inl (by omega))]

theorem isHexDigit_hexDigitUpper {m : Nat} (h : m < 16) :
    isHexDigit (hexDigitUpper m) = true := by
  simp only [isHexDigit, isAsciiDigit, Bool.or_eq_true, decide_eq_true_eq]
  have := toNat_hexDigitUpper h
  by_cases h10 : m < 10 <;> simp [h10] at this <;> omega

theorem hexVal_hexDigitUpper {m : Nat} (h : m < 16) :
    hexVal (hexDigitUpper m) = m := by
  unfold hexVal
  have ht := toNat_hexDigitUpper h
  by_cases h10 : m < 10
  · rw [if_pos h10] at ht
    rw [if_pos (by simp only [isAsciiDigit, decide_eq_true_eq]; omega)]
    omega
  · rw [if_neg h10] at ht
    rw [if_neg (by simp only [isAsciiDigit, decide_eq_true_eq]; omega),
        if_neg (by omega)]
    omega

theorem hexDigitUpper_alwaysSafe {m : Nat} (h : m < 16) :
    alwaysSafe (hexDigitUpper m) = true := by
  simp only [alwaysSafe, isAsciiAlnum, isAsciiAlpha, isAsciiDigit,
    Bool.or_eq_true, decide_eq_true_eq]
  have := toNat_hexDigitUpper h
  by_cases h10 : m < 10 <;> simp [h10] at this
  · left; right; omega
  · left; left; right; omega

theorem alwaysSafe_toNat {c : Char} (h : alwaysSafe c = true) :
    (48 ≤ c.toNat ∧ c.toNat ≤ 57) ∨ (65 ≤ c.toNat ∧ c.toNat ≤ 90) ∨
    (97 ≤ c.toNat ∧ c.toNat ≤ 122) ∨ c.toNat = 95 ∨ c.toNat = 46 ∨
    c.toNat = 45 ∨ c.toNat = 126 := by
  simp only [alwaysSafe, isAsciiAlnum, isAsciiAlpha, isAsciiDigit,
    Bool.or_eq_true, decide_eq_true_eq] at h
  rcases h with ((h | h) | h) | h | h | h | h
  · right; right; left; exact h
  · right; left; exact h
  · left; exact h
  · right; right; right; left; rw [h]; rfl
  · right; right; right; right; left; rw [h]; rfl
  · right; right; right; right; right; left; rw [h]; rfl
  · right; right; right; right; right; right; rw [h]; rfl

theorem pctDecodeBytes_cons_plain {c : Char} (rest : Str) (h : c ≠ '%') :
    pctDecodeBytes (c :: rest) = c.toNat :: pctDecodeBytes rest := by
  conv_lhs => unfold pctDecodeBytes
  simp only [h, if_false]

theorem pctDecodeBytes_pctByte {b : Nat} (h : b < 256) (rest : Str) :
    pctDecodeBytes (pctByte b ++ rest) = b :: pctDecodeBytes rest := by
  have h1 : b / 16 < 16 := by omega
  have h2 : b % 16 < 16 := by omega
  unfold pctByte
  conv_lhs => unfold pctDecodeBytes
  simp only [List.cons_append, List.nil_append, if_pos rfl,
    isHexDigit_hexDigitUpper h1, isHexDigit_hexDigitUpper h2, and_self, if_true,
    hexVal_hexDigitUpper h1, hexVal_hexDigitUpper h2]
  congr 1
  omega

theorem utf8Encode_lt_256 (c : Char) : ∀ b ∈ utf8Encode c, b < 256 := by
  intro b hb
  have hval := char_valid_toNat c
  unfold utf8Encode at hb
  by_cases h1 : c.toNat < 0x80
  · simp only [h1, if_true, List.mem_singleton] at hb
    omega
  · by_cases h2 : c.toNat < 0x800
    · simp only [h1, if_false, h2, if_true, List.mem_cons, List.mem_singleton,
        List.not_mem_nil, or_false] at hb
      rcases hb with hb | hb <;> omega
    · by_cases h3 : c.toNat < 0x10000
      · simp only [h1, if_false, h2, if_false, h3, if_true, List.mem_cons,
          List.not_mem_nil, or_false] at hb
        rcases hb with hb | hb | hb <;> omega
      · simp only [h1, if_false, h2, if_false, h3, if_false, List.mem_cons,
          List.not_mem_nil, or_false] at hb
        rcases hb with hb | hb | hb | hb <;> omega

theorem pctDecodeBytes_flatPct {bs : List Nat} (h : ∀ b ∈ bs, b < 256) (rest : Str) :
    pctDecodeBytes (bs.flatMap pctByte ++ rest) = bs ++ pctDecodeBytes rest := by
  induction bs with
  | nil => simp
  | cons b t ih =>
    rw [List.flatMap_cons, List.append_assoc,
        pctDecodeBytes_pctByte (h b (by simp)), List.cons_append,
        ih (fun x hx => h x (by simp [hx]))]

theorem pctDecodeBytes_nil : pctDecodeBytes [] = [] := by
  unfold pctDecodeBytes
  rfl

theorem alwaysSafe_ascii {c : Char} (h : alwaysSafe c = true) : c.toNat < 128 := by
  rcases alwaysSafe_toNat h with h | h | h | h | h | h | h <;> omega

theorem alwaysSafe_ne_plus {c : Char} (h : alwaysSafe c = true) : c ≠ '+' := by
  intro he
  rw [he] at h
  exact absurd h (by decide)

theorem alwaysSafe_ne_pct {c : Char} (h : alwaysSafe c = true) : c ≠ '%' := by
  intro he
  rw [he] at h
  exact absurd h (by decide)

theorem mem_pctByte {b : Nat} (hb : b < 256) {c : Char} (h : c ∈ pctByte b) :
    c = '%' ∨ alwaysSafe c = true := by
  unfold pctByte at h
  simp only [List.mem_cons, List.not_mem_nil, or_false] at h
  rcases h with h | h | h
  · exact Or.inl h
  · exact Or.inr (h ▸ hexDigitUpper_alwaysSafe (by omega))
  · exact Or.inr (h ▸ hexDigitUpper_alwaysSafe (by omega))

/-- Every character of a `quote_plus` output is always-safe, `+`, or `%`. -/
theorem mem_quotePlus {v : Str} {c : Char} (h : c ∈ quotePlus v) :
    alwaysSafe c = true ∨ c = '+' ∨ c = '%' := by
  unfold quotePlus at h
  simp only [List.mem_flatMap] at h
  obtain ⟨x, _, hx⟩ := h
  by_cases hs : alwaysSafe x
  · rw [if_pos hs, List.mem_singleton] at hx
    exact Or.inl (hx ▸ hs)
  · by_cases hsp : x = ' '
    · rw [if_neg hs, if_pos hsp, List.mem_singleton] at hx
      exact Or.inr (Or.inl hx)
    · rw [if_neg hs, if_neg hsp] at hx
      simp only [List.mem_flatMap] at hx
      obtain ⟨b, hb, hcb⟩ := hx
      rcases mem_pctByte (utf8Encode_lt_256 x b hb) hcb with h' | h'
      · exact Or.inr (Or.inr h')
      · exact Or.inl h'

theorem quotePlus_cons (c : Char) (v : Str) :
    quotePlus (c :: v) =
      (if alwaysSafe c then [c]
       else if c = ' ' then ['+']
       else (utf8Encode c).flatMap pctByte) ++ quotePlus v := by
  unfold quotePlus
  rw [List.flatMap_cons]

theorem replPlus_append (a b : Str) : replPlus (a ++ b) = replPlus a ++ replPlus b := by
  unfold replPlus
  rw [List.map_append]

theorem replPlus_eq_self {s : Str} (h : '+' ∉ s) : replPlus s = s := by
  unfold replPlus
  rw [List.map_congr_left, List.map_id']
  intro c hc
  rw [if_neg]
  intro he
  exact h (he ▸ hc)

theorem pct_decode_replPlus_quote (v : Str) (rest : Str) :
    pctDecodeBytes (replPlus (quotePlus v) ++ rest) =
      v.flatMap utf8Encode ++ pctDecodeBytes rest := by
  induction v with
  | nil => simp [replPlus, quotePlus]
  | cons c t ih =>
    rw [quotePlus_cons, replPlus_append, List.append_assoc, List.flatMap_cons,
        List.append_assoc]
    by_cases hs : alwaysSafe c
    · rw [if_pos hs]
      have h1 : replPlus [c] = [c] := by
        rw [replPlus_eq_self]
        simp only [List.mem_singleton]
        intro he
        exact alwaysSafe_ne_plus hs he.symm
      rw [h1, List.cons_append, List.nil_append,
          pctDecodeBytes_cons_plain _ (alwaysSafe_ne_pct hs), ih]
      have h2 : utf8Encode c = [c.toNat] := by
        unfold utf8Encode
        rw [if_pos (alwaysSafe_ascii hs)]
      rw [h2, List.cons_append, List.nil_append]
    · by_cases hsp : c = ' '
      · subst hsp
        rw [if_neg hs, if_pos rfl]
        have h1 : replPlus ['+'] = [' '] := rfl
        rw [h1, List.cons_append, List.nil_append,
            pctDecodeBytes_cons_plain _ (by decide), ih]
        rfl
      · rw [if_neg hs, if_neg hsp]
        have h1 : replPlus ((utf8Encode c).flatMap pctByte) = (utf8Encode c).flatMap pctByte := by
          apply replPlus_eq_self
          intro hmem
          simp only [List.mem_flatMap] at hmem
          obtain ⟨b, hb, hcb⟩ := hmem
          rcases mem_pctByte (utf8Encode_lt_256 c b hb) hcb with h' | h'
          · exact absurd h'.symm (by decide)
          · exact absurd h' (by decide)
        rw [h1, pctDecodeBytes_flatPct (utf8Encode_lt_256 c), ih]

theorem unquoteM_all_ascii {s : Str} (h : ∀ c ∈ s, isAsciiChar c = true) :
    unquoteM s = utf8Decode (pctDecodeBytes s) := by
  match s with
  | [] =>
    rw [pctDecodeBytes_nil, utf8Decode_nil]
    unfold unquoteM
    rfl
  | c :: t =>
    conv_lhs => unfold unquoteM
    have hc : isAsciiChar c = true := h c (by simp)
    simp only [hc, if_true]
    rw [List.takeWhile_eq_self_iff.mpr h,
        List.dropWhile_eq_nil_iff.mpr (fun x hx => h x hx)]
    conv_lhs => unfold unquoteM
    rw [List.append_nil]

/-- The central query round-trip: `parse_qsl`-style decoding undoes
`quote_plus` encoding. -/
theorem unquote_replPlus_quotePlus (v : Str) :
    unquoteM (replPlus (quotePlus v)) = v := by
  have hascii : ∀ c ∈ replPlus (quotePlus v), isAsciiChar c = true := by
    intro c hc
    unfold replPlus at hc
    simp only [List.mem_map] at hc
    obtain ⟨x, hx, hcx⟩ := hc
    rcases mem_quotePlus hx with h' | h' | h'
    · have := alwaysSafe_ascii h'
      by_cases hx' : x = '+'
      · simp only [hx', if_pos rfl] at hcx
        rw [← hcx]; decide
      · simp only [hx', if_false] at hcx
        rw [← hcx]
        simp only [isAsciiChar, decide_eq_true_eq]
        omega
    · simp only [h', if_pos rfl] at hcx
      rw [← hcx]; decide
    · have hx' : x ≠ '+' := by rw [h']; decide
      simp only [hx', if_false] at hcx
      rw [← hcx, h']; decide
  rw [unquoteM_all_ascii hascii]
  have := pct_decode_replPlus_quote v []
  rw [List.append_nil] at this
  rw [this, pctDecodeBytes_nil, List.append_nil, utf8Decode_flat]

/-! ## `parse_qs` / `urlencode` round-trip -/

theorem quotePlus_ne_nil {v : Str} (h : v ≠ []) : quotePlus v ≠ [] := by
  match v with
  | c :: t =>
    rw [quotePlus_cons]
    by_cases hs : alwaysSafe c
    · rw [if_pos hs]; simp
    · by_cases hsp : c = ' '
      · rw [if_neg hs, if_pos hsp]; simp
      · rw [if_neg hs, if_neg hsp]
        intro habs
        rcases List.append_eq_nil.mp habs with ⟨h1, -⟩
        have henc : utf8Encode c ≠ [] := by
          unfold utf8Encode
          by_cases a1 : c.toNat < 0x80
          · simp [a1]
          · by_cases a2 : c.toNat < 0x800
            · simp [a1, a2]
            · by_cases a3 : c.toNat < 0x10000 <;> simp [a1, a2, a3]
        match he : utf8Encode c with
        | b :: bs =>
          rw [he, List.flatMap_cons] at h1
          rcases List.append_eq_nil.mp h1 with ⟨h2, -⟩
          exact absurd h2 (by simp [pctByte])
        | [] => exact henc he

theorem utf8Decode_ne_nil (b : Nat) (bs : List Nat) : utf8Decode (b :: bs) ≠ [] := by
  conv_lhs => unfold utf8Decode
  repeat' split
  all_goals simp

theorem pctDecodeBytes_ne_nil {s : Str} (h : s ≠ []) : pctDecodeBytes s ≠ [] := by
  match s with
  | c :: t =>
    conv_lhs => unfold pctDecodeBytes
    repeat' split
    all_goals simp

theorem unquoteM_ne_nil {s : Str} (h : s ≠ []) : unquoteM s ≠ [] := by
  match s with
  | c :: t =>
    conv_lhs => unfold unquoteM
    by_cases hc : isAsciiChar c = true
    · simp only [hc, if_true]
      intro habs
      rcases List.append_eq_nil.mp habs with ⟨h1, -⟩
      have hrun : (c :: t).takeWhile isAsciiChar ≠ [] := by
        rw [List.takeWhile_cons, if_pos hc]
        simp
      match hr : (c :: t).takeWhile isAsciiChar with
      | x :: r =>
        rw [hr] at h1
        have := pctDecodeBytes_ne_nil (s := x :: r) (by simp)
        match hb : pctDecodeBytes (x :: r) with
        | b :: bs => rw [hb] at h1; exact utf8Decode_ne_nil b bs h1
        | [] => exact this hb
      | [] => exact hrun hr
    · simp [hc]

theorem replPlus_ne_nil {s : Str} (h : s ≠ []) : replPlus s ≠ [] := by
  unfold replPlus
  simpa using h

theorem mem_encField_k {p : Str × Str} {c : Char} (h : c ∈ encField p) :
    alwaysSafe c = true ∨ c = '+' ∨ c = '%' ∨ c = '=' := by
  unfold encField at h
  rcases List.mem_append.mp h with h | h
  · rcases mem_quotePlus h with h' | h' | h' <;> simp [h']
  · rcases List.mem_cons.mp h with h | h
    · simp [h]
    · rcases mem_quotePlus h with h' | h' | h' <;> simp [h']

theorem encField_no_amp {p : Str × Str} : '&' ∉ encField p := by
  intro h
  rcases mem_encField_k h with h' | h' | h' | h'
  · exact absurd h' (by decide)
  all_goals simp at h'

theorem splitAll_no_sep {sep : Char} {f : Str} (h : sep ∉ f) : splitAll sep f = [f] := by
  induction f with
  | nil => rfl
  | cons c t ih =>
    simp only [List.mem_cons, not_or] at h
    unfold splitAll
    rw [if_neg (Ne.symm h.1), ih h.2]

theorem splitAll_append {sep : Char} {f : Str} (rest : Str) (h : sep ∉ f) :
    splitAll sep (f ++ sep :: rest) = f :: splitAll sep rest := by
  induction f with
  | nil =>
    simp only [List.nil_append]
    conv_lhs => unfold splitAll
    rw [if_pos rfl]
  | cons c t ih =>
    simp only [List.mem_cons, not_or] at h
    rw [List.cons_append]
    conv_lhs => unfold splitAll
    rw [if_neg (Ne.symm h.1), ih h.2]

theorem splitAll_joinAmp {l : List Str} (hne : l ≠ [])
    (h : ∀ f ∈ l, '&' ∉ f) : splitAll '&' (joinAmp l) = l := by
  induction l with
  | nil => exact absurd rfl hne
  | cons f fs ih =>
    match fs with
    | [] =>
      have hj : joinAmp [f] = f := by simp [joinAmp]
      rw [hj]
      exact splitAll_no_sep (h f (by simp))
    | g :: gs =>
      have hj : joinAmp (f :: g :: gs) = f ++ '&' :: joinAmp (g :: gs) := by
        simp [joinAmp]
      rw [hj, splitAll_append _ (h f (by simp)),
          ih (by simp) (fun x hx => h x (by simp [hx]))]

theorem quotePlus_no_eq {v : Str} : '=' ∉ quotePlus v := by
  intro h
  rcases mem_quotePlus h with h' | h' | h'
  · exact absurd h' (by decide)
  all_goals simp at h'

theorem parseQslField_encField {k v : Str} (hv : v ≠ []) :
    parseQslField (encField (k, v)) = some (k, v) := by
  have hf : encField (k, v) = quotePlus k ++ '=' :: quotePlus v := rfl
  rw [hf]
  unfold parseQslField
  rw [if_neg (by
    intro habs
    rcases List.append_eq_nil.mp habs with ⟨-, h2⟩
    simp at h2)]
  rw [splitFirst_append_sep quotePlus_no_eq]
  show (if quotePlus v = [] then none
        else some (unquoteM (replPlus (quotePlus k)), unquoteM (replPlus (quotePlus v))))
      = some (k, v)
  rw [if_neg (quotePlus_ne_nil hv), unquote_replPlus_quotePlus, unquote_replPlus_quotePlus]

theorem parseQsl_urlencodeSeq {d : List (Str × List Str)}
    (hne : ungroup d ≠ [])
    (hv : ∀ p ∈ ungroup d, p.2 ≠ []) :
    parseQsl (urlencodeSeq d) = ungroup d := by
  unfold parseQsl urlencodeSeq
  rw [if_neg (by
    intro habs
    match hu : ungroup d with
    | [] => exact hne hu
    | p :: ps =>
      rw [hu, List.map_cons] at habs
      unfold joinAmp at habs
      rcases List.append_eq_nil.mp habs with ⟨h1, -⟩
      unfold encField at h1
      rcases List.append_eq_nil.mp h1 with ⟨-, h2⟩
      simp at h2)]
  rw [splitAll_joinAmp (by simpa using hne)
      (by
        intro f hf
        rcases List.mem_map.mp hf with ⟨p, -, hp⟩
        rw [← hp]
        exact encField_no_amp)]
  rw [List.filterMap_map]
  have : ∀ p ∈ ungroup d, (parseQslField ∘ encField) p = some p := by
    intro p hp
    match p with
    | (k, v) => exact parseQslField_encField (hv (k, v) hp)
  calc List.filterMap (parseQslField ∘ encField) (ungroup d)
      = List.filterMap some (ungroup d) := List.filterMap_congr this
    _ = ungroup d := List.filterMap_some (ungroup d)

/-! ## Grouping lemmas (the dict built by `parse_qs`) -/

theorem groupPairs_cons (k : Str) (v : Str) (t : List (Str × Str)) :
    groupPairs ((k, v) :: t) =
      (k, v :: (t.filter (fun p => p.1 = k)).map (·.2)) ::
        groupPairs (t.filter (fun p => p.1 ≠ k)) := by
  conv_lhs => unfold groupPairs

theorem groupPairs_nil : groupPairs [] = [] := by
  unfold groupPairs
  rfl

theorem mem_keys_groupPairs {l : List (Str × Str)} {k : Str}
    (h : k ∈ (groupPairs l).map (·.1)) : k ∈ l.map (·.1) := by
  induction l using groupPairs.induct with
  | case1 => simp [groupPairs_nil] at h
  | case2 k' v t ih =>
    rw [groupPairs_cons, List.map_cons] at h
    rcases List.mem_cons.mp h with h | h
    · simp [h]
    · have := ih h
      simp only [List.mem_map] at this ⊢
      obtain ⟨p, hp, hpk⟩ := this
      exact ⟨p, by simp [List.mem_filter.mp hp |>.1], hpk⟩

theorem groupPairs_keys_nodup (l : List (Str × Str)) :
    ((groupPairs l).map (·.1)).Nodup := by
  induction l using groupPairs.induct with
  | case1 => simp [groupPairs_nil]
  | case2 k v t ih =>
    rw [groupPairs_cons, List.map_cons]
    refine List.Nodup.cons ?_ ih
    intro hmem
    have := mem_keys_groupPairs hmem
    simp only [List.mem_map] at this
    obtain ⟨p, hp, hpk⟩ := this
    have := List.mem_filter.mp hp |>.2
    simp only [ne_eq, decide_not, Bool.not_eq_eq_eq_not, Bool.not_true,
      decide_eq_false_iff_not] at this
    exact this hpk

theorem groupPairs_values_ne_nil {l : List (Str × Str)} :
    ∀ kv ∈ groupPairs l, kv.2 ≠ [] := by
  induction l using groupPairs.induct with
  | case1 => simp [groupPairs_nil]
  | case2 k v t ih =>
    rw [groupPairs_cons]
    intro kv hkv
    rcases List.mem_cons.mp hkv with h | h
    · rw [h]; simp
    · exact ih kv h

theorem groupPairs_value_mem {l : List (Str × Str)} :
    ∀ kv ∈ groupPairs l, ∀ v ∈ kv.2, (kv.1, v) ∈ l := by
  induction l using groupPairs.induct with
  | case1 => simp [groupPairs_nil]
  | case2 k v t ih =>
    rw [groupPairs_cons]
    intro kv hkv w hw
    rcases List.mem_cons.mp hkv with h | h
    · subst h
      rcases List.mem_cons.mp hw with h | h
      · rw [h]
        exact List.mem_cons_self _ _
      · simp only [List.mem_map] at h
        obtain ⟨p, hp, hpv⟩ := h
        have hmem := List.mem_filter.mp hp
        have hk : p.1 = k := by simpa using hmem.2
        right
        have : p = (k, w) := by
          rcases p with ⟨p1, p2⟩
          simp only [Prod.mk.injEq]
          exact ⟨hk, hpv⟩
        exact this ▸ hmem.1
    · exact List.mem_cons_of_mem _ (List.mem_filter.mp (ih kv h w hw) |>.1)

theorem groupPairs_ungroup {d : List (Str × List Str)}
    (hk : (d.map (·.1)).Nodup) (hv : ∀ kv ∈ d, kv.2 ≠ []) :
    groupPairs (ungroup d) = d := by
  induction d with
  | nil => exact groupPairs_nil
  | cons kv d' ih =>
    rcases kv with ⟨k, vs⟩
    match vs, hv (k, vs) (by simp) with
    | v :: vs', _ =>
      have hnotin : k ∉ d'.map (·.1) := by
        rw [List.map_cons] at hk
        exact (List.nodup_cons.mp hk).1
      have hkey : ∀ p ∈ ungroup d', p.1 ≠ k := by
        intro p hp
        unfold ungroup at hp
        simp only [List.mem_flatMap, List.mem_map] at hp
        obtain ⟨q, hq, w, -, hw⟩ := hp
        intro habs
        apply hnotin
        simp only [List.mem_map]
        exact ⟨q, hq, by rw [← hw] at habs; exact habs⟩
      have hung : ungroup ((k, v :: vs') :: d') =
          (k, v) :: (vs'.map (fun w => (k, w)) ++ ungroup d') := by
        unfold ungroup
        simp
      rw [hung, groupPairs_cons]
      have hfil1 : (vs'.map (fun w => (k, w)) ++ ungroup d').filter
          (fun p => p.1 = k) = vs'.map (fun w => (k, w)) := by
        rw [List.filter_append]
        rw [List.filter_eq_self.mpr (by
          intro p hp
          simp only [List.mem_map] at hp
          obtain ⟨w, -, hw⟩ := hp
          rw [← hw]
          simp)]
        rw [List.filter_eq_nil_iff.mpr (by
          intro p hp
          simpa using hkey p hp), List.append_nil]
      have hfil2 : (vs'.map (fun w => (k, w)) ++ ungroup d').filter
          (fun p => p.1 ≠ k) = ungroup d' := by
        rw [List.filter_append]
        rw [List.filter_eq_nil_iff.mpr (by
          intro p hp
          simp only [List.mem_map] at hp
          obtain ⟨w, -, hw⟩ := hp
          rw [← hw]
          simp), List.nil_append]
        rw [List.filter_eq_self.mpr (by
          intro p hp
          simpa using hkey p hp)]
      rw [hfil1, hfil2]
      rw [List.map_map]
      have : vs'.map ((·.2) ∘ fun w => (k, w)) = vs' := by
        rw [show ((·.2) ∘ fun w => (k, w)) = (id : Str → Str) from rfl, List.map_id]
      rw [this]
      rw [ih (by rw [List.map_cons] at hk; exact (List.nodup_cons.mp hk).2)
            (fun q hq => hv q (by simp [hq]))]

/-! ## Query-part stability -/

theorem parseQsl_values_ne_nil {q : Str} : ∀ p ∈ parseQsl q, p.2 ≠ [] := by
  intro p hp
  unfold parseQsl at hp
  by_cases hq : q = []
  · rw [if_pos hq] at hp
    simp at hp
  · rw [if_neg hq] at hp
    obtain ⟨f, -, hf⟩ := List.mem_filterMap.mp hp
    unfold parseQslField at hf
    by_cases hfe : f = []
    · rw [if_pos hfe] at hf
      simp at hf
    · rw [if_neg hfe] at hf
      match hsp : splitFirst '=' f with
      | none => rw [hsp] at hf; simp at hf
      | some (name, value) =>
        rw [hsp] at hf
        have hred : (match some (name, value) with
            | none => none
            | some (name, value) =>
              if value = [] then none
              else some (unquoteM (replPlus name), unquoteM (replPlus value)))
            = (if value = [] then none
               else some (unquoteM (replPlus name), unquoteM (replPlus value))) := rfl
        rw [hred] at hf
        by_cases hv : value = []
        · rw [if_pos hv] at hf
          simp at hf
        · rw [if_neg hv] at hf
          simp only [Option.some_inj] at hf
          rw [← hf]
          exact unquoteM_ne_nil (replPlus_ne_nil hv)

theorem filter_filter_eq {α : Type} (p q : α → Bool) (l : List α)
    (h : ∀ a ∈ l, q a = true → p a = true) :
    (l.filter q).filter p = l.filter q := by
  rw [List.filter_eq_self]
  intro a ha
  exact h a (List.mem_filter.mp ha |>.1) (List.mem_filter.mp ha |>.2)

/-- Key-filtering commutes with the `parse_qs` grouping. -/
theorem groupPairs_filter_comm (p : Str → Bool) (l : List (Str × Str)) :
    (groupPairs l).filter (fun kv => p kv.1) =
      groupPairs (l.filter (fun kv => p kv.1)) := by
  induction l using groupPairs.induct with
  | case1 => simp [groupPairs_nil]
  | case2 k v t ih =>
    rw [groupPairs_cons, List.filter_cons]
    by_cases hk : p k = true
    · rw [if_pos (by simpa using hk)]
      have hr : List.filter (fun kv => p kv.1) ((k, v) :: t) =
          (k, v) :: t.filter (fun kv => p kv.1) := by
        rw [List.filter_cons, if_pos (by simpa using hk)]
      rw [hr, groupPairs_cons, ih]
      have h1 : List.filter (fun q => q.1 = k) (List.filter (fun kv => p kv.1) t)
          = List.filter (fun q => q.1 = k) t := by
        rw [List.filter_comm]
        apply filter_filter_eq
        intro a _ haq
        have ha : a.1 = k := by simpa using haq
        rw [ha]
        exact hk
      have h2 : List.filter (fun kv => p kv.1) (List.filter (fun q => q.1 ≠ k) t)
          = List.filter (fun q => q.1 ≠ k) (List.filter (fun kv => p kv.1) t) :=
        List.filter_comm _ _ _
      rw [h1, h2]
    · rw [if_neg (by simpa using hk)]
      have hr : List.filter (fun kv => p kv.1) ((k, v) :: t) =
          t.filter (fun kv => p kv.1) := by
        rw [List.filter_cons, if_neg (by simpa using hk)]
      rw [hr, ih]
      congr 1
      rw [List.filter_comm]
      apply filter_filter_eq
      intro a _ haq
      have hap : p a.1 = true := by simpa using haq
      simp only [ne_eq, decide_not, Bool.not_eq_eq_eq_not, Bool.not_true,
        decide_eq_false_iff_not]
      intro habs
      rw [habs] at hap
      rw [hap] at hk
      exact hk rfl

theorem ungroup_ne_nil {d : List (Str × List Str)} (hd : d ≠ [])
    (hv : ∀ kv ∈ d, kv.2 ≠ []) : ungroup d ≠ [] := by
  match d with
  | (k, vs) :: d' =>
    have := hv (k, vs) (by simp)
    match vs, this with
    | v :: vs', _ =>
      unfold ungroup
      simp

/-- Re-parsing a `canonQueryPart` output and filtering again reproduces the
filtered dict, hence `canonQueryPart` is idempotent. -/
theorem canonQueryPart_stable (q : Str) :
    canonQueryPart (canonQueryPart q) = canonQueryPart q := by
  unfold canonQueryPart
  set d := (parseQs q).filter (fun kv => lowerS kv.1 ∉ TRACKING_PARAMS) with hd
  by_cases hdn : d ≠ []
  · rw [if_pos hdn]
    have hkeys : (d.map (·.1)).Nodup := by
      rw [hd]
      exact (groupPairs_keys_nodup (parseQsl q)).sublist
        ((List.filter_sublist _).map _)
    have hvals : ∀ kv ∈ d, kv.2 ≠ [] := by
      intro kv hkv
      exact groupPairs_values_ne_nil kv (List.mem_filter.mp hkv |>.1)
    have hvelem : ∀ p ∈ ungroup d, p.2 ≠ [] := by
      intro p hp
      unfold ungroup at hp
      simp only [List.mem_flatMap, List.mem_map] at hp
      obtain ⟨kv, hkv, w, hw, hpw⟩ := hp
      have hmem : (kv.1, w) ∈ parseQsl q :=
        groupPairs_value_mem kv (List.mem_filter.mp hkv |>.1) w hw
      have := parseQsl_values_ne_nil (kv.1, w) hmem
      rw [← hpw]
      exact this
    have hparse : parseQs (urlencodeSeq d) = d := by
      unfold parseQs
      rw [parseQsl_urlencodeSeq (ungroup_ne_nil hdn hvals) hvelem]
      exact groupPairs_ungroup hkeys hvals
    rw [hparse]
    have hfd : d.filter (fun kv => lowerS kv.1 ∉ TRACKING_PARAMS) = d := by
      rw [hd, filter_filter_eq]
      intro a _ h
      exact h
    rw [hfd, if_pos hdn]
  · rw [if_neg hdn]
    push_neg at hdn
    have : parseQs ([] : Str) = [] := by
      unfold parseQs parseQsl
      simp [groupPairs_nil]
    rw [this]
    simp [hdn]

/-! ## Scheme-detection helpers and parse-result well-formedness -/

/-- The condition under which `urlsplit` recognizes a scheme prefix. -/
def schemeDetectable (s : Str) : Bool :=
  match splitFirst ':' s with
  | none => false
  | some (pre, _) => pre ≠ [] ∧ isAsciiAlpha pre.headI ∧ pre.tail.all isSchemeChar

theorem splitScheme_not_detectable {s : Str} (h : schemeDetectable s = false) :
    splitScheme s = ([], s) := by
  unfold splitScheme
  unfold schemeDetectable at h
  match hsp : splitFirst ':' s with
  | none => rfl
  | some (pre, post) =>
    rw [hsp] at h
    have h' : ¬(pre ≠ [] ∧ isAsciiAlpha (List.headI pre) = true ∧
        (List.tail pre).all isSchemeChar = true) := of_decide_eq_false h
    show (if pre ≠ [] ∧ isAsciiAlpha (List.headI pre) = true ∧
        (List.tail pre).all isSchemeChar = true then (lowerS pre, post) else ([], s))
      = ([], s)
    rw [if_neg h']

theorem splitScheme_detected {pre post : Str} (hne : pre ≠ [])
    (hhead : isAsciiAlpha pre.headI = true) (htail : pre.tail.all isSchemeChar = true)
    (hnc : ':' ∉ pre) :
    splitScheme (pre ++ ':' :: post) = (lowerS pre, post) := by
  unfold splitScheme
  rw [splitFirst_append_sep hnc]
  show (if pre ≠ [] ∧ isAsciiAlpha (List.headI pre) = true ∧
      (List.tail pre).all isSchemeChar = true then (lowerS pre, post)
      else ([], pre ++ ':' :: post))
    = (lowerS pre, post)
  rw [if_pos ⟨hne, hhead, htail⟩]

theorem schemeDetectable_of_prefix {a s : Str} (hpre : a <+: s)
    (h : schemeDetectable s = false) : schemeDetectable a = false := by
  unfold schemeDetectable at *
  match hsp : splitFirst ':' a with
  | none => rfl
  | some (pre, rest) =>
    obtain ⟨hdec, hnc⟩ := splitFirst_eq_some hsp
    obtain ⟨tail, htail⟩ := hpre
    rw [← htail, hdec, List.append_assoc, List.cons_append,
        splitFirst_append_sep hnc] at h
    exact h

theorem exists_splitFirst_of_mem {sep : Char} {s : Str} (h : sep ∈ s) :
    ∃ a b, splitFirst sep s = some (a, b) := by
  induction s with
  | nil => simp at h
  | cons c t ih =>
    rw [splitFirst_cons]
    by_cases hc : c = sep
    · exact ⟨[], t, by rw [if_pos hc]⟩
    · rcases List.mem_cons.mp h with hx | hx
      · exact absurd hx.symm hc
      · obtain ⟨a, b, hab⟩ := ih hx
        exact ⟨c :: a, b, by rw [if_neg hc, hab, Option.map_some']⟩

theorem schemeDetectable_append {p q : Str} (hp : schemeDetectable p = false)
    (hq : ':' ∉ q) : schemeDetectable (p ++ q) = false := by
  by_cases hc : ':' ∈ p
  · obtain ⟨pre, rest, hsp⟩ := exists_splitFirst_of_mem hc
    obtain ⟨hdec, hnc⟩ := splitFirst_eq_some hsp
    unfold schemeDetectable at *
    rw [hsp] at hp
    rw [hdec, List.append_assoc, List.cons_append, splitFirst_append_sep hnc]
    exact hp
  · unfold schemeDetectable
    rw [splitFirst_eq_none (by
      simp only [List.mem_append, not_or]
      exact ⟨hc, hq⟩)]

theorem schemeDetectable_head_not_alpha {s : Str}
    (h : s ≠ [] → isAsciiAlpha s.headI = false) : schemeDetectable s = false := by
  unfold schemeDetectable
  match hsp : splitFirst ':' s with
  | none => rfl
  | some (pre, rest) =>
    obtain ⟨hdec, -⟩ := splitFirst_eq_some hsp
    match pre with
    | [] => simp
    | c :: pre' =>
      have hs : s ≠ [] := by rw [hdec]; simp
      have hh : s.headI = c := by rw [hdec]; rfl
      have := h hs
      rw [hh] at this
      simp [this]

theorem splitFirst_none_not_mem {sep : Char} {s : Str}
    (h : splitFirst sep s = none) : sep ∉ s := by
  intro hmem
  obtain ⟨a, b, hab⟩ := exists_splitFirst_of_mem hmem
  rw [hab] at h
  exact Option.noConfusion h

theorem splitScheme_cases (s : Str) :
    (splitScheme s = ([], s) ∧ schemeDetectable s = false) ∨
    ∃ pre post, s = pre ++ ':' :: post ∧ pre ≠ [] ∧ isAsciiAlpha pre.headI = true ∧
      pre.tail.all isSchemeChar = true ∧ ':' ∉ pre ∧
      splitScheme s = (lowerS pre, post) := by
  by_cases hd : schemeDetectable s = false
  · exact Or.inl ⟨splitScheme_not_detectable hd, hd⟩
  · right
    rw [Bool.not_eq_false] at hd
    unfold schemeDetectable at hd
    match hsp : splitFirst ':' s with
    | none => rw [hsp] at hd; exact absurd hd (by simp)
    | some (pre, post) =>
      rw [hsp] at hd
      have hc := of_decide_eq_true hd
      obtain ⟨hdec, hnc⟩ := splitFirst_eq_some hsp
      exact ⟨pre, post, hdec, hc.1, hc.2.1, hc.2.2,
        hnc, by rw [hdec]; exact splitScheme_detected hc.1 hc.2.1 hc.2.2 hnc⟩

theorem splitNetloc_ok_cases {url n rest : Str} (h : splitNetloc url = .ok (n, rest)) :
    (url.take 2 ≠ ['/', '/'] ∧ n = [] ∧ rest = url) ∨
    (url.take 2 = ['/', '/'] ∧ n = (url.drop 2).takeWhile (fun c => ¬ isNetlocStop c) ∧
     rest = (url.drop 2).dropWhile (fun c => ¬ isNetlocStop c) ∧
     (('[' ∈ n) ↔ (']' ∈ n))) := by
  unfold splitNetloc at h
  by_cases ht : url.take 2 = ['/', '/']
  · rw [if_pos ht] at h
    by_cases hbr : ('[' ∈ (url.drop 2).takeWhile (fun c => ¬ isNetlocStop c)) ↔
        (']' ∈ (url.drop 2).takeWhile (fun c => ¬ isNetlocStop c))
    · rw [if_pos hbr] at h
      simp only [Except.ok.injEq, Prod.mk.injEq] at h
      exact Or.inr ⟨ht, h.1.symm, h.2.symm, h.1 ▸ hbr⟩
    · rw [if_neg hbr] at h
      exact Except.noConfusion h
  · rw [if_neg ht] at h
    simp only [Except.ok.injEq, Prod.mk.injEq] at h
    exact Or.inl ⟨ht, h.1.symm, h.2.symm⟩

theorem splitLast_eq_some {sep : Char} {s a b : Str}
    (h : splitLast sep s = some (a, b)) : s = a ++ sep :: b ∧ sep ∉ b := by
  unfold splitLast at h
  match hsp : splitFirst sep s.reverse with
  | none => rw [hsp] at h; exact Option.noConfusion h
  | some (x, y) =>
    rw [hsp] at h
    simp only [Option.some_inj, Prod.mk.injEq] at h
    obtain ⟨hdec, hnm⟩ := splitFirst_eq_some hsp
    constructor
    · rw [← h.1, ← h.2]
      have := congrArg List.reverse hdec
      rw [List.reverse_reverse] at this
      rw [this, List.reverse_append, List.reverse_cons, List.append_assoc]
      simp
    · rw [← h.2]
      simpa using hnm

theorem splitParams_eq {url p prm : Str} (h : splitParams url = (p, prm)) :
    (p = url ∧ prm = []) ∨ url = p ++ ';' :: prm := by
  unfold splitParams at h
  by_cases hs : '/' ∈ url
  · rw [if_pos hs] at h
    match hsl : splitLast '/' url with
    | none =>
      rw [hsl] at h
      simp only [Prod.mk.injEq] at h
      exact Or.inl ⟨h.1.symm, h.2.symm⟩
    | some (pre, suf) =>
      rw [hsl] at h
      obtain ⟨hdec, -⟩ := splitLast_eq_some hsl
      replace h : (match splitFirst ';' suf with
          | some (s1, s2) => (pre ++ '/' :: s1, s2)
          | none => (url, [])) = (p, prm) := h
      match hsf : splitFirst ';' suf with
      | none =>
        rw [hsf] at h
        simp only [Prod.mk.injEq] at h
        exact Or.inl ⟨h.1.symm, h.2.symm⟩
      | some (s1, s2) =>
        rw [hsf] at h
        simp only [Prod.mk.injEq] at h
        obtain ⟨hdec2, -⟩ := splitFirst_eq_some hsf
        right
        rw [← h.1, ← h.2, hdec, hdec2]
        simp
  · rw [if_neg hs] at h
    match hsf : splitFirst ';' url with
    | none =>
      rw [hsf] at h
      simp only [Prod.mk.injEq] at h
      exact Or.inl ⟨h.1.symm, h.2.symm⟩
    | some (a, b) =>
      rw [hsf] at h
      simp only [Prod.mk.injEq] at h
      obtain ⟨hdec, -⟩ := splitFirst_eq_some hsf
      right
      rw [← h.1, ← h.2]
      exact hdec

theorem isPre_headI {a s : Str} (h : a <+: s) (hne : a ≠ []) : a.headI = s.headI := by
  obtain ⟨t, ht⟩ := h
  match a, hne with
  | c :: a', _ => rw [← ht]; rfl

theorem cleanUrl_no_unsafe {u : Str} : ∀ c ∈ cleanUrl u, isUnsafeUrlByte c = false := by
  intro c hc
  unfold cleanUrl at hc
  have := List.mem_filter.mp hc |>.2
  simpa using this

theorem cleanUrl_head {u : Str} (h : cleanUrl u ≠ []) :
    isC0OrSpace (cleanUrl u).headI = false := by
  unfold cleanUrl at *
  match hd : u.dropWhile isC0OrSpace with
  | [] => rw [hd] at h; exact absurd rfl h
  | c :: t =>
    have hc0 : isC0OrSpace c = false := by
      have := List.head?_dropWhile_not isC0OrSpace u
      rw [hd] at this
      simpa using this
    have hcu : isUnsafeUrlByte c = false := by
      simp only [isUnsafeUrlByte, decide_eq_false_iff_not]
      simp only [isC0OrSpace, decide_eq_false_iff_not, not_le] at hc0
      intro habs
      rcases habs with hx | hx | hx <;> rw [hx] at hc0 <;> simp at hc0
    rw [List.filter_cons, if_pos (by simpa using hcu)]
    exact hc0

/-! ## Well-formedness of parse results -/

theorem splitFragment_no_hash {url : Str} (h : '#' ∉ url) :
    splitFragment url = (url, []) := by
  unfold splitFragment
  rw [splitFirst_eq_none h]

theorem splitFragment_fst_isPre (url : Str) : (splitFragment url).1 <+: url := by
  unfold splitFragment
  match hsp : splitFirst '#' url with
  | none => exact List.prefix_rfl
  | some (a, b) =>
    obtain ⟨hdec, -⟩ := splitFirst_eq_some hsp
    exact ⟨'#' :: b, hdec.symm⟩

theorem splitFragment_fst_no_hash (url : Str) : '#' ∉ (splitFragment url).1 := by
  unfold splitFragment
  match hsp : splitFirst '#' url with
  | none => exact splitFirst_none_not_mem hsp
  | some (a, b) => exact (splitFirst_eq_some hsp).2

theorem splitQuery_no_qm {url : Str} (h : '?' ∉ url) :
    splitQuery url = (url, []) := by
  unfold splitQuery
  rw [splitFirst_eq_none h]

theorem splitQuery_append {a b : Str} (h : '?' ∉ a) :
    splitQuery (a ++ '?' :: b) = (a, b) := by
  unfold splitQuery
  rw [splitFirst_append_sep h]

theorem splitQuery_fst_isPre (url : Str) : (splitQuery url).1 <+: url := by
  unfold splitQuery
  match hsp : splitFirst '?' url with
  | none => exact List.prefix_rfl
  | some (a, b) =>
    obtain ⟨hdec, -⟩ := splitFirst_eq_some hsp
    exact ⟨'?' :: b, hdec.symm⟩

theorem splitQuery_fst_no_qm (url : Str) : '?' ∉ (splitQuery url).1 := by
  unfold splitQuery
  match hsp : splitFirst '?' url with
  | none => exact splitFirst_none_not_mem hsp
  | some (a, b) => exact (splitFirst_eq_some hsp).2

theorem dropWhile_nil_or_headI {p : Char → Bool} (l : Str) :
    l.dropWhile p = [] ∨ p ((l.dropWhile p).headI) = false := by
  match hd : l.dropWhile p with
  | [] => exact Or.inl rfl
  | c :: t =>
    right
    have := List.head?_dropWhile_not p l
    rw [hd] at this
    simpa using this

theorem schemeDetectable_nil : schemeDetectable [] = false := by
  unfold schemeDetectable
  rfl

/-- When the post-netloc remainder is empty or starts with a stop character,
the path region extracted from it cannot look like a scheme and cannot start
with a strippable character. -/
theorem pathRegion_stop {rest : Str}
    (hhead : rest = [] ∨ isNetlocStop rest.headI = true) :
    schemeDetectable (splitQuery (splitFragment rest).1).1 = false ∧
    ((splitQuery (splitFragment rest).1).1 ≠ [] →
      isC0OrSpace (splitQuery (splitFragment rest).1).1.headI = false) := by
  match rest with
  | [] =>
    rw [splitFragment_no_hash (by simp), splitQuery_no_qm (by simp)]
    exact ⟨schemeDetectable_nil, fun h => absurd rfl h⟩
  | c :: t =>
    have hc : isNetlocStop c = true := by
      rcases hhead with h | h
      · exact List.noConfusion h
      · exact h
    simp only [isNetlocStop, Bool.or_eq_true, decide_eq_true_eq] at hc
    rcases hc with hc | hc | hc
    · -- leading '/': the path region starts with '/' (or is empty)
      subst hc
      have hpre : (splitQuery (splitFragment ('/' :: t)).1).1 <+: '/' :: t :=
        (splitQuery_fst_isPre _).trans (splitFragment_fst_isPre _)
      constructor
      · apply schemeDetectable_head_not_alpha
        intro hne
        rw [isPre_headI hpre hne]
        show isAsciiAlpha '/' = false
        decide
      · intro hne
        rw [isPre_headI hpre hne]
        show isC0OrSpace '/' = false
        decide
    · -- leading '?': the path region is empty
      subst hc
      have hq : (splitQuery (splitFragment ('?' :: t)).1).1 = [] := by
        match hfv2 : (splitFragment ('?' :: t)).1 with
        | [] => rfl
        | d :: r =>
          have hd : d = '?' := by
            have hh := isPre_headI (splitFragment_fst_isPre ('?' :: t))
              (by rw [hfv2]; simp)
            rw [hfv2] at hh
            exact hh
          unfold splitQuery
          rw [hd, splitFirst_cons, if_pos rfl]
      rw [hq]
      exact ⟨schemeDetectable_nil, fun h => absurd rfl h⟩
    · -- leading '#': everything goes to the fragment
      subst hc
      have hfv : (splitFragment ('#' :: t)).1 = [] := by
        unfold splitFragment
        rw [splitFirst_cons, if_pos rfl]
      rw [hfv, splitQuery_no_qm (by simp)]
      exact ⟨schemeDetectable_nil, fun h => absurd rfl h⟩

/-- Well-formedness facts satisfied by every result `urlsplit` returns.  These
are exactly the facts the idempotence argument needs about a parsed URL. -/
structure WfSplit (sr : SplitResult) : Prop where
  scheme_lower : lowerS sr.scheme = sr.scheme
  scheme_head : sr.scheme ≠ [] → isAsciiAlpha sr.scheme.headI = true
  scheme_tail : sr.scheme.tail.all isSchemeChar = true
  scheme_no_colon : ':' ∉ sr.scheme
  netloc_stop : ∀ c ∈ sr.netloc, isNetlocStop c = false
  netloc_clean : ∀ c ∈ sr.netloc, isUnsafeUrlByte c = false
  netloc_brackets : ('[' ∈ sr.netloc) ↔ (']' ∈ sr.netloc)
  path_no_qm : '?' ∉ sr.path
  path_no_hash : '#' ∉ sr.path
  path_clean : ∀ c ∈ sr.path, isUnsafeUrlByte c = false
  no_scheme : sr.scheme = [] → sr.netloc = [] → schemeDetectable sr.path = false
  path_head : sr.scheme = [] → sr.netloc = [] → sr.path ≠ [] →
    isC0OrSpace sr.path.headI = false

theorem lowerS_ne_nil {s : Str} (h : s ≠ []) : lowerS s ≠ [] := by
  unfold lowerS
  simpa using h

theorem lowerS_headI {s : Str} (h : s ≠ []) : (lowerS s).headI = lowerC s.headI := by
  match s, h with
  | c :: t, _ => rfl

theorem lowerS_tail (s : Str) : (lowerS s).tail = lowerS s.tail := by
  match s with
  | [] => rfl
  | c :: t => rfl

theorem mem_lowerS_iff {s : Str} {x : Char}
    (hx1 : ¬(97 ≤ x.toNat ∧ x.toNat ≤ 122)) (hx2 : ¬(65 ≤ x.toNat ∧ x.toNat ≤ 90)) :
    x ∈ lowerS s ↔ x ∈ s := by
  unfold lowerS
  rw [List.mem_map]
  constructor
  · rintro ⟨a, ha, hax⟩
    rwa [(lowerC_eq_iff hx1 hx2).mp hax] at ha
  · intro hx
    exact ⟨x, hx, lowerC_eq_self hx2⟩

/-- `urlsplit` only returns well-formed results. -/
theorem urlsplitM_wf {u : Str} {sr : SplitResult} (h : urlsplitM u = .ok sr) :
    WfSplit sr := by
  unfold urlsplitM at h
  replace h : (match splitNetloc (splitScheme (cleanUrl u)).2 with
      | .error e => (.error e : Except Unit SplitResult)
      | .ok nl => .ok ⟨(splitScheme (cleanUrl u)).1, nl.1,
          (splitQuery (splitFragment nl.2).1).1,
          (splitQuery (splitFragment nl.2).1).2, (splitFragment nl.2).2⟩)
      = .ok sr := h
  match hn : splitNetloc (splitScheme (cleanUrl u)).2 with
  | .error e =>
    rw [hn] at h
    exact Except.noConfusion h
  | .ok nl =>
    rw [hn] at h
    simp only [Except.ok.injEq] at h
    subst h
    -- facts about the stages
    have hnet := splitNetloc_ok_cases (by rw [← hn] : splitNetloc (splitScheme (cleanUrl u)).2 = .ok (nl.1, nl.2))
    have hfr1 : (splitFragment nl.2).1 <+: nl.2 := splitFragment_fst_isPre nl.2
    have hq1 : (splitQuery (splitFragment nl.2).1).1 <+: (splitFragment nl.2).1 :=
      splitQuery_fst_isPre _
    have hpathpre : (splitQuery (splitFragment nl.2).1).1 <+: nl.2 := hq1.trans hfr1
    have hrest_sub : ∀ c ∈ nl.2, c ∈ (splitScheme (cleanUrl u)).2 := by
      rcases hnet with ⟨-, -, hr⟩ | ⟨-, -, hr, -⟩
      · rw [hr]; exact fun c hc => hc
      · rw [hr]
        intro c hc
        exact List.drop_subset 2 _ ((List.dropWhile_sublist _).subset hc)
    have hsub_clean : ∀ c ∈ (splitScheme (cleanUrl u)).2, c ∈ cleanUrl u := by
      rcases splitScheme_cases (cleanUrl u) with ⟨hss, -⟩ |
        ⟨pre, post, hdec, -, -, -, -, hss⟩
      · rw [hss]; exact fun c hc => hc
      · rw [hss, hdec]
        intro c hc
        simp [hc]
    have hpath_sub : ∀ c ∈ (splitQuery (splitFragment nl.2).1).1, c ∈ cleanUrl u :=
      fun c hc => hsub_clean c (hrest_sub c (hpathpre.subset hc))
    have hnet_sub : ∀ c ∈ nl.1, c ∈ cleanUrl u := by
      rcases hnet with ⟨-, hn1, -⟩ | ⟨-, hn1, -, -⟩
      · rw [hn1]; intro c hc; simp at hc
      · rw [hn1]
        intro c hc
        exact hsub_clean c (List.drop_subset 2 _ ((List.takeWhile_sublist _).subset hc))
    constructor
    case scheme_lower =>
      rcases splitScheme_cases (cleanUrl u) with ⟨hss, -⟩ |
        ⟨pre, post, hdec, hne, -, -, -, hss⟩
      · rw [hss]; rfl
      · rw [hss]
        exact lowerS_idem pre
    case scheme_head =>
      intro hne'
      rcases splitScheme_cases (cleanUrl u) with ⟨hss, -⟩ |
        ⟨pre, post, hdec, hne, hhead, -, -, hss⟩
      · rw [hss] at hne'
        exact absurd rfl hne'
      · rw [hss]
        rw [hss] at hne'
        rw [lowerS_headI hne]
        exact isAsciiAlpha_lowerC hhead
    case scheme_tail =>
      rcases splitScheme_cases (cleanUrl u) with ⟨hss, -⟩ |
        ⟨pre, post, hdec, hne, -, htail, -, hss⟩
      · rw [hss]; rfl
      · rw [hss, lowerS_tail]
        rw [List.all_eq_true] at htail ⊢
        intro x hx
        unfold lowerS at hx
        obtain ⟨a, ha, hax⟩ := List.mem_map.mp hx
        rw [← hax]
        exact isSchemeChar_lowerC (htail a ha)
    case scheme_no_colon =>
      rcases splitScheme_cases (cleanUrl u) with ⟨hss, -⟩ |
        ⟨pre, post, hdec, hne, -, -, hnc, hss⟩
      · rw [hss]; simp
      · rw [hss]
        intro hmem
        exact hnc ((mem_lowerS_iff (by simp) (by simp)).mp hmem)
    case netloc_stop =>
      intro c hc
      rcases hnet with ⟨-, hn1, -⟩ | ⟨-, hn1, -, -⟩
      · rw [hn1] at hc; simp at hc
      · rw [hn1] at hc
        have := List.mem_takeWhile_imp hc
        simpa using this
    case netloc_clean =>
      intro c hc
      exact cleanUrl_no_unsafe c (hnet_sub c hc)
    case netloc_brackets =>
      rcases hnet with ⟨-, hn1, -⟩ | ⟨-, -, -, hbr⟩
      · rw [hn1]; simp
      · exact hbr
    case path_no_qm => exact splitQuery_fst_no_qm _
    case path_no_hash =>
      intro hmem
      exact splitFragment_fst_no_hash nl.2 (hq1.subset hmem)
    case path_clean =>
      intro c hc
      exact cleanUrl_no_unsafe c (hpath_sub c hc)
    case no_scheme =>
      intro hs0 hn0
      rcases hnet with ⟨-, -, hr⟩ | ⟨ht2, hn1, hr, -⟩
      · rcases splitScheme_cases (cleanUrl u) with ⟨hss, hdet⟩ |
          ⟨pre, post, hdec, hne, -, -, -, hss⟩
        · apply schemeDetectable_of_prefix (s := cleanUrl u) _ hdet
          have h2 : (splitScheme (cleanUrl u)).2 = cleanUrl u := by rw [hss]
          rw [← h2, ← hr]
          exact hpathpre
        · rw [hss] at hs0
          exact absurd hs0 (lowerS_ne_nil hne)
      · refine (pathRegion_stop ?_).1
        rw [hr]
        rcases dropWhile_nil_or_headI (p := fun c => ¬ isNetlocStop c)
          ((splitScheme (cleanUrl u)).2.drop 2) with hcase | hcase
        · exact Or.inl hcase
        · right
          simpa using hcase
    case path_head =>
      intro hs0 hn0 hpne
      rcases hnet with ⟨-, -, hr⟩ | ⟨ht2, hn1, hr, -⟩
      · rcases splitScheme_cases (cleanUrl u) with ⟨hss, hdet⟩ |
          ⟨pre, post, hdec, hne, -, -, -, hss⟩
        · have hpre2 : (splitQuery (splitFragment nl.2).1).1 <+: cleanUrl u := by
            have h2 : (splitScheme (cleanUrl u)).2 = cleanUrl u := by rw [hss]
            rw [← h2, ← hr]
            exact hpathpre
          rw [isPre_headI hpre2 hpne]
          apply cleanUrl_head
          intro habs
          rw [habs] at hpre2
          exact hpne (List.prefix_nil.mp hpre2)
        · rw [hss] at hs0
          exact absurd hs0 (lowerS_ne_nil hne)
      · refine (pathRegion_stop ?_).2 hpne
        rw [hr]
        rcases dropWhile_nil_or_headI (p := fun c => ¬ isNetlocStop c)
          ((splitScheme (cleanUrl u)).2.drop 2) with hcase | hcase
        · exact Or.inl hcase
        · right
          simpa using hcase

/-- Well-formedness facts for a full `urlparse` result. -/
structure WfParse (pr : ParseResult) : Prop where
  scheme_lower : lowerS pr.scheme = pr.scheme
  scheme_head : pr.scheme ≠ [] → isAsciiAlpha pr.scheme.headI = true
  scheme_tail : pr.scheme.tail.all isSchemeChar = true
  scheme_no_colon : ':' ∉ pr.scheme
  netloc_stop : ∀ c ∈ pr.netloc, isNetlocStop c = false
  netloc_clean : ∀ c ∈ pr.netloc, isUnsafeUrlByte c = false
  netloc_brackets : ('[' ∈ pr.netloc) ↔ (']' ∈ pr.netloc)
  path_no_qm : '?' ∉ pr.path
  path_no_hash : '#' ∉ pr.path
  path_clean : ∀ c ∈ pr.path, isUnsafeUrlByte c = false
  no_scheme : pr.scheme = [] → pr.netloc = [] → schemeDetectable pr.path = false
  path_head : pr.scheme = [] → pr.netloc = [] → pr.path ≠ [] →
    isC0OrSpace pr.path.headI = false

theorem wfParse_mk {sr : SplitResult} (wfs : WfSplit sr) {p prm : Str}
    (hp : p <+: sr.path) :
    WfParse ⟨sr.scheme, sr.netloc, p, prm, sr.query, sr.fragment⟩ := by
  constructor
  case scheme_lower => exact wfs.scheme_lower
  case scheme_head => exact wfs.scheme_head
  case scheme_tail => exact wfs.scheme_tail
  case scheme_no_colon => exact wfs.scheme_no_colon
  case netloc_stop => exact wfs.netloc_stop
  case netloc_clean => exact wfs.netloc_clean
  case netloc_brackets => exact wfs.netloc_brackets
  case path_no_qm => exact fun hm => wfs.path_no_qm (hp.subset hm)
  case path_no_hash => exact fun hm => wfs.path_no_hash (hp.subset hm)
  case path_clean => exact fun c hc => wfs.path_clean c (hp.subset hc)
  case no_scheme =>
    intro hs hn
    exact schemeDetectable_of_prefix hp (wfs.no_scheme hs hn)
  case path_head =>
    intro hs hn hne
    rw [isPre_headI hp hne]
    apply wfs.path_head hs hn
    intro habs
    rw [habs] at hp
    exact hne (List.prefix_nil.mp hp)

/-- `urlparse` only returns well-formed results. -/
theorem urlparseM_wf {u : Str} {pr : ParseResult} (h : urlparseM u = .ok pr) :
    WfParse pr := by
  unfold urlparseM at h
  match hs : urlsplitM u with
  | .error e => rw [hs] at h; exact Except.noConfusion h
  | .ok sr =>
    rw [hs] at h
    replace h : (if sr.scheme ∈ usesParams ∧ ';' ∈ sr.path then
        match splitParams sr.path with
        | (p, prm) =>
          Except.ok (ε := Unit)
            { scheme := sr.scheme, netloc := sr.netloc, path := p, params := prm,
              query := sr.query, fragment := sr.fragment }
      else
        Except.ok
          { scheme := sr.scheme, netloc := sr.netloc, path := sr.path, params := [],
            query := sr.query, fragment := sr.fragment }) = Except.ok pr := h
    have wfs := urlsplitM_wf hs
    by_cases hcond : sr.scheme ∈ usesParams ∧ ';' ∈ sr.path
    · rw [if_pos hcond] at h
      rcases hsp : splitParams sr.path with ⟨p, prm⟩
      rw [hsp] at h
      simp only [Except.ok.injEq] at h
      subst h
      apply wfParse_mk wfs
      rcases splitParams_eq hsp with ⟨h1, -⟩ | h1
      · rw [h1]
      · rw [h1]
        exact ⟨';' :: prm, rfl⟩
    · rw [if_neg hcond] at h
      simp only [Except.ok.injEq] at h
      subst h
      exact wfParse_mk wfs List.prefix_rfl

theorem mem_joinAmp {l : List Str} {c : Char} (h : c ∈ joinAmp l) :
    (∃ f ∈ l, c ∈ f) ∨ c = '&' := by
  match l with
  | [] => exact absurd h (List.not_mem_nil c)
  | f :: fs =>
    unfold joinAmp at h
    rcases List.mem_append.mp h with h | h
    · exact Or.inl ⟨f, List.mem_cons_self f fs, h⟩
    · rw [List.mem_flatMap] at h
      obtain ⟨g, hg, hcg⟩ := h
      rcases List.mem_cons.mp hcg with h' | h'
      · exact Or.inr h'
      · exact Or.inl ⟨g, List.mem_cons_of_mem f hg, h'⟩

/-- Character class of `urlencode` output: always-safe, `+`, `%`, `=` or `&`. -/
theorem mem_urlencodeSeq {l : List (Str × List Str)} {c : Char}
    (h : c ∈ urlencodeSeq l) :
    alwaysSafe c = true ∨ c = '+' ∨ c = '%' ∨ c = '=' ∨ c = '&' := by
  unfold urlencodeSeq at h
  rcases mem_joinAmp h with ⟨f, hf, hcf⟩ | h'
  · rw [List.mem_map] at hf
    obtain ⟨p, -, hp⟩ := hf
    rcases mem_encField_k (hp ▸ hcf) with h' | h' | h' | h'
    · exact Or.inl h'
    · exact Or.inr (Or.inl h')
    · exact Or.inr (Or.inr (Or.inl h'))
    · exact Or.inr (Or.inr (Or.inr (Or.inl h')))
  · exact Or.inr (Or.inr (Or.inr (Or.inr h')))

theorem mem_canonQueryPart {q : Str} {c : Char} (h : c ∈ canonQueryPart q) :
    alwaysSafe c = true ∨ c = '+' ∨ c = '%' ∨ c = '=' ∨ c = '&' := by
  unfold canonQueryPart at h
  split at h
  · exact mem_urlencodeSeq h
  · exact absurd h (List.not_mem_nil c)

theorem not_unsafe_of_gt {c : Char} (h : 32 < c.toNat) : isUnsafeUrlByte c = false := by
  simp only [isUnsafeUrlByte, decide_eq_false_iff_not]
  intro he
  rcases he with he | he | he <;> (rw [he] at h; exact absurd h (by decide))

theorem not_c0_of_gt {c : Char} (h : 32 < c.toNat) : isC0OrSpace c = false := by
  simp only [isC0OrSpace, decide_eq_false_iff_not]
  omega

theorem ne_hash_of_toNat {c : Char} (h : c.toNat ≠ 35) : c ≠ '#' :=
  fun he => h (by rw [he]; decide)

theorem ne_qm_of_toNat {c : Char} (h : c.toNat ≠ 63) : c ≠ '?' :=
  fun he => h (by rw [he]; decide)

/-- The characters of a rebuilt query are printable, non-delimiter bytes. -/
theorem canonQueryPart_chars {q : Str} {c : Char} (h : c ∈ canonQueryPart q) :
    isUnsafeUrlByte c = false ∧ c ≠ '#' ∧ c ≠ '?' := by
  rcases mem_canonQueryPart h with h' | h' | h' | h' | h'
  · have hfacts : 32 < c.toNat ∧ c.toNat ≠ 35 ∧ c.toNat ≠ 63 := by
      rcases alwaysSafe_toNat h' with h2 | h2 | h2 | h2 | h2 | h2 | h2 <;> omega
    exact ⟨not_unsafe_of_gt hfacts.1, ne_hash_of_toNat hfacts.2.1,
      ne_qm_of_toNat hfacts.2.2⟩
  all_goals rw [h']; exact ⟨by decide, by decide, by decide⟩

theorem lowerC_toNat_facts (c : Char) :
    (lowerC c).toNat = c.toNat ∨
    (65 ≤ c.toNat ∧ c.toNat ≤ 90 ∧ 97 ≤ (lowerC c).toNat ∧ (lowerC c).toNat ≤ 122) := by
  rcases lowerC_cases c with h | ⟨h1, h2, h3⟩
  · rw [h]; exact Or.inl rfl
  · exact Or.inr ⟨h1, h2, by omega, by omega⟩

theorem isNetlocStop_eq_toNat (c : Char) :
    isNetlocStop c = (decide (c.toNat = 47) || decide (c.toNat = 63) ||
      decide (c.toNat = 35)) := by
  simp only [isNetlocStop]
  rcases Decidable.em (c.toNat = 47) with h | h
  · rw [decide_eq_true h, char_eq_of_toNat_eq (a := c) (b := '/') (by rw [h]; decide)]
    decide
  rcases Decidable.em (c.toNat = 63) with h2 | h2
  · rw [decide_eq_true h2, char_eq_of_toNat_eq (a := c) (b := '?') (by rw [h2]; decide)]
    decide
  rcases Decidable.em (c.toNat = 35) with h3 | h3
  · rw [decide_eq_true h3, char_eq_of_toNat_eq (a := c) (b := '#') (by rw [h3]; decide)]
    decide
  rw [decide_eq_false h, decide_eq_false h2, decide_eq_false h3]
  simp only [Bool.or_false, decide_eq_false_iff_not]
  intro he
  rcases he with he | he | he <;> (rw [he] at h h2 h3; revert h h2 h3; decide)

theorem isUnsafeUrlByte_eq_toNat (c : Char) :
    isUnsafeUrlByte c = (decide (c.toNat = 9) || decide (c.toNat = 13) ||
      decide (c.toNat = 10)) := by
  simp only [isUnsafeUrlByte]
  rcases Decidable.em (c.toNat = 9) with h | h
  · rw [decide_eq_true h, char_eq_of_toNat_eq (a := c) (b := '\t') (by rw [h]; decide)]
    decide
  rcases Decidable.em (c.toNat = 13) with h2 | h2
  · rw [decide_eq_true h2, char_eq_of_toNat_eq (a := c) (b := '\r') (by rw [h2]; decide)]
    decide
  rcases Decidable.em (c.toNat = 10) with h3 | h3
  · rw [decide_eq_true h3, char_eq_of_toNat_eq (a := c) (b := '\n') (by rw [h3]; decide)]
    decide
  rw [decide_eq_false h, decide_eq_false h2, decide_eq_false h3]
  simp only [Bool.or_false, decide_eq_false_iff_not]
  intro he
  rcases he with he | he | he <;> (rw [he] at h h2 h3; revert h h2 h3; decide)

theorem lowerC_isNetlocStop (c : Char) :
    isNetlocStop (lowerC c) = isNetlocStop c := by
  rw [isNetlocStop_eq_toNat, isNetlocStop_eq_toNat]
  rcases lowerC_toNat_facts c with h | ⟨h1, h2, h3, h4⟩
  · rw [h]
  · rw [decide_eq_false (by omega), decide_eq_false (by omega),
      decide_eq_false (by omega), decide_eq_false (by omega),
      decide_eq_false (by omega), decide_eq_false (by omega)]

theorem lowerC_isUnsafeUrlByte (c : Char) :
    isUnsafeUrlByte (lowerC c) = isUnsafeUrlByte c := by
  rw [isUnsafeUrlByte_eq_toNat, isUnsafeUrlByte_eq_toNat]
  rcases lowerC_toNat_facts c with h | ⟨h1, h2, h3, h4⟩
  · rw [h]
  · rw [decide_eq_false (by omega), decide_eq_false (by omega),
      decide_eq_false (by omega), decide_eq_false (by omega),
      decide_eq_false (by omega), decide_eq_false (by omega)]

theorem isSchemeChar_toNat {c : Char} (h : isSchemeChar c = true) :
    32 < c.toNat ∧ c.toNat ≠ 35 ∧ c.toNat ≠ 63 ∧ c.toNat ≠ 47 ∧ c.toNat ≠ 58 := by
  simp only [isSchemeChar, isAsciiAlnum, isAsciiAlpha, isAsciiDigit,
    Bool.or_eq_true, decide_eq_true_eq] at h
  rcases h with ((h | h) | h) | h | h | h
  · omega
  · omega
  · omega
  all_goals rw [h]; refine ⟨by decide, by decide, by decide, by decide, by decide⟩

theorem isSchemeChar_char_facts {c : Char} (h : isSchemeChar c = true) :
    isUnsafeUrlByte c = false ∧ isC0OrSpace c = false :=
  ⟨not_unsafe_of_gt (isSchemeChar_toNat h).1, not_c0_of_gt (isSchemeChar_toNat h).1⟩

theorem isAsciiAlpha_isSchemeChar {c : Char} (h : isAsciiAlpha c = true) :
    isSchemeChar c = true := by
  simp only [isSchemeChar, isAsciiAlnum, Bool.or_eq_true, decide_eq_true_eq]
  exact Or.inl (Or.inl (by simpa using h))

theorem isAsciiAlpha_char_facts {c : Char} (h : isAsciiAlpha c = true) :
    isUnsafeUrlByte c = false ∧ isC0OrSpace c = false :=
  isSchemeChar_char_facts (isAsciiAlpha_isSchemeChar h)

/-- Appending a non-scheme character and arbitrary text keeps a string
scheme-undetectable. -/
theorem schemeDetectable_append_break {p q : Str} {c : Char}
    (hp : schemeDetectable p = false) (hc1 : isSchemeChar c = false)
    (hc2 : isAsciiAlpha c = false) (hcne : c ≠ ':') :
    schemeDetectable (p ++ c :: q) = false := by
  by_cases hcp : ':' ∈ p
  · obtain ⟨pre, rest, hsp⟩ := exists_splitFirst_of_mem hcp
    obtain ⟨hdec, hnc⟩ := splitFirst_eq_some hsp
    unfold schemeDetectable at *
    rw [hsp] at hp
    rw [hdec, List.append_assoc, List.cons_append, splitFirst_append_sep hnc]
    exact hp
  · by_cases hcq : ':' ∈ q
    · obtain ⟨q1, q2, hsq⟩ := exists_splitFirst_of_mem hcq
      obtain ⟨hdec, hnc⟩ := splitFirst_eq_some hsq
      unfold schemeDetectable
      have hnc' : ':' ∉ p ++ c :: q1 := by
        simp only [List.mem_append, List.mem_cons, not_or]
        exact ⟨hcp, fun he => hcne he.symm, hnc⟩
      rw [hdec, ← List.cons_append, ← List.append_assoc,
          splitFirst_append_sep hnc']
      match p with
      | [] =>
        simp only [List.nil_append, List.headI_cons, decide_eq_false_iff_not]
        intro hcl
        rw [hc2] at hcl
        exact Bool.noConfusion hcl.2.1
      | a :: p' =>
        simp only [List.cons_append, List.headI_cons, List.tail_cons,
          decide_eq_false_iff_not]
        intro hcl
        have := hcl.2.2
        rw [List.all_eq_true] at this
        have := this c (by simp)
        rw [hc1] at this
        exact Bool.noConfusion this
    · unfold schemeDetectable
      rw [splitFirst_eq_none (by
        simp only [List.mem_append, List.mem_cons, not_or]
        exact ⟨hcp, fun he => hcne he.symm, hcq⟩)]

theorem filter_unsafe_eq_self {l : Str} (h : ∀ c ∈ l, isUnsafeUrlByte c = false) :
    l.filter (fun c => ¬ isUnsafeUrlByte c) = l := by
  rw [List.filter_eq_self]
  intro c hc
  simp [h c hc]

theorem dropWhile_c0_eq_self {l : Str} (h : l = [] ∨ isC0OrSpace l.headI = false) :
    l.dropWhile isC0OrSpace = l := by
  match l with
  | [] => rfl
  | c :: t =>
    rcases h with h | h
    · exact absurd h (by simp)
    · exact dropWhile_cons_neg t (by simpa using h)

theorem cleanUrl_eq_self {l : Str} (hu : ∀ c ∈ l, isUnsafeUrlByte c = false)
    (hh : l = [] ∨ isC0OrSpace l.headI = false) : cleanUrl l = l := by
  unfold cleanUrl
  rw [dropWhile_c0_eq_self hh, filter_unsafe_eq_self hu]

theorem mem_headI_tail {l : Str} {c : Char} (h : c ∈ l) : c = l.headI ∨ c ∈ l.tail := by
  match l with
  | [] => exact absurd h (List.not_mem_nil c)
  | a :: t =>
    rcases List.mem_cons.mp h with h | h
    · exact Or.inl h
    · exact Or.inr h

theorem scheme_mem_facts {s : Str} (hhead : isAsciiAlpha s.headI = true)
    (htail : s.tail.all isSchemeChar = true) {c : Char} (hc : c ∈ s) :
    isSchemeChar c = true := by
  rcases mem_headI_tail hc with h | h
  · rw [h]; exact isAsciiAlpha_isSchemeChar hhead
  · exact List.all_eq_true.mp htail c h

theorem scheme_no_colon {s : Str} (hhead : isAsciiAlpha s.headI = true)
    (htail : s.tail.all isSchemeChar = true) : ':' ∉ s := by
  intro hc
  exact (isSchemeChar_toNat (scheme_mem_facts hhead htail hc)).2.2.2.2 (by decide)

/-- `urlsplit` written without intermediate bindings. -/
theorem urlsplitM_eq (u : Str) :
    urlsplitM u =
      (match splitNetloc (splitScheme (cleanUrl u)).2 with
       | .error e => .error e
       | .ok nl =>
         .ok ⟨(splitScheme (cleanUrl u)).1, nl.1,
              (splitQuery (splitFragment nl.2).1).1,
              (splitQuery (splitFragment nl.2).1).2,
              (splitFragment nl.2).2⟩) := rfl

theorem splitNetloc_slashslash (x : Str) :
    splitNetloc ('/' :: '/' :: x) =
      (if (('[' ∈ x.takeWhile (fun c => ¬ isNetlocStop c)) ↔
           (']' ∈ x.takeWhile (fun c => ¬ isNetlocStop c))) then
        .ok (x.takeWhile (fun c => ¬ isNetlocStop c),
             x.dropWhile (fun c => ¬ isNetlocStop c))
      else .error ()) := rfl

theorem splitNetloc_not_slashslash {x : Str} (h : x.take 2 ≠ ['/', '/']) :
    splitNetloc x = .ok ([], x) := by
  unfold splitNetloc
  rw [if_neg h]

theorem splitNetloc_assembled {n rest2 : Str}
    (hn : ∀ c ∈ n, isNetlocStop c = false)
    (hbr : ('[' ∈ n) ↔ (']' ∈ n))
    (hr : rest2 = [] ∨ isNetlocStop rest2.headI = true) :
    splitNetloc ('/' :: '/' :: (n ++ rest2)) = .ok (n, rest2) := by
  have htw : (n ++ rest2).takeWhile (fun c => ¬ isNetlocStop c) = n := by
    rw [takeWhile_append_all rest2 (fun c hc => by simp [hn c hc])]
    rcases hr with hr | hr
    · rw [hr]; simp
    · match rest2 with
      | [] => simp
      | c :: t =>
        rw [takeWhile_cons_neg t (by simpa using hr), List.append_nil]
  have hdw : (n ++ rest2).dropWhile (fun c => ¬ isNetlocStop c) = rest2 := by
    rw [dropWhile_append_all rest2 (fun c hc => by simp [hn c hc])]
    rcases hr with hr | hr
    · rw [hr]; simp
    · match rest2 with
      | [] => simp
      | c :: t => exact dropWhile_cons_neg t (by simpa using hr)
  rw [splitNetloc_slashslash, htw, hdw, if_pos hbr]

theorem splitFragment_of_not_mem {x : Str} (h : '#' ∉ x) :
    splitFragment x = (x, []) := by
  unfold splitFragment
  rw [splitFirst_eq_none h]

theorem splitQuery_of_not_mem {x : Str} (h : '?' ∉ x) :
    splitQuery x = (x, []) := by
  unfold splitQuery
  rw [splitFirst_eq_none h]

theorem splitQuery_assembled {x q : Str} (h : '?' ∉ x) :
    splitQuery (x ++ '?' :: q) = (x, q) := by
  unfold splitQuery
  rw [splitFirst_append_sep h]

theorem take_two_append {p t : Str} (hp : ¬(p ≠ [] ∧ p.take 2 = ['/', '/']))
    (ht : t = [] ∨ t.headI = '?') : (p ++ t).take 2 ≠ ['/', '/'] := by
  match p with
  | [] =>
    rcases ht with ht | ht
    · rw [ht]; intro habs; exact List.noConfusion habs
    · match t with
      | [] => intro habs; exact List.noConfusion habs
      | c :: r =>
        have : c = '?' := ht
        rw [this]
        intro habs
        simp only [List.nil_append] at habs
        have : '?' = '/' := (List.cons_eq_cons.mp habs).1
        exact absurd this (by decide)
  | [a] =>
    intro habs
    rcases ht with ht | ht
    · rw [ht] at habs
      exact List.noConfusion (List.cons_eq_cons.mp habs).2
    · match t with
      | [] => exact List.noConfusion (List.cons_eq_cons.mp habs).2
      | c :: r =>
        have hc : c = '?' := ht
        rw [hc] at habs
        have : '?' = '/' := (List.cons_eq_cons.mp (List.cons_eq_cons.mp habs).2).1
        exact absurd this (by decide)
  | a :: b :: r =>
    intro habs
    have : (a :: b :: (r ++ t)).take 2 = [a, b] := rfl
    rw [List.cons_append, List.cons_append, this] at habs
    exact hp ⟨by simp, by rw [show (a :: b :: r).take 2 = [a, b] from rfl]; exact habs⟩

theorem headI_append {l : Str} (x : Str) (h : l ≠ []) : (l ++ x).headI = l.headI := by
  match l with
  | [] => exact absurd rfl h
  | a :: t => rfl

/-- `urlsplit` computed from the four stage results. -/
theorem urlsplitM_step {u sch rest : Str}
    (h : splitScheme (cleanUrl u) = (sch, rest)) {n2 rest2 : Str}
    (h2 : splitNetloc rest = .ok (n2, rest2)) {a b : Str}
    (h3 : splitFragment rest2 = (a, b)) {c d : Str}
    (h4 : splitQuery a = (c, d)) :
    urlsplitM u = .ok ⟨sch, n2, c, d, b⟩ := by
  rw [urlsplitM_eq, h]
  show ((match splitNetloc rest with
    | Except.error e => Except.error e
    | Except.ok nl => Except.ok (SplitResult.mk sch nl.1
        ((splitQuery (splitFragment nl.2).1).1)
        ((splitQuery (splitFragment nl.2).1).2)
        ((splitFragment nl.2).2)) : Except Unit SplitResult)) = _
  rw [h2]
  show (Except.ok (SplitResult.mk sch n2 ((splitQuery (splitFragment rest2).1).1)
      ((splitQuery (splitFragment rest2).1).2) ((splitFragment rest2).2)) :
      Except Unit SplitResult) = _
  rw [h3]
  show (Except.ok (SplitResult.mk sch n2 ((splitQuery a).1) ((splitQuery a).2) b) :
      Except Unit SplitResult) = _
  rw [h4]

theorem c0_head_slash (x : Str) : isC0OrSpace ('/' :: x).headI = false := rfl

/-- Re-parsing an `urlunsplit` assembly, netloc-style branch: the path comes
back with a `/` prepended when it did not start with one. -/
theorem urlsplit_unsplit_netloc {s n p q : Str}
    (hs : s ≠ [] → isAsciiAlpha s.headI = true ∧ s.tail.all isSchemeChar = true ∧
      lowerS s = s)
    (hn : ∀ c ∈ n, isNetlocStop c = false)
    (hn2 : ∀ c ∈ n, isUnsafeUrlByte c = false)
    (hbr : ('[' ∈ n) ↔ (']' ∈ n))
    (hpq : '?' ∉ p) (hph : '#' ∉ p)
    (hpc : ∀ c ∈ p, isUnsafeUrlByte c = false)
    (hqh : '#' ∉ q) (hqq : '?' ∉ q)
    (hqc : ∀ c ∈ q, isUnsafeUrlByte c = false)
    (hcond : n ≠ [] ∨ (p ≠ [] ∧ p.take 2 = ['/', '/'])) :
    urlsplitM (urlunsplitM s n p q []) =
      .ok ⟨s, n, (if p ≠ [] ∧ p.take 1 ≠ ['/'] then '/' :: p else p), q, []⟩ := by
  obtain ⟨PP, hPPdef⟩ : ∃ PP, (if p ≠ [] ∧ p.take 1 ≠ ['/'] then '/' :: p else p) = PP :=
    ⟨_, rfl⟩
  rw [hPPdef]
  have hPPmem : ∀ c ∈ PP, c = '/' ∨ c ∈ p := by
    intro c hc
    rw [← hPPdef] at hc
    split at hc
    · rcases List.mem_cons.mp hc with h | h
      · exact Or.inl h
      · exact Or.inr h
    · exact Or.inr hc
  have hPPq : '?' ∉ PP := by
    intro hc
    rcases hPPmem _ hc with h | h
    · exact absurd h (by decide)
    · exact hpq h
  have hPPh : '#' ∉ PP := by
    intro hc
    rcases hPPmem _ hc with h | h
    · exact absurd h (by decide)
    · exact hph h
  have hPPc : ∀ c ∈ PP, isUnsafeUrlByte c = false := by
    intro c hc
    rcases hPPmem c hc with h | h
    · rw [h]; decide
    · exact hpc c h
  have hPPhead : PP = [] ∨ (PP ≠ [] ∧ PP.headI = '/') := by
    rw [← hPPdef]
    by_cases hc : p ≠ [] ∧ p.take 1 ≠ ['/']
    · rw [if_pos hc]
      exact Or.inr ⟨by simp, rfl⟩
    · rw [if_neg hc]
      rcases Decidable.em (p = []) with hp | hp
      · exact Or.inl hp
      · right
        refine ⟨hp, ?_⟩
        have h1 : p.take 1 = ['/'] := by
          rcases Decidable.em (p.take 1 = ['/']) with h | h
          · exact h
          · exact absurd ⟨hp, h⟩ hc
        match p, hp with
        | a :: t, _ =>
          have h2 : a :: ([] : Str) = ['/'] := h1
          exact (List.cons_eq_cons.mp h2).1
  by_cases hqe : q ≠ []
  · -- query present
    have hrest2 : PP ++ '?' :: q = [] ∨ isNetlocStop (PP ++ '?' :: q).headI = true := by
      right
      rcases hPPhead with h | ⟨h1, h2⟩
      · rw [h, List.nil_append]
        show isNetlocStop '?' = true
        decide
      · rw [headI_append _ h1, h2]
        decide
    have hnet : splitNetloc ('/' :: '/' :: (n ++ (PP ++ '?' :: q))) =
        .ok (n, PP ++ '?' :: q) := splitNetloc_assembled hn hbr hrest2
    have hfr : splitFragment (PP ++ '?' :: q) = (PP ++ '?' :: q, []) := by
      apply splitFragment_of_not_mem
      intro hc
      rcases List.mem_append.mp hc with h | h
      · exact hPPh h
      rcases List.mem_cons.mp h with h | h
      · exact absurd h (by decide)
      · exact hqh h
    have hqu : splitQuery (PP ++ '?' :: q) = (PP, q) := splitQuery_assembled hPPq
    have hRmem : ∀ c ∈ '/' :: '/' :: (n ++ (PP ++ '?' :: q)),
        isUnsafeUrlByte c = false := by
      intro c hc
      rcases List.mem_cons.mp hc with h | h
      · rw [h]; decide
      rcases List.mem_cons.mp h with h | h
      · rw [h]; decide
      rcases List.mem_append.mp h with h | h
      · exact hn2 c h
      rcases List.mem_append.mp h with h | h
      · exact hPPc c h
      rcases List.mem_cons.mp h with h | h
      · rw [h]; decide
      · exact hqc c h
    by_cases hse : s ≠ []
    · obtain ⟨hshead, hstail, hslower⟩ := hs hse
      have hscol : ':' ∉ s := scheme_no_colon hshead hstail
      have hasm : urlunsplitM s n p q [] =
          s ++ ':' :: ('/' :: '/' :: (n ++ (PP ++ '?' :: q))) := by
        simp only [urlunsplitM]
        rw [if_pos hcond, if_pos hse, if_pos hqe,
          if_neg (show ¬(([] : Str) ≠ []) by simp), hPPdef]
        simp only [List.cons_append, List.append_assoc]
      have hu : ∀ c ∈ s ++ ':' :: ('/' :: '/' :: (n ++ (PP ++ '?' :: q))),
          isUnsafeUrlByte c = false := by
        intro c hc
        rcases List.mem_append.mp hc with h | h
        · exact (isSchemeChar_char_facts (scheme_mem_facts hshead hstail h)).1
        rcases List.mem_cons.mp h with h | h
        · rw [h]; decide
        · exact hRmem c h
      have hh : s ++ ':' :: ('/' :: '/' :: (n ++ (PP ++ '?' :: q))) = [] ∨
          isC0OrSpace (s ++ ':' :: ('/' :: '/' :: (n ++ (PP ++ '?' :: q)))).headI =
            false := by
        right
        rw [headI_append _ hse]
        exact (isAsciiAlpha_char_facts hshead).2
      have hA : splitScheme (cleanUrl (urlunsplitM s n p q [])) =
          (s, '/' :: '/' :: (n ++ (PP ++ '?' :: q))) := by
        rw [hasm, cleanUrl_eq_self hu hh]
        rw [splitScheme_detected hse hshead hstail hscol, hslower]
      exact urlsplitM_step hA hnet hfr hqu
    · have hse' : s = [] := not_ne_iff.mp hse
      subst hse'
      have hasm : urlunsplitM [] n p q [] =
          '/' :: '/' :: (n ++ (PP ++ '?' :: q)) := by
        simp only [urlunsplitM]
        rw [if_pos hcond, if_neg (show ¬(([] : Str) ≠ []) by simp), if_pos hqe,
          if_neg (show ¬(([] : Str) ≠ []) by simp), hPPdef]
        simp only [List.cons_append, List.append_assoc]
      have hA : splitScheme (cleanUrl (urlunsplitM [] n p q [])) =
          ([], '/' :: '/' :: (n ++ (PP ++ '?' :: q))) := by
        rw [hasm, cleanUrl_eq_self hRmem (Or.inr (c0_head_slash _))]
        apply splitScheme_not_detectable
        apply schemeDetectable_head_not_alpha
        intro _
        show isAsciiAlpha '/' = false
        decide
      exact urlsplitM_step hA hnet hfr hqu
  · -- no query
    have hqe' : q = [] := not_ne_iff.mp hqe
    subst hqe'
    have hrest2 : PP = [] ∨ isNetlocStop PP.headI = true := by
      rcases hPPhead with h | ⟨h1, h2⟩
      · exact Or.inl h
      · right
        rw [h2]
        decide
    have hnet : splitNetloc ('/' :: '/' :: (n ++ PP)) = .ok (n, PP) :=
      splitNetloc_assembled hn hbr hrest2
    have hfr : splitFragment PP = (PP, []) := splitFragment_of_not_mem hPPh
    have hqu : splitQuery PP = (PP, []) := splitQuery_of_not_mem hPPq
    have hRmem : ∀ c ∈ '/' :: '/' :: (n ++ PP), isUnsafeUrlByte c = false := by
      intro c hc
      rcases List.mem_cons.mp hc with h | h
      · rw [h]; decide
      rcases List.mem_cons.mp h with h | h
      · rw [h]; decide
      rcases List.mem_append.mp h with h | h
      · exact hn2 c h
      · exact hPPc c h
    by_cases hse : s ≠ []
    · obtain ⟨hshead, hstail, hslower⟩ := hs hse
      have hscol : ':' ∉ s := scheme_no_colon hshead hstail
      have hasm : urlunsplitM s n p [] [] = s ++ ':' :: ('/' :: '/' :: (n ++ PP)) := by
        simp only [urlunsplitM]
        rw [if_pos hcond, if_pos hse, if_neg (show ¬(([] : Str) ≠ []) by simp),
          if_neg (show ¬(([] : Str) ≠ []) by simp), hPPdef]
        simp only [List.cons_append, List.append_assoc]
      have hu : ∀ c ∈ s ++ ':' :: ('/' :: '/' :: (n ++ PP)),
          isUnsafeUrlByte c = false := by
        intro c hc
        rcases List.mem_append.mp hc with h | h
        · exact (isSchemeChar_char_facts (scheme_mem_facts hshead hstail h)).1
        rcases List.mem_cons.mp h with h | h
        · rw [h]; decide
        · exact hRmem c h
      have hh : s ++ ':' :: ('/' :: '/' :: (n ++ PP)) = [] ∨
          isC0OrSpace (s ++ ':' :: ('/' :: '/' :: (n ++ PP))).headI = false := by
        right
        rw [headI_append _ hse]
        exact (isAsciiAlpha_char_facts hshead).2
      have hA : splitScheme (cleanUrl (urlunsplitM s n p [] [])) =
          (s, '/' :: '/' :: (n ++ PP)) := by
        rw [hasm, cleanUrl_eq_self hu hh]
        rw [splitScheme_detected hse hshead hstail hscol, hslower]
      exact urlsplitM_step hA hnet hfr hqu
    · have hse' : s = [] := not_ne_iff.mp hse
      subst hse'
      have hasm : urlunsplitM [] n p [] [] = '/' :: '/' :: (n ++ PP) := by
        simp only [urlunsplitM]
        rw [if_pos hcond, if_neg (show ¬(([] : Str) ≠ []) by simp),
          if_neg (show ¬(([] : Str) ≠ []) by simp),
          if_neg (show ¬(([] : Str) ≠ []) by simp), hPPdef]
        simp only [List.cons_append, List.append_assoc]
      have hA : splitScheme (cleanUrl (urlunsplitM [] n p [] [])) =
          ([], '/' :: '/' :: (n ++ PP)) := by
        rw [hasm, cleanUrl_eq_self hRmem (Or.inr (c0_head_slash _))]
        apply splitScheme_not_detectable
        apply schemeDetectable_head_not_alpha
        intro _
        show isAsciiAlpha '/' = false
        decide
      exact urlsplitM_step hA hnet hfr hqu

theorem c0_head_qm (x : Str) : isC0OrSpace ('?' :: x).headI = false := rfl

/-- Re-parsing an `urlunsplit` assembly without a netloc: everything comes back
unchanged. -/
theorem urlsplit_unsplit_plain {s p q : Str}
    (hs : s ≠ [] → isAsciiAlpha s.headI = true ∧ s.tail.all isSchemeChar = true ∧
      lowerS s = s)
    (hpq : '?' ∉ p) (hph : '#' ∉ p)
    (hpc : ∀ c ∈ p, isUnsafeUrlByte c = false)
    (hqh : '#' ∉ q) (hqq : '?' ∉ q)
    (hqc : ∀ c ∈ q, isUnsafeUrlByte c = false)
    (hcond : ¬(p ≠ [] ∧ p.take 2 = ['/', '/']))
    (hnos : s = [] → schemeDetectable p = false)
    (hhead : s = [] → p ≠ [] → isC0OrSpace p.headI = false) :
    urlsplitM (urlunsplitM s [] p q []) = .ok ⟨s, [], p, q, []⟩ := by
  have hcond' : ¬(([] : Str) ≠ [] ∨ (p ≠ [] ∧ p.take 2 = ['/', '/'])) := by
    intro h
    rcases h with h | h
    · exact h rfl
    · exact hcond h
  have htake : p.take 2 ≠ ['/', '/'] := by
    intro h
    match p, h with
    | [], h => exact List.noConfusion h
    | a :: t, h => exact hcond ⟨by simp, h⟩
  by_cases hqe : q ≠ []
  · have hnet : splitNetloc (p ++ '?' :: q) = .ok ([], p ++ '?' :: q) :=
      splitNetloc_not_slashslash (take_two_append hcond (Or.inr rfl))
    have hfr : splitFragment (p ++ '?' :: q) = (p ++ '?' :: q, []) := by
      apply splitFragment_of_not_mem
      intro hc
      rcases List.mem_append.mp hc with h | h
      · exact hph h
      rcases List.mem_cons.mp h with h | h
      · exact absurd h (by decide)
      · exact hqh h
    have hqu : splitQuery (p ++ '?' :: q) = (p, q) := splitQuery_assembled hpq
    have hmem : ∀ c ∈ p ++ '?' :: q, isUnsafeUrlByte c = false := by
      intro c hc
      rcases List.mem_append.mp hc with h | h
      · exact hpc c h
      rcases List.mem_cons.mp h with h | h
      · rw [h]; decide
      · exact hqc c h
    by_cases hse : s ≠ []
    · obtain ⟨hshead, hstail, hslower⟩ := hs hse
      have hscol : ':' ∉ s := scheme_no_colon hshead hstail
      have hasm : urlunsplitM s [] p q [] = s ++ ':' :: (p ++ '?' :: q) := by
        simp only [urlunsplitM]
        rw [if_neg hcond', if_pos hse, if_pos hqe,
          if_neg (show ¬(([] : Str) ≠ []) by simp)]
        simp only [List.cons_append, List.append_assoc]
      have hu : ∀ c ∈ s ++ ':' :: (p ++ '?' :: q), isUnsafeUrlByte c = false := by
        intro c hc
        rcases List.mem_append.mp hc with h | h
        · exact (isSchemeChar_char_facts (scheme_mem_facts hshead hstail h)).1
        rcases List.mem_cons.mp h with h | h
        · rw [h]; decide
        · exact hmem c h
      have hh : s ++ ':' :: (p ++ '?' :: q) = [] ∨
          isC0OrSpace (s ++ ':' :: (p ++ '?' :: q)).headI = false := by
        right
        rw [headI_append _ hse]
        exact (isAsciiAlpha_char_facts hshead).2
      have hA : splitScheme (cleanUrl (urlunsplitM s [] p q [])) =
          (s, p ++ '?' :: q) := by
        rw [hasm, cleanUrl_eq_self hu hh,
          splitScheme_detected hse hshead hstail hscol, hslower]
      exact urlsplitM_step hA hnet hfr hqu
    · have hse' : s = [] := not_ne_iff.mp hse
      subst hse'
      have hasm : urlunsplitM [] [] p q [] = p ++ '?' :: q := by
        simp only [urlunsplitM]
        rw [if_neg hcond', if_neg (show ¬(([] : Str) ≠ []) by simp), if_pos hqe,
          if_neg (show ¬(([] : Str) ≠ []) by simp)]
      have hh : p ++ '?' :: q = [] ∨ isC0OrSpace (p ++ '?' :: q).headI = false := by
        right
        match p with
        | [] =>
          rw [List.nil_append]
          exact c0_head_qm q
        | a :: t =>
          rw [headI_append _ (by simp)]
          exact hhead rfl (by simp)
      have hA : splitScheme (cleanUrl (urlunsplitM [] [] p q [])) =
          ([], p ++ '?' :: q) := by
        rw [hasm, cleanUrl_eq_self hmem hh]
        exact splitScheme_not_detectable
          (schemeDetectable_append_break (hnos rfl) (by decide) (by decide) (by decide))
      exact urlsplitM_step hA hnet hfr hqu
  · have hqe' : q = [] := not_ne_iff.mp hqe
    subst hqe'
    have hnet : splitNetloc p = .ok ([], p) := splitNetloc_not_slashslash htake
    have hfr : splitFragment p = (p, []) := splitFragment_of_not_mem hph
    have hqu : splitQuery p = (p, []) := splitQuery_of_not_mem hpq
    by_cases hse : s ≠ []
    · obtain ⟨hshead, hstail, hslower⟩ := hs hse
      have hscol : ':' ∉ s := scheme_no_colon hshead hstail
      have hasm : urlunsplitM s [] p [] [] = s ++ ':' :: p := by
        simp only [urlunsplitM]
        rw [if_neg hcond', if_pos hse, if_neg (show ¬(([] : Str) ≠ []) by simp),
          if_neg (show ¬(([] : Str) ≠ []) by simp)]
      have hu : ∀ c ∈ s ++ ':' :: p, isUnsafeUrlByte c = false := by
        intro c hc
        rcases List.mem_append.mp hc with h | h
        · exact (isSchemeChar_char_facts (scheme_mem_facts hshead hstail h)).1
        rcases List.mem_cons.mp h with h | h
        · rw [h]; decide
        · exact hpc c h
      have hh : s ++ ':' :: p = [] ∨ isC0OrSpace (s ++ ':' :: p).headI = false := by
        right
        rw [headI_append _ hse]
        exact (isAsciiAlpha_char_facts hshead).2
      have hA : splitScheme (cleanUrl (urlunsplitM s [] p [] [])) = (s, p) := by
        rw [hasm, cleanUrl_eq_self hu hh,
          splitScheme_detected hse hshead hstail hscol, hslower]
      exact urlsplitM_step hA hnet hfr hqu
    · have hse' : s = [] := not_ne_iff.mp hse
      subst hse'
      have hasm : urlunsplitM [] [] p [] [] = p := by
        simp only [urlunsplitM]
        rw [if_neg hcond', if_neg (show ¬(([] : Str) ≠ []) by simp),
          if_neg (show ¬(([] : Str) ≠ []) by simp),
          if_neg (show ¬(([] : Str) ≠ []) by simp)]
      have hh : p = [] ∨ isC0OrSpace p.headI = false := by
        rcases Decidable.em (p = []) with h | h
        · exact Or.inl h
        · exact Or.inr (hhead rfl h)
      have hA : splitScheme (cleanUrl (urlunsplitM [] [] p [] [])) = ([], p) := by
        rw [hasm, cleanUrl_eq_self hpc hh]
        exact splitScheme_not_detectable (hnos rfl)
      exact urlsplitM_step hA hnet hfr hqu

theorem cleanPath_fixed {x : Str}
    (h : x = ['/'] ∨ ∀ c, x.getLast? = some c → c ≠ '/') :
    (if x ≠ ['/'] then rstripSlash x else ['/']) = x := by
  rcases h with h | h
  · rw [h, if_neg (by simp)]
  · by_cases hne : x ≠ ['/']
    · rw [if_pos hne]
      exact rstripSlash_eq_self h
    · rw [if_neg hne]
      exact (not_ne_iff.mp hne).symm

/-- The central fixed-point property of `canonicalize_url_clean`: on a parse
result with no path-params and a `;`-free path, re-canonicalizing the
canonical form changes nothing. -/
theorem canonCore_fixed {pr : ParseResult} (wf : WfParse pr)
    (hparams : pr.params = []) (hsemi : ';' ∉ pr.path) :
    canonicalizeUrlClean (canonCore pr) = canonCore pr := by
  obtain ⟨s, hsdef⟩ : ∃ x, lowerS pr.scheme = x := ⟨_, rfl⟩
  obtain ⟨n, hndef⟩ : ∃ x, lowerS pr.netloc = x := ⟨_, rfl⟩
  obtain ⟨CP, hcpdef⟩ :
      ∃ x, (if pr.path ≠ ['/'] then rstripSlash pr.path else ['/']) = x := ⟨_, rfl⟩
  obtain ⟨q, hqdef⟩ : ∃ x, canonQueryPart pr.query = x := ⟨_, rfl⟩
  have hcc : canonCore pr = urlunsplitM s n CP q [] := by
    simp only [canonCore, urlunparseM, hparams, hsdef, hndef, hcpdef, hqdef]
    rw [if_neg (show ¬(([] : Str) ≠ []) by simp)]
  have hs : s ≠ [] → isAsciiAlpha s.headI = true ∧ s.tail.all isSchemeChar = true ∧
      lowerS s = s := by
    intro hne
    have hprne : pr.scheme ≠ [] := by
      intro h
      rw [← hsdef, h] at hne
      exact hne rfl
    refine ⟨?_, ?_, ?_⟩
    · rw [← hsdef, lowerS_headI hprne]
      exact isAsciiAlpha_lowerC (wf.scheme_head hprne)
    · rw [← hsdef, lowerS_tail, List.all_eq_true]
      intro x hx
      obtain ⟨y, hy, hyx⟩ := List.mem_map.mp hx
      rw [← hyx]
      exact isSchemeChar_lowerC (List.all_eq_true.mp wf.scheme_tail y hy)
    · rw [← hsdef]
      exact lowerS_idem _
  have hnmap : ∀ {x : Char}, x ∈ n → ∃ y ∈ pr.netloc, lowerC y = x := by
    intro x hx
    rw [← hndef] at hx
    exact List.mem_map.mp hx
  have hn : ∀ c ∈ n, isNetlocStop c = false := by
    intro c hc
    obtain ⟨y, hy, hyx⟩ := hnmap hc
    rw [← hyx, lowerC_isNetlocStop]
    exact wf.netloc_stop y hy
  have hn2 : ∀ c ∈ n, isUnsafeUrlByte c = false := by
    intro c hc
    obtain ⟨y, hy, hyx⟩ := hnmap hc
    rw [← hyx, lowerC_isUnsafeUrlByte]
    exact wf.netloc_clean y hy
  have hbr : ('[' ∈ n) ↔ (']' ∈ n) := by
    rw [← hndef, mem_lowerS_iff (by decide) (by decide),
      mem_lowerS_iff (by decide) (by decide)]
    exact wf.netloc_brackets
  have hCPpre : CP <+: pr.path := by
    rw [← hcpdef]
    split
    · exact rstripSlash_isPrefix _
    · next h =>
      have h2 : pr.path = ['/'] := not_ne_iff.mp h
      rw [h2]
  have hCPsub : ∀ c ∈ CP, c ∈ pr.path := fun c hc => hCPpre.subset hc
  have hpq : '?' ∉ CP := fun h => wf.path_no_qm (hCPsub _ h)
  have hph : '#' ∉ CP := fun h => wf.path_no_hash (hCPsub _ h)
  have hpc : ∀ c ∈ CP, isUnsafeUrlByte c = false := fun c hc =>
    wf.path_clean c (hCPsub c hc)
  have hpsemi : ';' ∉ CP := fun h => hsemi (hCPsub _ h)
  have hq1 : '#' ∉ q := fun h =>
    (canonQueryPart_chars (show '#' ∈ canonQueryPart pr.query by
      rw [hqdef]; exact h)).2.1 rfl
  have hq2 : '?' ∉ q := fun h =>
    (canonQueryPart_chars (show '?' ∈ canonQueryPart pr.query by
      rw [hqdef]; exact h)).2.2 rfl
  have hqc : ∀ c ∈ q, isUnsafeUrlByte c = false := fun c hc =>
    (canonQueryPart_chars (show c ∈ canonQueryPart pr.query by
      rw [hqdef]; exact hc)).1
  have hsnil : s = [] → pr.scheme = [] := by
    intro h
    rw [← hsdef] at h
    match pr.scheme, h with
    | [], _ => rfl
  have hnnil : n = [] → pr.netloc = [] := by
    intro h
    rw [← hndef] at h
    match pr.netloc, h with
    | [], _ => rfl
  have hnos : s = [] → n = [] → schemeDetectable CP = false := fun h1 h2 =>
    schemeDetectable_of_prefix hCPpre (wf.no_scheme (hsnil h1) (hnnil h2))
  have hhead : s = [] → n = [] → CP ≠ [] → isC0OrSpace CP.headI = false := by
    intro h1 h2 h3
    rw [isPre_headI hCPpre h3]
    apply wf.path_head (hsnil h1) (hnnil h2)
    intro habs
    rw [habs] at hCPpre
    exact h3 (List.prefix_nil.mp hCPpre)
  have hCPfix : CP = ['/'] ∨ (∀ c, CP.getLast? = some c → c ≠ '/') := by
    rw [← hcpdef]
    split
    · exact Or.inr (rstripSlash_no_trailing_slash _)
    · exact Or.inl rfl
  have hq_stab : canonQueryPart q = q := by
    rw [← hqdef]
    exact canonQueryPart_stable _
  have hs_idem : lowerS s = s := by
    rw [← hsdef]
    exact lowerS_idem _
  have hn_idem : lowerS n = n := by
    rw [← hndef]
    exact lowerS_idem _
  by_cases hcond : n ≠ [] ∨ (CP ≠ [] ∧ CP.take 2 = ['/', '/'])
  · obtain ⟨PP, hPPdef⟩ :
        ∃ x, (if CP ≠ [] ∧ CP.take 1 ≠ ['/'] then '/' :: CP else CP) = x := ⟨_, rfl⟩
    have hsplit := urlsplit_unsplit_netloc hs hn hn2 hbr hpq hph hpc hq1 hq2 hqc hcond
    rw [hPPdef] at hsplit
    have hPPsemi : ';' ∉ PP := by
      intro h
      rw [← hPPdef] at h
      split at h
      · rcases List.mem_cons.mp h with h | h
        · exact absurd h (by decide)
        · exact hpsemi h
      · exact hpsemi h
    have hPPfix : PP = ['/'] ∨ (∀ c, PP.getLast? = some c → c ≠ '/') := by
      rw [← hPPdef]
      by_cases hcp : CP ≠ [] ∧ CP.take 1 ≠ ['/']
      · rw [if_pos hcp]
        rcases hCPfix with h | h
        · exact absurd (by rw [h]; rfl) hcp.2
        · right
          intro c hlast
          match CP, hcp.1, h, hlast with
          | a :: t, _, h, hlast =>
            rw [List.getLast?_cons_cons] at hlast
            exact h c hlast
      · rw [if_neg hcp]
        exact hCPfix
    have hPPcond : n ≠ [] ∨ (PP ≠ [] ∧ PP.take 2 = ['/', '/']) := by
      rcases hcond with h | h
      · exact Or.inl h
      · right
        have h1 : CP.take 1 = ['/'] := by
          obtain ⟨hne, htk⟩ := h
          match CP, hne, htk with
          | a :: t, _, htk =>
            have h2 : a :: t.take 1 = ['/', '/'] := htk
            have ha : a = '/' := (List.cons_eq_cons.mp h2).1
            show a :: t.take 0 = ['/']
            rw [ha]
            rfl
        have hPP : PP = CP := by
          rw [← hPPdef, if_neg (fun hc => hc.2 h1)]
        rw [hPP]
        exact h
    have hPPprep : ¬(PP ≠ [] ∧ PP.take 1 ≠ ['/']) := by
      rw [← hPPdef]
      by_cases hcp : CP ≠ [] ∧ CP.take 1 ≠ ['/']
      · rw [if_pos hcp]
        intro hc
        exact hc.2 rfl
      · rw [if_neg hcp]
        exact hcp
    have hparse : urlparseM (urlunsplitM s n CP q []) =
        .ok ⟨s, n, PP, [], q, []⟩ := by
      unfold urlparseM
      rw [hsplit]
      show ((if s ∈ usesParams ∧ ';' ∈ PP then
          (match splitParams PP with
           | (p2, prm) => Except.ok (ParseResult.mk s n p2 prm q []))
        else Except.ok (ParseResult.mk s n PP [] q [])) :
          Except Unit ParseResult) = _
      rw [if_neg (fun hc => hPPsemi hc.2)]
    rw [hcc]
    unfold canonicalizeUrlClean
    rw [hparse]
    show canonCore (ParseResult.mk s n PP [] q []) = urlunsplitM s n CP q []
    rw [show canonCore (ParseResult.mk s n PP [] q []) =
        urlunsplitM (lowerS s) (lowerS n)
          (if PP ≠ ['/'] then rstripSlash PP else ['/']) (canonQueryPart q) []
      from rfl]
    rw [hs_idem, hn_idem, cleanPath_fixed hPPfix, hq_stab]
    simp only [urlunsplitM]
    rw [if_pos hPPcond, if_pos hcond, if_neg hPPprep, hPPdef]
  · rw [not_or] at hcond
    have hn0 : n = [] := not_ne_iff.mp hcond.1
    subst hn0
    have hsplit := urlsplit_unsplit_plain hs hpq hph hpc hq1 hq2 hqc hcond.2
      (fun h => hnos h rfl) (fun h => hhead h rfl)
    have hparse : urlparseM (urlunsplitM s [] CP q []) =
        .ok ⟨s, [], CP, [], q, []⟩ := by
      unfold urlparseM
      rw [hsplit]
      show ((if s ∈ usesParams ∧ ';' ∈ CP then
          (match splitParams CP with
           | (p2, prm) => Except.ok (ParseResult.mk s [] p2 prm q []))
        else Except.ok (ParseResult.mk s [] CP [] q [])) :
          Except Unit ParseResult) = _
      rw [if_neg (fun hc => hpsemi hc.2)]
    rw [hcc]
    unfold canonicalizeUrlClean
    rw [hparse]
    show canonCore (ParseResult.mk s [] CP [] q []) = urlunsplitM s [] CP q []
    rw [show canonCore (ParseResult.mk s [] CP [] q []) =
        urlunsplitM (lowerS s) (lowerS [])
          (if CP ≠ ['/'] then rstripSlash CP else ['/']) (canonQueryPart q) []
      from rfl]
    rw [hs_idem, cleanPath_fixed hCPfix, hq_stab]
    rfl

theorem canonicalizeUrlClean_ok {u : Str} {pr : ParseResult}
    (h : urlparseM u = .ok pr) : canonicalizeUrlClean u = canonCore pr := by
  unfold canonicalizeUrlClean
  rw [h]

theorem canonCore_congr {pr1 pr2 : ParseResult} (hs : pr1.scheme = pr2.scheme)
    (hn : pr1.netloc = pr2.netloc)
    (hp : (if pr1.path ≠ ['/'] then rstripSlash pr1.path else ['/']) =
          (if pr2.path ≠ ['/'] then rstripSlash pr2.path else ['/']))
    (hprm : pr1.params = pr2.params)
    (hq : canonQueryPart pr1.query = canonQueryPart pr2.query) :
    canonCore pr1 = canonCore pr2 := by
  simp only [canonCore]
  rw [hs, hn, hprm, hq, hp]

theorem trailing_slash_cleanPath {p : Str} (hne : p ≠ []) (hne2 : p ≠ ['/']) :
    (if p ++ ['/'] ≠ ['/'] then rstripSlash (p ++ ['/']) else ['/']) =
    (if p ≠ ['/'] then rstripSlash p else ['/']) := by
  have h1 : p ++ ['/'] ≠ ['/'] := by
    intro h
    apply hne
    have hl := congrArg List.length h
    rw [List.length_append] at hl
    simp only [List.length_singleton] at hl
    exact List.length_eq_zero.mp (by omega)
  rw [if_pos h1, if_pos hne2]
  apply rstripSlash_append_slashes
  intro c hc
  simpa using hc

theorem canonQueryPart_congr_filter {q1 q2 : Str}
    (h : (parseQs q1).filter (fun kv => lowerS kv.1 ∉ TRACKING_PARAMS) =
         (parseQs q2).filter (fun kv => lowerS kv.1 ∉ TRACKING_PARAMS)) :
    canonQueryPart q1 = canonQueryPart q2 := by
  unfold canonQueryPart
  rw [h]

/-- **C3** (amended).  `canonicalize_url_clean` is idempotent on every URL whose
parse carries no path-params component and whose path is `;`-free (the spec's
unconditional idempotence fails: see the counterexample theorem — a trailing
slash hides a `;` from the params split, and the second pass splits it); and
two URLs canonicalize identically when their parses differ only in the
fragment, only in a trailing slash on a non-root path, or only in tracking
query parameters (same non-tracking parameter multi-dict). -/
theorem canonicalize_idempotent_and_invariant :
    (∀ (u : Str) (pr : ParseResult), urlparseM u = .ok pr → pr.params = [] →
      ';' ∉ pr.path →
      canonicalizeUrlClean (canonicalizeUrlClean u) = canonicalizeUrlClean u) ∧
    (∀ (u1 u2 : Str) (pr1 pr2 : ParseResult), urlparseM u1 = .ok pr1 →
      urlparseM u2 = .ok pr2 → pr1.scheme = pr2.scheme → pr1.netloc = pr2.netloc →
      pr1.path = pr2.path → pr1.params = pr2.params → pr1.query = pr2.query →
      canonicalizeUrlClean u1 = canonicalizeUrlClean u2) ∧
    (∀ (u1 u2 : Str) (pr1 pr2 : ParseResult), urlparseM u1 = .ok pr1 →
      urlparseM u2 = .ok pr2 → pr1.scheme = pr2.scheme → pr1.netloc = pr2.netloc →
      pr1.path = pr2.path ++ ['/'] → pr2.path ≠ [] → pr2.path ≠ ['/'] →
      pr1.params = pr2.params → pr1.query = pr2.query →
      pr1.fragment = pr2.fragment →
      canonicalizeUrlClean u1 = canonicalizeUrlClean u2) ∧
    (∀ (u1 u2 : Str) (pr1 pr2 : ParseResult), urlparseM u1 = .ok pr1 →
      urlparseM u2 = .ok pr2 → pr1.scheme = pr2.scheme → pr1.netloc = pr2.netloc →
      pr1.path = pr2.path → pr1.params = pr2.params →
      (parseQs pr1.query).filter (fun kv => lowerS kv.1 ∉ TRACKING_PARAMS) =
        (parseQs pr2.query).filter (fun kv => lowerS kv.1 ∉ TRACKING_PARAMS) →
      canonicalizeUrlClean u1 = canonicalizeUrlClean u2) := by
  refine ⟨?_, ?_, ?_, ?_⟩
  · intro u pr hp hparams hsemi
    rw [canonicalizeUrlClean_ok hp]
    exact canonCore_fixed (urlparseM_wf hp) hparams hsemi
  · intro u1 u2 pr1 pr2 h1 h2 hs hn hp hprm hq
    rw [canonicalizeUrlClean_ok h1, canonicalizeUrlClean_ok h2]
    exact canonCore_congr hs hn (by rw [hp]) hprm (by rw [hq])
  · intro u1 u2 pr1 pr2 h1 h2 hs hn hp hne hne2 hprm hq hf
    rw [canonicalizeUrlClean_ok h1, canonicalizeUrlClean_ok h2]
    refine canonCore_congr hs hn ?_ hprm (by rw [hq])
    rw [hp]
    exact trailing_slash_cleanPath hne hne2
  · intro u1 u2 pr1 pr2 h1 h2 hs hn hp hprm hfil
    rw [canonicalizeUrlClean_ok h1, canonicalizeUrlClean_ok h2]
    exact canonCore_congr hs hn (by rw [hp]) hprm (canonQueryPart_congr_filter hfil)

/-- **C3** counterexample to the unconditional idempotence claim: one
application of `canonicalize_url_clean` to `http://h/a/;b/` yields
`http://h/a/;b`, but a second application yields `http://h/a;b` — the first
pass's trailing-slash strip exposes the `;` to the params split of the second
pass, which then re-attaches it after a re-stripped path. -/
theorem canonicalize_not_idempotent_cex :
    canonicalizeUrlClean (canonicalizeUrlClean ("http://h/a/;b/").toList) ≠
      canonicalizeUrlClean ("http://h/a/;b/").toList := by
  have e1 : canonicalizeUrlClean ("http://h/a/;b/").toList = ("http://h/a/;b").toList := by
    simp [canonicalizeUrlClean, urlparseM, urlsplitM, cleanUrl, splitScheme,
      splitFirst, splitNetloc, splitFragment, splitQuery, splitParams, splitLast,
      canonCore, canonQueryPart, parseQs, parseQsl, groupPairs, urlunparseM,
      urlunsplitM, rstripSlash, lowerS, lowerC, usesParams, isNetlocStop,
      isC0OrSpace, isUnsafeUrlByte, isAsciiAlpha, isSchemeChar, isAsciiAlnum,
      isAsciiDigit]
  have e2 : canonicalizeUrlClean ("http://h/a/;b").toList = ("http://h/a;b").toList := by
    simp [canonicalizeUrlClean, urlparseM, urlsplitM, cleanUrl, splitScheme,
      splitFirst, splitNetloc, splitFragment, splitQuery, splitParams, splitLast,
      canonCore, canonQueryPart, parseQs, parseQsl, groupPairs, urlunparseM,
      urlunsplitM, rstripSlash, lowerS, lowerC, usesParams, isNetlocStop,
      isC0OrSpace, isUnsafeUrlByte, isAsciiAlpha, isSchemeChar, isAsciiAlnum,
      isAsciiDigit]
  rw [e1, e2]
  decide

/-- Concrete instances of the amended C3 theorem: idempotence on a clean URL,
and agreement across a fragment, a trailing slash, and a tracking parameter. -/
theorem canonicalize_idempotent_and_invariant_witness :
    canonicalizeUrlClean (canonicalizeUrlClean ("http://example.com/a").toList) =
      canonicalizeUrlClean ("http://example.com/a").toList ∧
    canonicalizeUrlClean ("http://example.com/a?x=1#sec").toList =
      canonicalizeUrlClean ("http://example.com/a?x=1").toList ∧
    canonicalizeUrlClean ("http://example.com/a/").toList =
      canonicalizeUrlClean ("http://example.com/a").toList ∧
    canonicalizeUrlClean ("http://example.com/a?utm_source=t&b=2").toList =
      canonicalizeUrlClean ("http://example.com/a?b=2").toList := by
  obtain ⟨h1, h2, h3, h4⟩ := canonicalize_idempotent_and_invariant
  refine ⟨?_, ?_, ?_, ?_⟩
  · exact h1 _ ⟨("http").toList, ("example.com").toList, ("/a").toList, [], [], []⟩
      rfl rfl (by decide)
  · exact h2 _ _
      ⟨("http").toList, ("example.com").toList, ("/a").toList, [],
        ("x=1").toList, ("sec").toList⟩
      ⟨("http").toList, ("example.com").toList, ("/a").toList, [],
        ("x=1").toList, []⟩
      rfl rfl rfl rfl rfl rfl rfl
  · exact h3 _ _
      ⟨("http").toList, ("example.com").toList, ("/a/").toList, [], [], []⟩
      ⟨("http").toList, ("example.com").toList, ("/a").toList, [], [], []⟩
      rfl rfl rfl rfl (by decide) (by decide) (by decide) rfl rfl rfl
  · exact h4 _ _
      ⟨("http").toList, ("example.com").toList, ("/a").toList, [],
        ("utm_source=t&b=2").toList, []⟩
      ⟨("http").toList, ("example.com").toList, ("/a").toList, [],
        ("b=2").toList, []⟩
      rfl rfl rfl rfl rfl rfl
      (by simp [parseQs, parseQsl, parseQslField, unquoteM, replPlus, splitAll,
        splitFirst, utf8Decode, pctDecodeBytes, groupPairs, isAsciiChar, lowerS,
        lowerC, TRACKING_PARAMS])

/-- **C4**: the surviving query parameters are re-encoded in `parse_qs`
insertion order, not sorted — `b=2&a=1` comes back as `b=2&a=1`, not the
claimed deterministic sorted `a=1&b=2` (the code's own comment says "sorted
for consistency", but no sort is performed). -/
theorem canonicalize_query_not_sorted :
    canonicalizeUrlClean ("https://x.com/a?b=2&a=1").toList =
      ("https://x.com/a?b=2&a=1").toList ∧
    canonicalizeUrlClean ("https://x.com/a?b=2&a=1").toList ≠
      ("https://x.com/a?a=1&b=2").toList := by
  have e : canonicalizeUrlClean ("https://x.com/a?b=2&a=1").toList =
      ("https://x.com/a?b=2&a=1").toList := by
    simp [canonicalizeUrlClean, urlparseM, urlsplitM, cleanUrl, splitScheme,
      splitFirst, splitNetloc, splitFragment, splitQuery, splitParams, splitLast,
      canonCore, canonQueryPart, parseQs, parseQsl, parseQslField, unquoteM,
      replPlus, splitAll, utf8Decode, pctDecodeBytes, isAsciiChar, groupPairs,
      urlencodeSeq, ungroup, joinAmp, encField, quotePlus, alwaysSafe, pctByte,
      hexDigitUpper, utf8Encode, TRACKING_PARAMS, urlunparseM, urlunsplitM,
      rstripSlash, lowerS, lowerC, usesParams, isNetlocStop, isC0OrSpace,
      isUnsafeUrlByte, isAsciiAlpha, isSchemeChar, isAsciiAlnum, isAsciiDigit]
  exact ⟨e, by rw [e]; decide⟩

/-! ## SHA-256 (`hashlib.sha256(...).hexdigest()`), byte-level model -/

/-- 32-bit right rotation on a `Nat` below `2^32`. -/
def rotr (n x : Nat) : Nat := ((x >>> n) ||| (x <<< (32 - n))) % 4294967296

/-- Big-endian byte expansion of `n` into `k` bytes. -/
def beBytes : Nat → Nat → List Nat
  | 0, _ => []
  | k + 1, n => beBytes k (n / 256) ++ [n % 256]

/-- SHA-256 padding: `0x80`, zeros to 56 mod 64, then the 64-bit bit length. -/
def sha256pad (msg : List Nat) : List Nat :=
  msg ++ 0x80 :: List.replicate ((119 - (msg.length % 64)) % 64) 0 ++
    beBytes 8 (8 * msg.length)

/-- Big-endian 32-bit words of a byte list. -/
def words4 : List Nat → List Nat
  | b0 :: b1 :: b2 :: b3 :: rest =>
    (((b0 * 256 + b1) * 256 + b2) * 256 + b3) :: words4 rest
  | _ => []

def sha256K : List Nat :=
  [1116352408, 1899447441, 3049323471, 3921009573, 961987163, 1508970993,
   2453635748, 2870763221, 3624381080, 310598401, 607225278, 1426881987,
   1925078388, 2162078206, 2614888103, 3248222580, 3835390401, 4022224774,
   264347078, 604807628, 770255983, 1249150122, 1555081692, 1996064986,
   2554220882, 2821834349, 2952996808, 3210313671, 3336571891, 3584528711,
   113926993, 338241895, 666307205, 773529912, 1294757372, 1396182291,
   1695183700, 1986661051, 2177026350, 2456956037, 2730485921, 2820302411,
   3259730800, 3345764771, 3516065817, 3600352804, 4094571909, 275423344,
   430227734, 506948616, 659060556, 883997877, 958139571, 1322822218,
   1537002063, 1747873779, 1955562222, 2024104815, 2227730452, 2361852424,
   2428436474, 2756734187, 3204031479, 3329325298]

/-- Extend a 16-word block to the 64-word message schedule (`k` more words). -/
def sha256Extend : Nat → List Nat → List Nat
  | 0, w => w
  | k + 1, w =>
    let i := w.length
    let s0w := w.getD (i - 15) 0
    let s0 := rotr 7 s0w ^^^ rotr 18 s0w ^^^ (s0w >>> 3)
    let s1w := w.getD (i - 2) 0
    let s1 := rotr 17 s1w ^^^ rotr 19 s1w ^^^ (s1w >>> 10)
    sha256Extend k (w ++ [(w.getD (i - 16) 0 + s0 + w.getD (i - 7) 0 + s1) % 4294967296])

abbrev Sha256St := Nat × Nat × Nat × Nat × Nat × Nat × Nat × Nat

/-- The 64 compression rounds. -/
def sha256Rounds : List Nat → List Nat → Sha256St → Sha256St
  | k :: ks, w :: ws, (a, b, c, d, e, f, g, h) =>
    let s1 := rotr 6 e ^^^ rotr 11 e ^^^ rotr 25 e
    let ch := (e &&& f) ^^^ ((e ^^^ 4294967295) &&& g)
    let t1 := (h + s1 + ch + k + w) % 4294967296
    let s0 := rotr 2 a ^^^ rotr 13 a ^^^ rotr 22 a
    let mj := (a &&& b) ^^^ (a &&& c) ^^^ (b &&& c)
    let t2 := (s0 + mj) % 4294967296
    sha256Rounds ks ws ((t1 + t2) % 4294967296, a, b, c, (d + t1) % 4294967296, e, f, g)
  | _, _, st => st

/-- One 64-byte block folded into the state. -/
def sha256Block (block : List Nat) (st : Sha256St) : Sha256St :=
  match st, sha256Rounds sha256K (sha256Extend 48 (words4 block)) st with
  | (a, b, c, d, e, f, g, h), (a2, b2, c2, d2, e2, f2, g2, h2) =>
    ((a + a2) % 4294967296, (b + b2) % 4294967296, (c + c2) % 4294967296,
     (d + d2) % 4294967296, (e + e2) % 4294967296, (f + f2) % 4294967296,
     (g + g2) % 4294967296, (h + h2) % 4294967296)

/-- Process a padded message 64 bytes at a time. -/
def sha256Blocks (bytes : List Nat) (st : Sha256St) : Sha256St :=
  match bytes with
  | [] => st
  | b :: rest => sha256Blocks ((b :: rest).drop 64) (sha256Block ((b :: rest).take 64) st)
termination_by bytes.length
decreasing_by
  simp only [List.length_drop, List.length_cons]
  omega

def hexDigitLower (n : Nat) : Char :=
  Char.ofNat (if n < 10 then 48 + n else 87 + n)

def hexByte (b : Nat) : Str := [hexDigitLower (b / 16), hexDigitLower (b % 16)]

/-- `hashlib.sha256(msg).hexdigest()` on a byte list. -/
def sha256hex (msg : List Nat) : Str :=
  match sha256Blocks (sha256pad msg) (0x6a09e667, 0xbb67ae85, 0x3c6ef372,
      0xa54ff53a, 0x510e527f, 0x9b05688c, 0x1f83d9ab, 0x5be0cd19) with
  | (a, b, c, d, e, f, g, h) =>
    ([a, b, c, d, e, f, g, h].flatMap (beBytes 4)).flatMap hexByte

/-- `NewsSpider._compute_url_hash`: SHA-256 hex digest of the UTF-8 bytes of
the canonical URL. -/
def computeUrlHash (u : Str) : Str :=
  sha256hex ((canonicalizeUrlClean u).flatMap utf8Encode)

theorem splitAll_ne_nil (sep : Char) (s : Str) : splitAll sep s ≠ [] := by
  match s with
  | [] => exact by simp [splitAll]
  | c :: t =>
    unfold splitAll
    split
    · simp
    · split <;> simp

theorem splitAll_append_right (sep : Char) (a : Str) {f : Str} (h : sep ∉ f) :
    splitAll sep (a ++ sep :: f) = splitAll sep a ++ [f] := by
  induction a with
  | nil =>
    simp only [List.nil_append]
    conv_lhs => unfold splitAll
    rw [if_pos rfl, splitAll_no_sep h]
    rfl
  | cons c t ih =>
    rw [List.cons_append]
    conv_lhs => unfold splitAll
    conv_rhs => rw [show splitAll sep (c :: t) =
      (if c = sep then [] :: splitAll sep t
       else match splitAll sep t with
            | [] => [[c]]
            | h :: r => (c :: h) :: r) from rfl]
    by_cases hc : c = sep
    · rw [if_pos hc, if_pos hc, ih, List.cons_append]
    · rw [if_neg hc, if_neg hc, ih]
      match ht : splitAll sep t with
      | [] => exact absurd ht (splitAll_ne_nil sep t)
      | h0 :: r =>
        show (c :: h0) :: (r ++ [f]) = ((c :: h0) :: r) ++ [f]
        rw [List.cons_append]

theorem parseQslField_blank {k : Str} (hk2 : '=' ∉ k) :
    parseQslField (k ++ ['=']) = none := by
  unfold parseQslField
  rw [if_neg (by simp), splitFirst_append_sep hk2]
  show (if ([] : Str) = [] then none
    else some (unquoteM (replPlus k), unquoteM (replPlus []))) = none
  rw [if_pos rfl]

theorem parseQsl_blank_only {k : Str} (hk : '&' ∉ k) (hk2 : '=' ∉ k) :
    parseQsl (k ++ ['=']) = [] := by
  unfold parseQsl
  rw [if_neg (by simp), splitAll_no_sep (by
    simp only [List.mem_append, List.mem_singleton, not_or]
    exact ⟨hk, by decide⟩)]
  simp [parseQslField_blank hk2]

theorem parseQsl_append_blank {q k : Str} (hk : '&' ∉ k) (hk2 : '=' ∉ k) :
    parseQsl (q ++ '&' :: (k ++ ['='])) = parseQsl q := by
  have hnof : '&' ∉ k ++ ['='] := by
    simp only [List.mem_append, List.mem_singleton, not_or]
    exact ⟨hk, by decide⟩
  unfold parseQsl
  rw [if_neg (by simp), splitAll_append_right '&' q hnof, List.filterMap_append]
  have h2 : List.filterMap parseQslField [k ++ ['=']] = [] := by
    simp [parseQslField_blank hk2]
  rw [h2, List.append_nil]
  by_cases hq : q = []
  · subst hq
    rw [if_pos rfl]
    show List.filterMap parseQslField (splitAll '&' []) = []
    simp [splitAll, parseQslField]
  · rw [if_neg hq]

/-- **C10**: a query parameter with an empty value is dropped by the
`keep_blank_values=False` parse, so a URL that differs from another only by an
appended blank-valued parameter (`?k=` or `&k=`) has the same canonical form
and hence the same `url_hash` dedup identity. -/
theorem blank_param_same_canonical_and_hash :
    ∀ (u1 u2 : Str) (pr1 pr2 : ParseResult) (k : Str), urlparseM u1 = .ok pr1 →
      urlparseM u2 = .ok pr2 → pr1.scheme = pr2.scheme → pr1.netloc = pr2.netloc →
      pr1.path = pr2.path → pr1.params = pr2.params →
      pr1.query = (if pr2.query = [] then k ++ ['=']
                   else pr2.query ++ '&' :: (k ++ ['='])) →
      '&' ∉ k → '=' ∉ k →
      canonicalizeUrlClean u1 = canonicalizeUrlClean u2 ∧
      computeUrlHash u1 = computeUrlHash u2 := by
  intro u1 u2 pr1 pr2 k h1 h2 hs hn hp hprm hq hk hk2
  have hql : parseQsl pr1.query = parseQsl pr2.query := by
    rw [hq]
    by_cases h0 : pr2.query = []
    · rw [if_pos h0, parseQsl_blank_only hk hk2, h0]
      rfl
    · rw [if_neg h0, parseQsl_append_blank hk hk2]
  have hcanon : canonicalizeUrlClean u1 = canonicalizeUrlClean u2 := by
    rw [canonicalizeUrlClean_ok h1, canonicalizeUrlClean_ok h2]
    refine canonCore_congr hs hn (by rw [hp]) hprm ?_
    unfold canonQueryPart parseQs
    rw [hql]
  refine ⟨hcanon, ?_⟩
  unfold computeUrlHash
  rw [hcanon]

/-- Concrete instance of the C10 theorem: `?b=1&page=` collapses to `?b=1`. -/
theorem blank_param_same_canonical_and_hash_witness :
    canonicalizeUrlClean ("http://example.com/a?b=1&page=").toList =
      canonicalizeUrlClean ("http://example.com/a?b=1").toList ∧
    computeUrlHash ("http://example.com/a?b=1&page=").toList =
      computeUrlHash ("http://example.com/a?b=1").toList := by
  exact blank_param_same_canonical_and_hash _ _
    ⟨("http").toList, ("example.com").toList, ("/a").toList, [],
      ("b=1&page=").toList, []⟩
    ⟨("http").toList, ("example.com").toList, ("/a").toList, [],
      ("b=1").toList, []⟩
    ("page").toList rfl rfl rfl rfl rfl rfl (by decide) (by decide) (by decide)

/-! ## Datetime parsing (`datetime.strptime` / `fromisoformat` as used here) -/

/-- A parsed `datetime.datetime`: timezone as a UTC offset in whole minutes
(`none` = naive).  Offsets with a seconds part are outside the model. -/
structure PyDateTime where
  year : Nat
  month : Nat
  day : Nat
  hour : Nat
  minute : Nat
  second : Nat
  usec : Nat
  tz : Option Int
  deriving DecidableEq, Repr

/-- Python `str.strip()` (ASCII whitespace). -/
def isPySpace (c : Char) : Bool := c.toNat = 32 ∨ (9 ≤ c.toNat ∧ c.toNat ≤ 13)

def pyStrip (s : Str) : Str :=
  ((s.dropWhile isPySpace).reverse.dropWhile isPySpace).reverse

def digitVal (c : Char) : Nat := c.toNat - 48

/-- The `strptime` directives appearing in this repository's format strings
(a literal matches case-insensitively and format whitespace matches a
whitespace run, as `_strptime` compiles them). -/
inductive FTok where
  | Y | m | d | H | M | S | f | z | B | b
  | lit (c : Char)
  | ws
  deriving DecidableEq, Repr

/-- Two digits where the first is drawn from `hi1` alternatives, else one
digit: the `1[0-2]|0[1-9]|[1-9]`-style alternations of `TimeRE`. -/
def matchY : Str → Option (Nat × Str)
  | c1 :: c2 :: c3 :: c4 :: rest =>
    if isAsciiDigit c1 ∧ isAsciiDigit c2 ∧ isAsciiDigit c3 ∧ isAsciiDigit c4 then
      some (((digitVal c1 * 10 + digitVal c2) * 10 + digitVal c3) * 10 + digitVal c4,
        rest)
    else none
  | _ => none

/-- `1[0-2]|0[1-9]|[1-9]` (month). -/
def matchMonth : Str → Option (Nat × Str)
  | c1 :: c2 :: rest =>
    if c1 = '1' ∧ '0' ≤ c2 ∧ c2 ≤ '2' then some (10 + digitVal c2, rest)
    else if c1 = '0' ∧ '1' ≤ c2 ∧ c2 ≤ '9' then some (digitVal c2, rest)
    else if '1' ≤ c1 ∧ c1 ≤ '9' then some (digitVal c1, c2 :: rest)
    else none
  | [c1] => if '1' ≤ c1 ∧ c1 ≤ '9' then some (digitVal c1, []) else none
  | [] => none

/-- `3[01]|[12]\d|0[1-9]|[1-9]` (day). -/
def matchDay : Str → Option (Nat × Str)
  | c1 :: c2 :: rest =>
    if c1 = '3' ∧ '0' ≤ c2 ∧ c2 ≤ '1' then some (30 + digitVal c2, rest)
    else if ('1' ≤ c1 ∧ c1 ≤ '2') ∧ isAsciiDigit c2 then
      some (digitVal c1 * 10 + digitVal c2, rest)
    else if c1 = '0' ∧ '1' ≤ c2 ∧ c2 ≤ '9' then some (digitVal c2, rest)
    else if '1' ≤ c1 ∧ c1 ≤ '9' then some (digitVal c1, c2 :: rest)
    else none
  | [c1] => if '1' ≤ c1 ∧ c1 ≤ '9' then some (digitVal c1, []) else none
  | [] => none

/-- `2[0-3]|[0-1]\d|\d` (hour). -/
def matchHour : Str → Option (Nat × Str)
  | c1 :: c2 :: rest =>
    if c1 = '2' ∧ '0' ≤ c2 ∧ c2 ≤ '3' then some (20 + digitVal c2, rest)
    else if ('0' ≤ c1 ∧ c1 ≤ '1') ∧ isAsciiDigit c2 then
      some (digitVal c1 * 10 + digitVal c2, rest)
    else if isAsciiDigit c1 then some (digitVal c1, c2 :: rest)
    else none
  | [c1] => if isAsciiDigit c1 then some (digitVal c1, []) else none
  | [] => none

/-- `[0-5]\d|\d` (minute). -/
def matchMinute : Str → Option (Nat × Str)
  | c1 :: c2 :: rest =>
    if ('0' ≤ c1 ∧ c1 ≤ '5') ∧ isAsciiDigit c2 then
      some (digitVal c1 * 10 + digitVal c2, rest)
    else if isAsciiDigit c1 then some (digitVal c1, c2 :: rest)
    else none
  | [c1] => if isAsciiDigit c1 then some (digitVal c1, []) else none
  | [] => none

/-- `6[0-1]|[0-5]\d|\d` (second; 60/61 match but the `datetime` constructor
then rejects them). -/
def matchSecond : Str → Option (Nat × Str)
  | c1 :: c2 :: rest =>
    if c1 = '6' ∧ '0' ≤ c2 ∧ c2 ≤ '1' then some (60 + digitVal c2, rest)
    else if ('0' ≤ c1 ∧ c1 ≤ '5') ∧ isAsciiDigit c2 then
      some (digitVal c1 * 10 + digitVal c2, rest)
    else if isAsciiDigit c1 then some (digitVal c1, c2 :: rest)
    else none
  | [c1] => if isAsciiDigit c1 then some (digitVal c1, []) else none
  | [] => none

/-- `\d{1,6}` scaled to microseconds. -/
def matchFrac (s : Str) : Option (Nat × Str) :=
  match s.takeWhile isAsciiDigit, s.dropWhile isAsciiDigit with
  | [], _ => none
  | ds, rest =>
    if ds.length ≤ 6 then
      some ((ds.foldl (fun a c => a * 10 + digitVal c) 0) *
        (10 ^ (6 - ds.length)), rest)
    else none

/-- `[+-]\d\d:?[0-5]\d` or `Z`, as a signed offset in minutes; an offset of
24 hours or more is rejected (the `timezone` constructor raises on it). -/
def matchTz : Str → Option (Int × Str)
  | 'Z' :: rest => some (0, rest)
  | sgn :: c1 :: c2 :: rest =>
    if sgn = '+' ∨ sgn = '-' then
      if isAsciiDigit c1 ∧ isAsciiDigit c2 then
        let hh := digitVal c1 * 10 + digitVal c2
        let body := match rest with
          | ':' :: m1 :: m2 :: r2 =>
            if ('0' ≤ m1 ∧ m1 ≤ '5') ∧ isAsciiDigit m2 then
              some (digitVal m1 * 10 + digitVal m2, r2)
            else none
          | m1 :: m2 :: r2 =>
            if ('0' ≤ m1 ∧ m1 ≤ '5') ∧ isAsciiDigit m2 then
              some (digitVal m1 * 10 + digitVal m2, r2)
            else none
          | _ => none
        match body with
        | none => none
        | some (mm, r2) =>
          if hh * 60 + mm < 1440 then
            some (if sgn = '-' then -(hh * 60 + mm : Int) else (hh * 60 + mm : Int), r2)
          else none
      else none
    else none
  | _ => none

/-- Full month names, longest first as `TimeRE.__seqToRE` orders alternations. -/
def monthNamesFull : List (Str × Nat) :=
  [(("september").toList, 9), (("february").toList, 2), (("november").toList, 11),
   (("december").toList, 12), (("january").toList, 1), (("october").toList, 10),
   (("august").toList, 8), (("march").toList, 3), (("april").toList, 4),
   (("june").toList, 6), (("july").toList, 7), (("may").toList, 5)]

def monthNamesAbbr : List (Str × Nat) :=
  [(("jan").toList, 1), (("feb").toList, 2), (("mar").toList, 3),
   (("apr").toList, 4), (("may").toList, 5), (("jun").toList, 6),
   (("jul").toList, 7), (("aug").toList, 8), (("sep").toList, 9),
   (("oct").toList, 10), (("nov").toList, 11), (("dec").toList, 12)]

/-- Case-insensitive name alternation match. -/
def matchName (names : List (Str × Nat)) (s : Str) : Option (Nat × Str) :=
  names.findSome? (fun nm =>
    if lowerS (s.take nm.1.length) = nm.1 then some (nm.2, s.drop nm.1.length)
    else none)

/-- The fields accumulated while running a format. -/
structure StpAcc where
  year : Nat := 1900
  month : Nat := 1
  day : Nat := 1
  hour : Nat := 0
  minute : Nat := 0
  second : Nat := 0
  usec : Nat := 0
  tz : Option Int := none
  deriving Repr

/-- Run one format over the string, consuming it completely (`_strptime`
requires the regex match to reach the end). -/
def runFmt : List FTok → Str → StpAcc → Option StpAcc
  | [], [], acc => some acc
  | [], _ :: _, _ => none
  | tok :: fs, s, acc =>
    match tok with
    | .Y => match matchY s with
      | some (v, r) => runFmt fs r { acc with year := v }
      | none => none
    | .m => match matchMonth s with
      | some (v, r) => runFmt fs r { acc with month := v }
      | none => none
    | .B => match matchName monthNamesFull s with
      | some (v, r) => runFmt fs r { acc with month := v }
      | none => none
    | .b => match matchName monthNamesAbbr s with
      | some (v, r) => runFmt fs r { acc with month := v }
      | none => none
    | .d => match matchDay s with
      | some (v, r) => runFmt fs r { acc with day := v }
      | none => none
    | .H => match matchHour s with
      | some (v, r) => runFmt fs r { acc with hour := v }
      | none => none
    | .M => match matchMinute s with
      | some (v, r) => runFmt fs r { acc with minute := v }
      | none => none
    | .S => match matchSecond s with
      | some (v, r) => runFmt fs r { acc with second := v }
      | none => none
    | .f => match matchFrac s with
      | some (v, r) => runFmt fs r { acc with usec := v }
      | none => none
    | .z => match matchTz s with
      | some (v, r) => runFmt fs r { acc with tz := some v }
      | none => none
    | .lit c => match s with
      | c2 :: r => if lowerC c2 = lowerC c then runFmt fs r acc else none
      | [] => none
    | .ws => match s.dropWhile isPySpace, s with
      | r, c :: _ => if isPySpace c then runFmt fs r acc else none
      | _, [] => none

def isLeapYear (y : Nat) : Bool :=
  y % 4 = 0 ∧ (y % 100 ≠ 0 ∨ y % 400 = 0)

def daysInMonth (y mo : Nat) : Nat :=
  if mo = 2 then (if isLeapYear y then 29 else 28)
  else if mo = 4 ∨ mo = 6 ∨ mo = 9 ∨ mo = 11 then 30
  else 31

/-- The `datetime` constructor's range check applied to the matched fields
(`_strptime`'s own regexes already bound month/day/hour/minute). -/
def mkDateTime (a : StpAcc) : Option PyDateTime :=
  if 1 ≤ a.month ∧ a.month ≤ 12 ∧ 1 ≤ a.day ∧ a.day ≤ daysInMonth a.year a.month ∧
      a.hour ≤ 23 ∧ a.minute ≤ 59 ∧ a.second ≤ 59 then
    some ⟨a.year, a.month, a.day, a.hour, a.minute, a.second, a.usec, a.tz⟩
  else none

/-- `datetime.strptime(s, fmt)` for one of this repository's formats. -/
def strptimeM (fmt : List FTok) (s : Str) : Option PyDateTime :=
  match runFmt fmt s {} with
  | some acc => mkDateTime acc
  | none => none

def fmtYmdTHMSz : List FTok :=
  [.Y, .lit '-', .m, .lit '-', .d, .lit 'T', .H, .lit ':', .M, .lit ':', .S, .z]
def fmtYmdTHMSZlit : List FTok :=
  [.Y, .lit '-', .m, .lit '-', .d, .lit 'T', .H, .lit ':', .M, .lit ':', .S, .lit 'Z']
def fmtYmdTHMS : List FTok :=
  [.Y, .lit '-', .m, .lit '-', .d, .lit 'T', .H, .lit ':', .M, .lit ':', .S]
def fmtYmdSpHMSz : List FTok :=
  [.Y, .lit '-', .m, .lit '-', .d, .ws, .H, .lit ':', .M, .lit ':', .S, .z]
def fmtYmdSpHMS : List FTok :=
  [.Y, .lit '-', .m, .lit '-', .d, .ws, .H, .lit ':', .M, .lit ':', .S]
def fmtYmd : List FTok := [.Y, .lit '-', .m, .lit '-', .d]
def fmtBdY : List FTok := [.B, .ws, .d, .lit ',', .ws, .Y]
def fmtbdY : List FTok := [.b, .ws, .d, .lit ',', .ws, .Y]
def fmtdBY : List FTok := [.d, .ws, .B, .ws, .Y]
def fmtdbY : List FTok := [.d, .ws, .b, .ws, .Y]
def fmtYmdTHMSfz : List FTok :=
  [.Y, .lit '-', .m, .lit '-', .d, .lit 'T', .H, .lit ':', .M, .lit ':', .S,
   .lit '.', .f, .z]
def fmtYmdTHMSfZ : List FTok :=
  [.Y, .lit '-', .m, .lit '-', .d, .lit 'T', .H, .lit ':', .M, .lit ':', .S,
   .lit '.', .f, .lit 'Z']

/-- The format list of `parse_iso8601_date` (`newsspider.py`), in order. -/
def isoFormats : List (List FTok) :=
  [fmtYmdTHMSz, fmtYmdTHMSZlit, fmtYmdTHMS, fmtYmdSpHMSz, fmtYmdSpHMS, fmtYmd,
   fmtBdY, fmtbdY, fmtdBY, fmtdbY]

/-- The format list of `parse_datetime_from_meta` (`extractors/base.py`). -/
def metaFormats : List (List FTok) :=
  [fmtYmdTHMSz, fmtYmdTHMSZlit, fmtYmdTHMSfz, fmtYmdTHMSfZ, fmtYmdTHMS, fmtYmd]

/-- Exactly two digits. -/
def parse2 : Str → Option (Nat × Str)
  | c1 :: c2 :: rest =>
    if isAsciiDigit c1 ∧ isAsciiDigit c2 then
      some (digitVal c1 * 10 + digitVal c2, rest)
    else none
  | _ => none

/-- Trailing UTC-offset of `fromisoformat` (whole-minute offsets; the model
covers `±HH:MM`, `±HHMM` and `Z`). -/
def parseIsoOffsetEnd : Str → Option (Option Int)
  | [] => some none
  | ['Z'] => some (some 0)
  | sgn :: rest =>
    if sgn = '+' ∨ sgn = '-' then
      match rest with
      | [h1, h2, ':', m1, m2] =>
        if isAsciiDigit h1 ∧ isAsciiDigit h2 ∧ ('0' ≤ m1 ∧ m1 ≤ '5') ∧
            isAsciiDigit m2 then
          let v := (digitVal h1 * 10 + digitVal h2) * 60 +
            digitVal m1 * 10 + digitVal m2
          if v < 1440 then some (some (if sgn = '-' then -(v : Int) else (v : Int)))
          else none
        else none
      | [h1, h2, m1, m2] =>
        if isAsciiDigit h1 ∧ isAsciiDigit h2 ∧ ('0' ≤ m1 ∧ m1 ≤ '5') ∧
            isAsciiDigit m2 then
          let v := (digitVal h1 * 10 + digitVal h2) * 60 +
            digitVal m1 * 10 + digitVal m2
          if v < 1440 then some (some (if sgn = '-' then -(v : Int) else (v : Int)))
          else none
        else none
      | _ => none
    else none

/-- Fraction digits as `fromisoformat` reads them: at least one digit, digits
beyond the sixth truncated. -/
def isoFrac (s : Str) : Option (Nat × Str) :=
  match s.takeWhile isAsciiDigit, s.dropWhile isAsciiDigit with
  | [], _ => none
  | ds, rest =>
    some (((ds.take 6).foldl (fun a c => a * 10 + digitVal c) 0) *
      10 ^ (6 - (ds.take 6).length), rest)

/-- Time-of-day part of `fromisoformat`: `HH[:MM[:SS[.ffffff]]][offset]`. -/
def parseIsoTime (s : Str) : Option (Nat × Nat × Nat × Nat × Option Int) :=
  match parse2 s with
  | none => none
  | some (h, r) =>
    match r with
    | ':' :: r2 =>
      match parse2 r2 with
      | none => none
      | some (mi, r3) =>
        match r3 with
        | ':' :: r4 =>
          match parse2 r4 with
          | none => none
          | some (sec, r5) =>
            match r5 with
            | c :: r6 =>
              if c = '.' ∨ c = ',' then
                match isoFrac r6 with
                | none => none
                | some (us, r7) =>
                  match parseIsoOffsetEnd r7 with
                  | none => none
                  | some tz => some (h, mi, sec, us, tz)
              else
                match parseIsoOffsetEnd (c :: r6) with
                | none => none
                | some tz => some (h, mi, sec, 0, tz)
            | [] => some (h, mi, sec, 0, none)
        | _ =>
          match parseIsoOffsetEnd r3 with
          | none => none
          | some tz => some (h, mi, 0, 0, tz)
    | _ =>
      match parseIsoOffsetEnd r with
      | none => none
      | some tz => some (h, 0, 0, 0, tz)

/-- `datetime.fromisoformat` (extended `YYYY-MM-DD[*HH[:MM[:SS[.f]]][offset]]`
shapes; the basic no-separator forms are outside the model). -/
def fromIso (s : Str) : Option PyDateTime :=
  match matchY s with
  | none => none
  | some (y, r1) =>
    match r1 with
    | '-' :: r2 =>
      match parse2 r2 with
      | none => none
      | some (mo, r3) =>
        match r3 with
        | '-' :: r4 =>
          match parse2 r4 with
          | none => none
          | some (d, r5) =>
            if 1 ≤ mo ∧ mo ≤ 12 ∧ 1 ≤ d ∧ d ≤ daysInMonth y mo then
              match r5 with
              | [] => some ⟨y, mo, d, 0, 0, 0, 0, none⟩
              | _ :: r6 =>
                match parseIsoTime r6 with
                | none => none
                | some (h, mi, sec, us, tz) =>
                  if h ≤ 23 ∧ mi ≤ 59 ∧ sec ≤ 59 then
                    some ⟨y, mo, d, h, mi, sec, us, tz⟩
                  else none
            else none
        | _ => none
    | _ => none

/-- `str.replace("Z", "+00:00")`. -/
def replaceZ (s : Str) : Str :=
  s.flatMap (fun c => if c = 'Z' then ('+' :: '0' :: '0' :: ':' :: '0' :: '0' :: []) else [c])

/-- Days since 1970-01-01 of a civil date (Hinnant's algorithm, as the
`datetime` library's proleptic-Gregorian arithmetic computes it). -/
def daysFromCivil (y : Int) (m d : Nat) : Int :=
  let y2 : Int := if m ≤ 2 then y - 1 else y
  let era : Int := (if 0 ≤ y2 then y2 else y2 - 399) / 400
  let yoe : Int := y2 - era * 400
  let mp : Int := if 2 < m then (m : Int) - 3 else (m : Int) + 9
  let doy : Int := (153 * mp + 2) / 5 + (d : Int) - 1
  let doe : Int := yoe * 365 + yoe / 4 - yoe / 100 + doy
  era * 146097 + doe - 719468

def civilFromDays (z0 : Int) : Int × Nat × Nat :=
  let z := z0 + 719468
  let era : Int := (if 0 ≤ z then z else z - 146096) / 146097
  let doe : Int := z - era * 146097
  let yoe : Int := (doe - doe / 1460 + doe / 36524 - doe / 146096) / 365
  let y : Int := yoe + era * 400
  let doy : Int := doe - (365 * yoe + yoe / 4 - yoe / 100)
  let mp : Int := (5 * doy + 2) / 153
  let d : Int := doy - (153 * mp + 2) / 5 + 1
  let m : Int := if mp < 10 then mp + 3 else mp - 9
  (if m ≤ 2 then y + 1 else y, m.toNat, d.toNat)

/-- `dt.replace(tzinfo=utc)` when naive, `dt.astimezone(utc)` when aware. -/
def toUTC (dt : PyDateTime) : PyDateTime :=
  match dt.tz with
  | none => { dt with tz := some 0 }
  | some off =>
    let total : Int := daysFromCivil (dt.year : Int) dt.month dt.day * 1440 +
      (dt.hour : Int) * 60 + (dt.minute : Int) - off
    let rem := (total.emod 1440).toNat
    match civilFromDays (total.ediv 1440) with
    | (y, mo, d) => ⟨y.toNat, mo, d, rem / 60, rem % 60, dt.second, dt.usec, some 0⟩

def pad2 (n : Nat) : Str :=
  List.replicate (2 - (Nat.toDigits 10 n).length) '0' ++ Nat.toDigits 10 n

/-- `dt.strftime("%Y-%m-%dT%H:%M:%SZ")`. -/
def strftimeZ (dt : PyDateTime) : Str :=
  Nat.toDigits 10 dt.year ++ '-' :: pad2 dt.month ++ '-' :: pad2 dt.day ++
    'T' :: pad2 dt.hour ++ ':' :: pad2 dt.minute ++ ':' :: pad2 dt.second ++ ['Z']

/-- `parse_iso8601_date` from `newsspider.py` on a string input (the
datetime-object branch is outside the string model). -/
def parseIso8601M (s : Str) : Option Str :=
  let t := pyStrip s
  if t = [] then none
  else
    match isoFormats.findSome? (fun fmt => strptimeM fmt t) with
    | some dt => some (strftimeZ (toUTC dt))
    | none =>
      match fromIso (replaceZ t) with
      | some dt => some (strftimeZ (toUTC dt))
      | none => none

/-- `parse_datetime_from_meta` from `extractors/base.py`: note it returns the
parsed datetime as-is, with no timezone conversion. -/
def parseDtMeta (s : Str) : Option PyDateTime :=
  let t := pyStrip s
  if t = [] then none
  else
    match metaFormats.findSome? (fun fmt => strptimeM fmt t) with
    | some dt => some dt
    | none => fromIso (replaceZ t)

theorem toUTC_tz (dt : PyDateTime) : (toUTC dt).tz = some 0 := by
  unfold toUTC
  match dt.tz with
  | none => rfl
  | some off =>
    match civilFromDays ((daysFromCivil (dt.year : Int) dt.month dt.day * 1440 +
        (dt.hour : Int) * 60 + (dt.minute : Int) - off).ediv 1440) with
    | (y, mo, d) => rfl

/-- **C8** (amended).  `parse_iso8601_date` returns `None` when no format and
no `fromisoformat` parse matches, every non-`None` output is the
`%Y-%m-%dT%H:%M:%SZ` rendering of a UTC-offset datetime, and a date-only
input is midnight UTC.  `parse_datetime_from_meta` likewise returns `None`
when nothing matches, but — contrary to the claim — performs no UTC
normalization: it returns exactly the datetime the matching format produced,
offset included (see the counterexample theorem). -/
theorem date_parser_utc_and_none :
    (∀ s : Str, (∀ fmt ∈ isoFormats, strptimeM fmt (pyStrip s) = none) →
      fromIso (replaceZ (pyStrip s)) = none → parseIso8601M s = none) ∧
    (∀ (s r : Str), parseIso8601M s = some r →
      ∃ dt, r = strftimeZ (toUTC dt) ∧ (toUTC dt).tz = some 0) ∧
    parseIso8601M ("2026-01-29").toList = some (("2026-01-29T00:00:00Z").toList) ∧
    (∀ s : Str, (∀ fmt ∈ metaFormats, strptimeM fmt (pyStrip s) = none) →
      fromIso (replaceZ (pyStrip s)) = none → parseDtMeta s = none) ∧
    (∀ (s : Str) (dt : PyDateTime), parseDtMeta s = some dt →
      (∃ fmt ∈ metaFormats, strptimeM fmt (pyStrip s) = some dt) ∨
        fromIso (replaceZ (pyStrip s)) = some dt) := by
  refine ⟨?_, ?_, ?_, ?_, ?_⟩
  · intro s h1 h2
    simp only [parseIso8601M]
    by_cases ht : pyStrip s = []
    · rw [if_pos ht]
    · rw [if_neg ht]
      have hf : isoFormats.findSome? (fun fmt => strptimeM fmt (pyStrip s)) = none :=
        List.findSome?_eq_none_iff.mpr h1
      rw [hf, h2]
  · intro s r h
    simp only [parseIso8601M] at h
    split at h
    · exact Option.noConfusion h
    · split at h
      · next dt hdt =>
        exact ⟨dt, (Option.some.inj h).symm, toUTC_tz dt⟩
      · split at h
        · next dt hdt =>
          exact ⟨dt, (Option.some.inj h).symm, toUTC_tz dt⟩
        · exact Option.noConfusion h
  · decide
  · intro s h1 h2
    simp only [parseDtMeta]
    by_cases ht : pyStrip s = []
    · rw [if_pos ht]
    · rw [if_neg ht]
      have hf : metaFormats.findSome? (fun fmt => strptimeM fmt (pyStrip s)) = none :=
        List.findSome?_eq_none_iff.mpr h1
      rw [hf, h2]
  · intro s dt h
    simp only [parseDtMeta] at h
    split at h
    · exact Option.noConfusion h
    · split at h
      · next dt0 hdt0 =>
        rw [Option.some.inj h] at hdt0
        exact Or.inl (List.exists_of_findSome?_eq_some hdt0)
      · exact Or.inr h

/-- **C8** counterexample to "output is always normalized to UTC":
`parse_datetime_from_meta("2026-01-29T12:00:00+05:00")` returns the datetime
still carrying its `+05:00` (300-minute) offset — no conversion to UTC is
performed (and naive inputs come back naive). -/
theorem parseDtMeta_not_utc_cex :
    parseDtMeta ("2026-01-29T12:00:00+05:00").toList =
      some ⟨2026, 1, 29, 12, 0, 0, 0, some 300⟩ := by decide

/-- Concrete instances of the C8 theorem. -/
theorem date_parser_utc_and_none_witness :
    parseIso8601M ("garbage").toList = none ∧
    (∃ dt, ("2026-01-29T07:00:00Z").toList = strftimeZ (toUTC dt) ∧
      (toUTC dt).tz = some 0) ∧
    parseIso8601M ("2026-01-29").toList = some (("2026-01-29T00:00:00Z").toList) ∧
    parseDtMeta ("garbage").toList = none ∧
    ((∃ fmt ∈ metaFormats, strptimeM fmt (pyStrip ("2026-01-29").toList) =
        some ⟨2026, 1, 29, 0, 0, 0, 0, none⟩) ∨
      fromIso (replaceZ (pyStrip ("2026-01-29").toList)) =
        some ⟨2026, 1, 29, 0, 0, 0, 0, none⟩) := by
  obtain ⟨p1, p2, p3, p4, p5⟩ := date_parser_utc_and_none
  exact ⟨p1 _ (by decide) (by decide),
    p2 ("2026-01-29T12:00:00+05:00").toList _ (by decide), p3,
    p4 _ (by decide) (by decide), p5 _ _ (by decide)⟩

/-! ## JSON values, Python truthiness and the extraction helpers of
`extractors/base.py` -/

/-- A parsed JSON value (`json.loads` output; numbers as integers — the
JSON-LD fields exercised here never carry fractional numbers). -/
inductive Json where
  | null
  | jbool (b : Bool)
  | jnum (n : Int)
  | jstr (s : Str)
  | jarr (l : List Json)
  | jobj (o : List (Str × Json))
  deriving BEq, Repr

/-- Python exceptions an extractor can let escape. -/
inductive PyExc where
  | attrError
  | typeError
  | valueError
  | overflowError
  deriving DecidableEq, Repr

/-- `dict.get` on a JSON object (later duplicate keys overwrite earlier). -/
def jget (o : List (Str × Json)) (k : Str) : Option Json :=
  (o.reverse.find? (fun kv => kv.1 = k)).map (fun kv => kv.2)

/-- Python truthiness of a JSON value. -/
def jtruthy : Json → Bool
  | .null => false
  | .jbool b => b
  | .jnum n => n ≠ 0
  | .jstr s => s ≠ []
  | .jarr l => !l.isEmpty
  | .jobj o => !o.isEmpty

/-- Truthiness of an optional string (`None` and `""` are falsy). -/
def obTruthy : Option Str → Bool
  | none => false
  | some s => s ≠ []

def intStr (n : Int) : Str :=
  if n < 0 then '-' :: Nat.toDigits 10 n.natAbs else Nat.toDigits 10 n.natAbs

/-- `str.join`. -/
def joinSep (sep : Str) : List Str → Str
  | [] => []
  | f :: fs => f ++ fs.flatMap (fun g => sep ++ g)

mutual
/-- Python `repr()` of a JSON value (string escaping is not modelled; no
modelled code path feeds quote-bearing containers to it). -/
def pyRepr : Json → Str
  | .null => ("None").toList
  | .jbool true => ("True").toList
  | .jbool false => ("False").toList
  | .jnum n => intStr n
  | .jstr s => '\'' :: s ++ ['\'']
  | .jarr l => '[' :: pyReprList l ++ [']']
  | .jobj o => '{' :: pyReprObj o ++ ['}']

def pyReprList : List Json → Str
  | [] => []
  | [x] => pyRepr x
  | x :: y :: t => pyRepr x ++ (", ").toList ++ pyReprList (y :: t)

def pyReprObj : List (Str × Json) → Str
  | [] => []
  | [(k, v)] => '\'' :: k ++ '\'' :: ':' :: ' ' :: pyRepr v
  | (k, v) :: y :: t =>
    '\'' :: k ++ '\'' :: ':' :: ' ' :: pyRepr v ++ (", ").toList ++
      pyReprObj (y :: t)
end

/-- Python `str()` of a JSON value: strings unquoted, everything else as its
`repr`. -/
def pyStr : Json → Str
  | .jstr s => s
  | v => pyRepr v

/-- `re.sub(r"\s+", " ", text)`. -/
def collapseWs : Str → Str
  | [] => []
  | c :: t =>
    if isPySpace c then ' ' :: collapseWs (t.dropWhile isPySpace)
    else c :: collapseWs t
termination_by s => s.length
decreasing_by
  · have := (List.dropWhile_sublist (l := t) (p := isPySpace)).length_le
    simp only [List.length_cons]
    omega
  · simp

/-- The whitespace-collapse-and-strip core of `clean_text`, `None` when the
result is empty. -/
def cleanCore (s : Str) : Option Str :=
  match pyStrip (collapseWs s) with
  | [] => none
  | r => some r

/-- `clean_text` on a real string. -/
def cleanTextS (s : Str) : Option Str :=
  if s = [] then none else cleanCore s

/-- `clean_text` on a `.get()` selector result. -/
def cleanTextO : Option Str → Option Str
  | none => none
  | some s => cleanTextS s

/-- `clean_text` on a JSON value (list branch joins truthy items with
`", "`; non-strings go through `str()`). -/
def cleanTextJ (v : Json) : Option Str :=
  if jtruthy v then
    match v with
    | .jarr l =>
      match joinSep ((", ").toList) ((l.filter jtruthy).map pyStr) with
      | [] => none
      | s => cleanCore s
    | .jstr s => cleanCore s
    | w => cleanCore (pyStr w)
  else none

/-- `normalize_paragraphs`. -/
def normalizeParagraphs (ps : List Str) : Str :=
  joinSep ['\n', '\n'] ((ps.map pyStrip).filter (fun p => p ≠ []))

/-- `extract_json_ld`: scripts are given as their `json.loads` outcomes
(`none` = invalid JSON, skipped); arrays contribute their dict elements,
dicts themselves, everything else nothing. -/
def extractJsonLd (scripts : List (Option Json)) : List (List (Str × Json)) :=
  scripts.flatMap (fun s =>
    match s with
    | some (.jarr l) => l.filterMap (fun x =>
        match x with
        | .jobj o => some o
        | _ => none)
    | some (.jobj o) => [o]
    | _ => [])

/-- `parse_datetime_from_meta` applied to a JSON value: a truthy non-string
hits `.strip()` and raises `AttributeError`. -/
def pdmJ : Json → Except PyExc (Option PyDateTime)
  | .jstr s => .ok (parseDtMeta s)
  | v => if jtruthy v then .error .attrError else .ok none

/-- `parse_datetime_from_meta` via a string selector. -/
def pdmO : Option Str → Option PyDateTime
  | none => none
  | some s => parseDtMeta s

/-- `", ".join(names)` over raw JSON values: any non-string raises
`TypeError`. -/
def joinNames (names : List Json) : Except PyExc Str :=
  if names.all (fun n => match n with | .jstr _ => true | _ => false) then
    .ok (joinSep ((", ").toList) (names.map (fun n =>
      match n with
      | .jstr s => s
      | _ => [])))
  else .error .typeError

/-- The `keywords` splitting shared by the extractors. -/
def kwTags : Json → List Str
  | .jstr s => ((splitAll ',' s).map pyStrip).filter (fun k => k ≠ [])
  | .jarr l => (l.filter jtruthy).map (fun k => pyStrip (pyStr k))
  | _ => []

/-- All selector results an extractor of this repository reads from a page. -/
structure Page where
  scripts : List (Option Json) := []
  h1Text : Option Str := none
  ogTitle : Option Str := none
  metaAuthor : Option Str := none
  bylineText : Option Str := none
  authorClassText : Option Str := none
  bylMeta : Option Str := none
  timeDatetime : Option Str := none
  pubTimeMeta : Option Str := none
  articleParas : List Str := []
  textBlockParas : List Str := []
  articleBodyParas : List Str := []
  richTextParas : List Str := []
  contentBodyParas : List Str := []
  nytBodyParas : List Str := []
  nytSectionParas : List Str := []
  nytDivParas : List Str := []

/-- The intermediate record an extractor builds before the
`ExtractedArticle` constructor runs. -/
structure ExtractedArticleM where
  title : Option Str
  body : Option Str
  author : Option Str
  published_at : Option PyDateTime
  modified_at : Option PyDateTime
  sectionV : Option Str
  tags : List Str
  extraction_method : Str
  confidence : ℚ
  errors : List Str
  deriving Repr

/-- `ExtractedArticle.__post_init__`: out-of-range confidence raises
`ValueError`. -/
def mkArticle (a : ExtractedArticleM) : Except PyExc ExtractedArticleM :=
  if 0 ≤ a.confidence ∧ a.confidence ≤ 1 then .ok a else .error .valueError

def cleanTextJO : Option Json → Option Str
  | none => none
  | some v => cleanTextJ v

def jgetT (o : List (Str × Json)) (k : Str) : Bool :=
  match jget o k with
  | some v => jtruthy v
  | none => false

/-- Python `value == "literal"` on a `dict.get` result. -/
def isTypeStr (v : Option Json) (s : Str) : Bool :=
  match v with
  | some (.jstr t) => t = s
  | _ => false

/-- `item.get("@type") in ["NewsArticle", "Article"]`. -/
def isArtType (o : List (Str × Json)) : Bool :=
  isTypeStr (jget o (("@type").toList)) (("NewsArticle").toList) ||
  isTypeStr (jget o (("@type").toList)) (("Article").toList)

/-- The dict/str/list author extraction shared by the CBS and NYT loops:
a list of author objects is joined with `", "`, which raises `TypeError`
when a collected `name` is not a string. -/
def authorFromJson (cur : Option Str) (v : Option Json) :
    Except PyExc (Option Str) :=
  match v with
  | some (.jobj ad) => pure (cleanTextJO (jget ad (("name").toList)))
  | some (.jstr s) => pure (cleanTextJ (.jstr s))
  | some (.jarr l) =>
    if l.isEmpty then pure cur
    else
      match l.filterMap (fun a =>
        match a with
        | .jobj ad =>
          match jget ad (("name").toList) with
          | some nv => if jtruthy nv then some nv else none
          | none => none
        | .jstr s => some (.jstr s)
        | _ => none) with
      | [] => pure cur
      | names => do
        let j ← joinNames names
        pure (cleanTextS j)
  | _ => pure cur

/-- Body length as `len(body)` reads it (only evaluated under truthiness). -/
def obLen : Option Str → Nat
  | none => 0
  | some s => s.length

/-! ## The five extractors -/

structure BbcSt where
  author : Option Str
  sectionV : Option Str
  tags : List Str

/-- One JSON-LD item of the BBC metadata loop (never raises: only the
dict/str author shapes are read). -/
def bbcItemStep (st : BbcSt) (o : List (Str × Json)) : BbcSt :=
  if isArtType o then
    let author := if ¬ obTruthy st.author ∧ jgetT o (("author").toList) then
        match jget o (("author").toList) with
        | some (.jobj ad) => cleanTextJO (jget ad (("name").toList))
        | some (.jstr s) => cleanTextJ (.jstr s)
        | _ => st.author
      else st.author
    let sec := if ¬ obTruthy st.sectionV ∧ jgetT o (("articleSection").toList) then
        cleanTextJO (jget o (("articleSection").toList))
      else st.sectionV
    let tags := if jgetT o (("keywords").toList) ∧ st.tags.isEmpty then
        match jget o (("keywords").toList) with
        | some kw => kwTags kw
        | none => st.tags
      else st.tags
    ⟨author, sec, tags⟩
  else st

/-- `BBCExtractor.extract` up to the `ExtractedArticle` constructor. -/
def bbcFields (p : Page) : ExtractedArticleM :=
  let title0 := cleanTextO p.h1Text
  let title := if obTruthy title0 then title0 else cleanTextO p.ogTitle
  let errsT := if ¬ obTruthy title then [("Title not found").toList] else []
  let bodyP : Option Str × List Str :=
    if p.articleParas ≠ [] then
      (some (normalizeParagraphs p.articleParas), [])
    else if p.textBlockParas ≠ [] then
      (some (normalizeParagraphs p.textBlockParas), [])
    else (none, [("No article body paragraphs found").toList])
  let body := bodyP.1
  let errsB := bodyP.2
  let published := if obTruthy p.timeDatetime then pdmO p.timeDatetime
    else if obTruthy p.pubTimeMeta then pdmO p.pubTimeMeta
    else none
  let author0 := if obTruthy p.metaAuthor then cleanTextO p.metaAuthor
    else if obTruthy p.bylineText then cleanTextO p.bylineText
    else none
  let st := (extractJsonLd p.scripts).foldl bbcItemStep ⟨author0, none, []⟩
  let confP : ℚ × List Str :=
    if obTruthy body ∧ 500 < obLen body ∧ obTruthy title then (9/10, [])
    else if obTruthy body ∧ 300 < obLen body ∧ obTruthy title then (17/20, [])
    else if obTruthy body ∧ obTruthy title then (3/4, [])
    else (3/5, [("Low confidence: missing critical content").toList])
  let conf := confP.1
  let errsC := confP.2
  ⟨title, body, st.author, published, none, st.sectionV, st.tags,
    ("dom").toList, min conf (9/10), errsT ++ errsB ++ errsC⟩

def bbcExtract (p : Page) : Except PyExc ExtractedArticleM :=
  mkArticle (bbcFields p)

/-- Python `str.isupper` (ASCII model): some cased character and no
lowercase one. -/
def isUpperPy (t : Str) : Bool :=
  t.any isAsciiAlpha ∧ t.all (fun c => ¬ (97 ≤ c.toNat ∧ c.toNat ≤ 122))

/-- The Fox promo filter over `.article-body p` text. -/
def foxFilter (ps : List Str) : List Str :=
  (ps.map pyStrip).filter (fun t =>
    t ≠ [] ∧
    ¬ ((lowerS t).take 6 = ("watch:").toList) ∧
    ¬ (t.length < 20) ∧
    ¬ (isUpperPy t ∧ t.length < 100))

/-- One JSON-LD item of the Fox metadata loop (`datePublished` /
`dateModified` can raise through `parse_datetime_from_meta`). -/
def foxItemStep (st : Option Str × Option PyDateTime × Option PyDateTime × Option Str)
    (o : List (Str × Json)) :
    Except PyExc (Option Str × Option PyDateTime × Option PyDateTime × Option Str) :=
  if isArtType o then do
    let author := if ¬ obTruthy st.1 then
        match jget o (("author").toList) with
        | some (.jobj ad) => cleanTextJO (jget ad (("name").toList))
        | some (.jstr s) => cleanTextJ (.jstr s)
        | _ => st.1
      else st.1
    let pub ← if st.2.1 = none then
        match jget o (("datePublished").toList) with
        | some v => if jtruthy v then pdmJ v else pure st.2.1
        | none => pure st.2.1
      else pure st.2.1
    let modf ← if st.2.2.1 = none then
        match jget o (("dateModified").toList) with
        | some v => if jtruthy v then pdmJ v else pure st.2.2.1
        | none => pure st.2.2.1
      else pure st.2.2.1
    let sec := if ¬ obTruthy st.2.2.2 then
        cleanTextJO (jget o (("articleSection").toList))
      else st.2.2.2
    pure (author, pub, modf, sec)
  else pure st

/-- The pure tail of `FoxNewsExtractor.extract` after the JSON-LD loop. -/
def foxAssemble (p : Page)
    (st : Option Str × Option PyDateTime × Option PyDateTime × Option Str) :
    ExtractedArticleM :=
  let title := cleanTextO p.h1Text
  let errsT := if ¬ obTruthy title then [("Title not found").toList] else []
  let filtered := foxFilter p.articleBodyParas
  let bodyP : Option Str × List Str :=
    if filtered ≠ [] then
      (some (normalizeParagraphs filtered), [])
    else if p.articleParas ≠ [] then
      (some (normalizeParagraphs p.articleParas), [])
    else (none, [("No article body paragraphs found").toList])
  let body := bodyP.1
  let errsB := bodyP.2
  let author := if ¬ obTruthy st.1 then
      if obTruthy p.metaAuthor then cleanTextO p.metaAuthor
      else if obTruthy p.authorClassText then cleanTextO p.authorClassText
      else st.1
    else st.1
  let published := if st.2.1 = none then
      if obTruthy p.pubTimeMeta then pdmO p.pubTimeMeta
      else if obTruthy p.timeDatetime then pdmO p.timeDatetime
      else none
    else st.2.1
  let confP : ℚ × List Str :=
    if obTruthy body ∧ 500 < obLen body ∧ obTruthy title then (3/4, [])
    else if obTruthy body ∧ 300 < obLen body ∧ obTruthy title then (7/10, [])
    else if obTruthy body ∧ obTruthy title then (13/20, [])
    else (1/2, [("Low confidence: missing critical content").toList])
  let conf := confP.1
  let errsC := confP.2
  ⟨title, body, author, published, st.2.2.1, st.2.2.2, [],
    ("dom").toList, min conf (3/4), errsT ++ errsB ++ errsC⟩

/-- `FoxNewsExtractor.extract` up to the constructor. -/
def foxFields (p : Page) : Except PyExc ExtractedArticleM := do
  let st ← (extractJsonLd p.scripts).foldlM foxItemStep (none, none, none, none)
  pure (foxAssemble p st)

def foxExtract (p : Page) : Except PyExc ExtractedArticleM :=
  match foxFields p with
  | .ok a => mkArticle a
  | .error e => .error e

/-- AP `_extract_from_json_ld` with the `clean_text` transform (a falsy
value is returned raw and is later overwritten by the DOM fallback, so it is
`none` here). -/
def apFromJsonLd (o : List (Str × Json)) (k : Str) : Option Str :=
  match jget o k with
  | some v => if jtruthy v then cleanTextJ v else none
  | none => none

/-- AP `_extract_author_from_json_ld` (the `", ".join` over list authors can
raise `TypeError` on a non-string `name`). -/
def apAuthor (o : List (Str × Json)) : Except PyExc (Option Str) :=
  match jget o (("author").toList) with
  | none => pure none
  | some v =>
    if ¬ jtruthy v then pure none
    else
      match v with
      | .jstr s => pure (cleanTextJ (.jstr s))
      | .jobj ad =>
        match jget ad (("name").toList) with
        | some nv => if jtruthy nv then pure (cleanTextJ nv) else pure none
        | none => pure none
      | .jarr l =>
        match l.filterMap (fun a =>
          match a with
          | .jstr s => some (Json.jstr s)
          | .jobj ad =>
            match jget ad (("name").toList) with
            | some nv => if jtruthy nv then some nv else none
            | none => none
          | _ => none) with
        | [] => pure none
        | names => do
          let j ← joinNames names
          pure (cleanTextS j)
      | _ => pure none

/-- AP `_extract_date_from_json_ld`. -/
def apDate (o : List (Str × Json)) (k : Str) : Except PyExc (Option PyDateTime) :=
  match jget o k with
  | some v => if jtruthy v then pdmJ v else pure none
  | none => pure none

/-- The JSON-LD metadata block of `APNewsExtractor.extract`. -/
def apMeta : Option (List (Str × Json)) →
    Except PyExc (Option Str × Option Str × Option PyDateTime ×
      Option PyDateTime × Option Str × List Str)
  | none => pure (none, none, none, none, none, [])
  | some o => do
    let title := apFromJsonLd o (("headline").toList)
    let author ← apAuthor o
    let pub ← apDate o (("datePublished").toList)
    let md ← apDate o (("dateModified").toList)
    let sec := apFromJsonLd o (("articleSection").toList)
    let tags := match jget o (("keywords").toList) with
      | some kw => if jtruthy kw then kwTags kw else []
      | none => []
    pure (title, author, pub, md, sec, tags)

/-- The pure tail of `APNewsExtractor.extract`. -/
def apAssemble (p : Page) (hasArt : Bool)
    (meta : Option Str × Option Str × Option PyDateTime × Option PyDateTime ×
      Option Str × List Str) : ExtractedArticleM :=
  let title0 := meta.1
  let author0 := meta.2.1
  let pub0 := meta.2.2.1
  let mod0 := meta.2.2.2.1
  let sec0 := meta.2.2.2.2.1
  let tags0 := meta.2.2.2.2.2
  let paragraphs := if p.richTextParas ≠ [] then p.richTextParas else p.articleParas
  let bodyP : Option Str × List Str :=
    if paragraphs ≠ [] then
      (some (normalizeParagraphs paragraphs), [])
    else (none, [("No article body paragraphs found").toList])
  let body := bodyP.1
  let errsB := bodyP.2
  let confP : ℚ × Str × List Str :=
    if hasArt ∧ obTruthy body ∧ 500 < obLen body then
      (19/20, ("hybrid").toList, [])
    else if hasArt ∧ obTruthy body then (9/10, ("hybrid").toList, [])
    else if obTruthy body ∧ 500 < obLen body then (4/5, ("dom").toList, [])
    else if obTruthy body then (3/4, ("dom").toList, [])
    else (1/2, ("dom").toList,
      [("Low confidence: missing critical content").toList])
  let conf := confP.1
  let em := confP.2.1
  let errsC := confP.2.2
  let title := if obTruthy title0 then title0 else cleanTextO p.h1Text
  let errsT := if ¬ obTruthy title0 ∧ ¬ obTruthy (cleanTextO p.h1Text) then
      [("Title not found in JSON-LD or DOM").toList]
    else []
  let author := if ¬ obTruthy author0 then
      if obTruthy p.metaAuthor then cleanTextO p.metaAuthor else author0
    else author0
  let published := if pub0 = none then
      if obTruthy p.pubTimeMeta then pdmO p.pubTimeMeta else none
    else pub0
  ⟨title, body, author, published, mod0, sec0, tags0, em, conf,
    errsB ++ errsC ++ errsT⟩

/-- `APNewsExtractor.extract` up to the constructor. -/
def apFields (p : Page) : Except PyExc ExtractedArticleM := do
  let artO := (extractJsonLd p.scripts).find? (fun o =>
    isTypeStr (jget o (("@type").toList)) (("NewsArticle").toList))
  let meta ← apMeta artO
  pure (apAssemble p artO.isSome meta)

def apExtract (p : Page) : Except PyExc ExtractedArticleM :=
  match apFields p with
  | .ok a => mkArticle a
  | .error e => .error e

structure NytSt where
  title : Option Str
  author : Option Str
  pub : Option PyDateTime
  modf : Option PyDateTime
  sec : Option Str

/-- One JSON-LD item of the NYT metadata loop. -/
def nytItemStep (st : NytSt) (o : List (Str × Json)) : Except PyExc NytSt :=
  if isArtType o then do
    let title := if ¬ obTruthy st.title then cleanTextJO (jget o (("headline").toList))
      else st.title
    let author ← if ¬ obTruthy st.author then
        authorFromJson st.author (jget o (("author").toList))
      else pure st.author
    let pub ← if st.pub = none then
        match jget o (("datePublished").toList) with
        | some v => if jtruthy v then pdmJ v else pure st.pub
        | none => pure st.pub
      else pure st.pub
    let modf ← if st.modf = none then
        match jget o (("dateModified").toList) with
        | some v => if jtruthy v then pdmJ v else pure st.modf
        | none => pure st.modf
      else pure st.modf
    let sec := if ¬ obTruthy st.sec then cleanTextJO (jget o (("articleSection").toList))
      else st.sec
    pure ⟨title, author, pub, modf, sec⟩
  else pure st

/-- The pure tail of `NYTimesExtractor.extract`. -/
def nytAssemble (p : Page) (st : NytSt) : ExtractedArticleM :=
  let paragraphs :=
    if p.nytBodyParas ≠ [] then p.nytBodyParas
    else if p.nytSectionParas ≠ [] then p.nytSectionParas
    else if p.nytDivParas ≠ [] then p.nytDivParas
    else p.articleParas
  let bodyP : Option Str × List Str :=
    if paragraphs ≠ [] then
      (some (normalizeParagraphs paragraphs), [])
    else (none, [("No article body paragraphs found (all fallbacks failed)").toList])
  let body := bodyP.1
  let errsB := bodyP.2
  let title := if ¬ obTruthy st.title then
      let t1 := cleanTextO p.h1Text
      if ¬ obTruthy t1 then
        if obTruthy p.ogTitle then cleanTextO p.ogTitle else t1
      else t1
    else st.title
  let author := if ¬ obTruthy st.author then
      match p.bylMeta with
      | some s =>
        if s ≠ [] then
          let t := pyStrip s
          let t2 := if (lowerS t).take 3 = ("by ").toList then t.drop 3 else t
          cleanTextS t2
        else if obTruthy p.metaAuthor then cleanTextO p.metaAuthor else st.author
      | none =>
        if obTruthy p.metaAuthor then cleanTextO p.metaAuthor else st.author
    else st.author
  let published := if st.pub = none then
      if obTruthy p.pubTimeMeta then pdmO p.pubTimeMeta else none
    else st.pub
  let confP : ℚ × List Str :=
    if obTruthy body ∧ 500 < obLen body ∧ obTruthy title ∧ obTruthy author then
      (7/10, [])
    else if obTruthy body ∧ 500 < obLen body ∧ obTruthy title then (17/25, [])
    else if obTruthy body ∧ obTruthy title then (3/5, [])
    else (1/2, [("Low confidence: missing critical content").toList])
  let conf := confP.1
  let errsC := confP.2
  let errsA := if ¬ obTruthy author then
      [("Author extraction failed (common for NYT)").toList]
    else []
  let errsB2 := if ¬ obTruthy body ∨ obLen body < 300 then
      [("Body extraction may be incomplete (NYT complex layout)").toList]
    else []
  ⟨title, body, author, published, st.modf, st.sec, [],
    ("hybrid").toList, min conf (7/10), errsB ++ errsC ++ errsA ++ errsB2⟩

/-- `NYTimesExtractor.extract` up to the constructor. -/
def nytFields (p : Page) : Except PyExc ExtractedArticleM := do
  let st ← (extractJsonLd p.scripts).foldlM nytItemStep ⟨none, none, none, none, none⟩
  pure (nytAssemble p st)

def nytExtract (p : Page) : Except PyExc ExtractedArticleM :=
  match nytFields p with
  | .ok a => mkArticle a
  | .error e => .error e

structure CbsSt where
  title : Option Str
  author : Option Str
  pub : Option PyDateTime
  modf : Option PyDateTime
  sec : Option Str
  body : Option Str
  hasBody : Bool
  method : Str
  tags : List Str

/-- The author clause of the CBS loop body. -/
def cbsAuthorStep (st : CbsSt) (o : List (Str × Json)) : Except PyExc (Option Str) :=
  if ¬ obTruthy st.author then
    authorFromJson st.author (jget o (("author").toList))
  else pure st.author

/-- The `datePublished` / `dateModified` clause of the CBS loop body. -/
def cbsDateStep (cur : Option PyDateTime) (o : List (Str × Json)) (k : Str) :
    Except PyExc (Option PyDateTime) :=
  if cur = none then
    match jget o k with
    | some v => if jtruthy v then pdmJ v else pure cur
    | none => pure cur
  else pure cur

/-- One JSON-LD item of the CBS loop (also harvests `articleBody`). -/
def cbsItemStep (st : CbsSt) (o : List (Str × Json)) : Except PyExc CbsSt :=
  if isArtType o then do
    let title := if ¬ obTruthy st.title then cleanTextJO (jget o (("headline").toList))
      else st.title
    let author ← cbsAuthorStep st o
    let pub ← cbsDateStep st.pub o (("datePublished").toList)
    let modf ← cbsDateStep st.modf o (("dateModified").toList)
    let sec := if ¬ obTruthy st.sec then cleanTextJO (jget o (("articleSection").toList))
      else st.sec
    let bhm : Option Str × Bool × Str :=
      match jget o (("articleBody").toList) with
      | some ab =>
        if jtruthy ab ∧ ¬ obTruthy st.body then
          (cleanTextJ ab, true, ("jsonld_full").toList)
        else (st.body, st.hasBody, st.method)
      | none => (st.body, st.hasBody, st.method)
    let body := bhm.1
    let hasBody := bhm.2.1
    let method := bhm.2.2
    let tags :=
      match jget o (("keywords").toList) with
      | some kw => if jtruthy kw ∧ st.tags.isEmpty then kwTags kw else st.tags
      | none => st.tags
    pure ⟨title, author, pub, modf, sec, body, hasBody, method, tags⟩
  else pure st

/-- The pure tail of `CBSExtractor.extract` (`jldEmpty` is
`not json_ld_data`). -/
def cbsAssemble (p : Page) (jldEmpty : Bool) (st : CbsSt) : ExtractedArticleM :=
  let bodyP : Option Str × List Str :=
    if st.hasBody then (st.body, [])
    else if p.contentBodyParas ≠ [] then
      (some (normalizeParagraphs p.contentBodyParas), [])
    else if p.articleParas ≠ [] then
      (some (normalizeParagraphs p.articleParas), [])
    else (st.body, [("No article body paragraphs found").toList])
  let body := bodyP.1
  let errsB := bodyP.2
  let title := if ¬ obTruthy st.title then cleanTextO p.h1Text else st.title
  let author := if ¬ obTruthy st.author then
      if obTruthy p.metaAuthor then cleanTextO p.metaAuthor else st.author
    else st.author
  let published := if st.pub = none then
      if obTruthy p.pubTimeMeta then pdmO p.pubTimeMeta
      else if obTruthy p.timeDatetime then pdmO p.timeDatetime
      else none
    else st.pub
  let confP : ℚ × List Str :=
    if st.hasBody ∧ obTruthy body ∧ obTruthy title then (1, [])
    else if obTruthy body ∧ 500 < obLen body ∧ obTruthy title ∧ obTruthy author then
      (17/20, [])
    else if obTruthy body ∧ 500 < obLen body ∧ obTruthy title then (83/100, [])
    else if obTruthy body ∧ obTruthy title then (3/4, [])
    else (3/5, [("Low confidence: missing critical content").toList])
  let conf := confP.1
  let errsC := confP.2
  let methodP : Str × List Str := if jldEmpty then
      (("dom").toList, [("JSON-LD not found").toList])
    else (st.method, [])
  let method := methodP.1
  let errsJ := methodP.2
  ⟨title, body, author, published, st.modf, st.sec, st.tags, method, conf,
    errsB ++ errsC ++ errsJ⟩

/-- `CBSExtractor.extract` up to the constructor. -/
def cbsFields (p : Page) : Except PyExc ExtractedArticleM := do
  let st ← (extractJsonLd p.scripts).foldlM cbsItemStep
    ⟨none, none, none, none, none, none, false, ("json-ld").toList, []⟩
  pure (cbsAssemble p (extractJsonLd p.scripts).isEmpty st)

def cbsExtract (p : Page) : Except PyExc ExtractedArticleM :=
  match cbsFields p with
  | .ok a => mkArticle a
  | .error e => .error e

theorem mkArticle_ok {b a : ExtractedArticleM} (h : mkArticle b = .ok a) :
    a = b ∧ 0 ≤ a.confidence ∧ a.confidence ≤ 1 := by
  unfold mkArticle at h
  split at h
  · next hr =>
    have hab : b = a := Except.ok.inj h
    subst hab
    exact ⟨rfl, hr⟩
  · exact Except.noConfusion h

theorem apExtract_ok {p : Page} {a : ExtractedArticleM}
    (h : apExtract p = .ok a) :
    apFields p = .ok a ∧ 0 ≤ a.confidence ∧ a.confidence ≤ 1 := by
  unfold apExtract at h
  match hf : apFields p with
  | .error e => rw [hf] at h; exact Except.noConfusion h
  | .ok b =>
    rw [hf] at h
    obtain ⟨hab, hr⟩ := mkArticle_ok h
    subst hab
    exact ⟨rfl, hr⟩

theorem foxExtract_ok {p : Page} {a : ExtractedArticleM}
    (h : foxExtract p = .ok a) :
    foxFields p = .ok a ∧ 0 ≤ a.confidence ∧ a.confidence ≤ 1 := by
  unfold foxExtract at h
  match hf : foxFields p with
  | .error e => rw [hf] at h; exact Except.noConfusion h
  | .ok b =>
    rw [hf] at h
    obtain ⟨hab, hr⟩ := mkArticle_ok h
    subst hab
    exact ⟨rfl, hr⟩

theorem nytExtract_ok {p : Page} {a : ExtractedArticleM}
    (h : nytExtract p = .ok a) :
    nytFields p = .ok a ∧ 0 ≤ a.confidence ∧ a.confidence ≤ 1 := by
  unfold nytExtract at h
  match hf : nytFields p with
  | .error e => rw [hf] at h; exact Except.noConfusion h
  | .ok b =>
    rw [hf] at h
    obtain ⟨hab, hr⟩ := mkArticle_ok h
    subst hab
    exact ⟨rfl, hr⟩

theorem cbsExtract_ok {p : Page} {a : ExtractedArticleM}
    (h : cbsExtract p = .ok a) :
    cbsFields p = .ok a ∧ 0 ≤ a.confidence ∧ a.confidence ≤ 1 := by
  unfold cbsExtract at h
  match hf : cbsFields p with
  | .error e => rw [hf] at h; exact Except.noConfusion h
  | .ok b =>
    rw [hf] at h
    obtain ⟨hab, hr⟩ := mkArticle_ok h
    subst hab
    exact ⟨rfl, hr⟩

theorem bbcExtract_ok {p : Page} {a : ExtractedArticleM}
    (h : bbcExtract p = .ok a) :
    a = bbcFields p ∧ 0 ≤ a.confidence ∧ a.confidence ≤ 1 :=
  mkArticle_ok h

/-- **C2**: the `ExtractedArticle` constructor succeeds exactly when
`0.0 <= confidence <= 1.0` (out of range raises `ValueError`), and every
record any of the five extractors successfully returns satisfies the bound. -/
theorem confidence_range_invariant :
    (∀ a : ExtractedArticleM,
      (mkArticle a = .ok a ↔ 0 ≤ a.confidence ∧ a.confidence ≤ 1) ∧
      (mkArticle a = .error .valueError ↔ ¬(0 ≤ a.confidence ∧ a.confidence ≤ 1))) ∧
    (∀ p a, apExtract p = .ok a → 0 ≤ a.confidence ∧ a.confidence ≤ 1) ∧
    (∀ p a, bbcExtract p = .ok a → 0 ≤ a.confidence ∧ a.confidence ≤ 1) ∧
    (∀ p a, foxExtract p = .ok a → 0 ≤ a.confidence ∧ a.confidence ≤ 1) ∧
    (∀ p a, nytExtract p = .ok a → 0 ≤ a.confidence ∧ a.confidence ≤ 1) ∧
    (∀ p a, cbsExtract p = .ok a → 0 ≤ a.confidence ∧ a.confidence ≤ 1) := by
  refine ⟨?_, fun p a h => (apExtract_ok h).2, fun p a h => (bbcExtract_ok h).2,
    fun p a h => (foxExtract_ok h).2, fun p a h => (nytExtract_ok h).2,
    fun p a h => (cbsExtract_ok h).2⟩
  intro a
  constructor
  · constructor
    · intro h
      exact (mkArticle_ok h).2
    · intro h
      unfold mkArticle
      rw [if_pos h]
  · constructor
    · intro h
      intro hr
      unfold mkArticle at h
      rw [if_pos hr] at h
      exact Except.noConfusion h
    · intro h
      unfold mkArticle
      rw [if_neg h]

/-- Concrete instance: constructing with confidence 2 raises, with 0.8
succeeds. -/
theorem confidence_range_invariant_witness :
    (mkArticle ⟨none, none, none, none, none, none, [], [], 4/5, []⟩ =
      .ok ⟨none, none, none, none, none, none, [], [], 4/5, []⟩ ↔
      (0 : ℚ) ≤ 4/5 ∧ (4 : ℚ)/5 ≤ 1) ∧
    (mkArticle ⟨none, none, none, none, none, none, [], [], 2, []⟩ =
      .error .valueError ↔ ¬((0 : ℚ) ≤ 2 ∧ (2 : ℚ) ≤ 1)) ∧
    (0 ≤ (4 : ℚ)/5 ∧ (4 : ℚ)/5 ≤ 1) := by
  refine ⟨(confidence_range_invariant.1 _).1, (confidence_range_invariant.1 _).2, ?_⟩
  norm_num

theorem bbcFields_conf_le (p : Page) : (bbcFields p).confidence ≤ 9 / 10 :=
  min_le_right _ _

theorem bind_pure_ok {α β : Type} {e : Except PyExc α} {f : α → β} {a : β}
    (h : (e >>= fun x => pure (f x)) = Except.ok a) : ∃ x, e = .ok x ∧ a = f x := by
  match e with
  | .error err => exact Except.noConfusion h
  | .ok x => exact ⟨x, rfl, (Except.ok.inj h).symm⟩

theorem foxAssemble_conf_le (p : Page)
    (st : Option Str × Option PyDateTime × Option PyDateTime × Option Str) :
    (foxAssemble p st).confidence ≤ 3 / 4 :=
  min_le_right _ _

theorem foxFields_conf_le {p : Page} {a : ExtractedArticleM}
    (h : foxFields p = .ok a) : a.confidence ≤ 3 / 4 := by
  obtain ⟨st, -, rfl⟩ := bind_pure_ok h
  exact foxAssemble_conf_le p st

theorem nytAssemble_conf_le (p : Page) (st : NytSt) :
    (nytAssemble p st).confidence ≤ 7 / 10 :=
  min_le_right _ _

theorem nytFields_conf_le {p : Page} {a : ExtractedArticleM}
    (h : nytFields p = .ok a) : a.confidence ≤ 7 / 10 := by
  obtain ⟨st, -, rfl⟩ := bind_pure_ok h
  exact nytAssemble_conf_le p st

/-- **C6**: on every page, the BBC extractor caps confidence at 0.90, the
Fox News extractor at 0.75 and the NYT extractor at 0.70 (each via a final
`min(confidence, cap)`). -/
theorem extractor_confidence_caps :
    (∀ p a, bbcExtract p = .ok a → a.confidence ≤ 9/10) ∧
    (∀ p a, foxExtract p = .ok a → a.confidence ≤ 3/4) ∧
    (∀ p a, nytExtract p = .ok a → a.confidence ≤ 7/10) := by
  refine ⟨fun p a h => ?_, fun p a h => foxFields_conf_le (foxExtract_ok h).1,
    fun p a h => nytFields_conf_le (nytExtract_ok h).1⟩
  obtain ⟨rfl, -⟩ := bbcExtract_ok h
  exact bbcFields_conf_le p

/-- Concrete instance of the three caps on the empty page. -/
theorem extractor_confidence_caps_witness :
    (bbcFields {}).confidence ≤ 9/10 ∧
    (foxAssemble {} (none, none, none, none)).confidence ≤ 3/4 ∧
    (nytAssemble {} ⟨none, none, none, none, none⟩).confidence ≤ 7/10 :=
  ⟨extractor_confidence_caps.1 {} (bbcFields {}) (by
      have hc : (bbcFields ({} : Page)).confidence = 3/5 := by
        have he : extractJsonLd ([] : List (Option Json)) = [] := rfl
        norm_num [bbcFields, he, cleanTextO, obTruthy, obLen, min_def]
      have hok : (0:ℚ) ≤ (bbcFields ({} : Page)).confidence ∧
          (bbcFields ({} : Page)).confidence ≤ 1 := by rw [hc]; norm_num
      unfold bbcExtract mkArticle
      rw [if_pos hok]),
   extractor_confidence_caps.2.1 {} (foxAssemble {} (none, none, none, none)) (by
      have hc : (foxAssemble ({} : Page) (none, none, none, none)).confidence = 1/2 := by
        norm_num [foxAssemble, foxFilter, cleanTextO, obTruthy, obLen, min_def]
      have hok : (0:ℚ) ≤ (foxAssemble ({} : Page) (none, none, none, none)).confidence ∧
          (foxAssemble ({} : Page) (none, none, none, none)).confidence ≤ 1 := by
        rw [hc]; norm_num
      have hff : foxFields ({} : Page) =
          Except.ok (foxAssemble {} (none, none, none, none)) := rfl
      unfold foxExtract
      rw [hff]
      show mkArticle (foxAssemble {} (none, none, none, none)) =
        Except.ok (foxAssemble {} (none, none, none, none))
      unfold mkArticle
      rw [if_pos hok]),
   extractor_confidence_caps.2.2 {} (nytAssemble {} ⟨none, none, none, none, none⟩) (by
      have hc : (nytAssemble ({} : Page) ⟨none, none, none, none, none⟩).confidence
          = 1/2 := by
        norm_num [nytAssemble, cleanTextO, obTruthy, obLen, min_def]
      have hok : (0:ℚ) ≤ (nytAssemble ({} : Page) ⟨none, none, none, none, none⟩).confidence ∧
          (nytAssemble ({} : Page) ⟨none, none, none, none, none⟩).confidence ≤ 1 := by
        rw [hc]; norm_num
      have hff : nytFields ({} : Page) =
          Except.ok (nytAssemble {} ⟨none, none, none, none, none⟩) := rfl
      unfold nytExtract
      rw [hff]
      show mkArticle (nytAssemble {} ⟨none, none, none, none, none⟩) =
        Except.ok (nytAssemble {} ⟨none, none, none, none, none⟩)
      unfold mkArticle
      rw [if_pos hok])⟩

theorem bbcFields_conf_ge (p : Page) : 3/5 ≤ (bbcFields p).confidence := by
  simp only [bbcFields]
  refine le_min ?_ (by norm_num)
  repeat' split
  all_goals norm_num

/-- On a page with no extractable body, the BBC tail lands on the floor
confidence with a populated error list. -/
theorem bbcFields_floor {p : Page} (hb : (bbcFields p).body = none) :
    (bbcFields p).confidence = 3/5 ∧ (bbcFields p).errors ≠ [] := by
  simp only [bbcFields] at hb ⊢
  rw [hb]
  constructor
  · norm_num [obTruthy, min_def]
  · simp [obTruthy]

theorem apAssemble_floor {p : Page} {hasArt : Bool}
    {meta : Option Str × Option Str × Option PyDateTime × Option PyDateTime ×
      Option Str × List Str}
    (hb : (apAssemble p hasArt meta).body = none) :
    (apAssemble p hasArt meta).confidence = 1/2 ∧
      (apAssemble p hasArt meta).errors ≠ [] := by
  simp only [apAssemble] at hb ⊢
  rw [hb]
  constructor
  · norm_num [obTruthy]
  · simp [obTruthy]

theorem foxAssemble_floor {p : Page}
    {st : Option Str × Option PyDateTime × Option PyDateTime × Option Str}
    (hb : (foxAssemble p st).body = none) :
    (foxAssemble p st).confidence = 1/2 ∧ (foxAssemble p st).errors ≠ [] := by
  simp only [foxAssemble] at hb ⊢
  rw [hb]
  constructor
  · norm_num [obTruthy, min_def]
  · simp [obTruthy]

theorem nytAssemble_floor {p : Page} {st : NytSt}
    (hb : (nytAssemble p st).body = none) :
    (nytAssemble p st).confidence = 1/2 ∧ (nytAssemble p st).errors ≠ [] := by
  simp only [nytAssemble] at hb ⊢
  rw [hb]
  constructor
  · norm_num [obTruthy, min_def]
  · simp [obTruthy]

theorem cbsAssemble_floor {p : Page} {jldE : Bool} {st : CbsSt}
    (hb : (cbsAssemble p jldE st).body = none) :
    (cbsAssemble p jldE st).confidence = 3/5 ∧
      (cbsAssemble p jldE st).errors ≠ [] := by
  simp only [cbsAssemble] at hb ⊢
  rw [hb]
  constructor
  · norm_num [obTruthy]
  · simp [obTruthy]

/-- **C5** (amended): the BBC extractor never raises, and whenever any of the
five extractors returns at all on a page yielding no title and no body, the
result sits exactly on the site failure floor (BBC 0.60, AP 0.50, Fox 0.50,
NYT 0.50, CBS 0.60) with a non-empty error list; the dated claim that the
extract methods never raise is refuted separately. -/
theorem extractor_total_failure_floor :
    (∀ p, bbcExtract p = .ok (bbcFields p)) ∧
    (∀ p a, bbcExtract p = .ok a → a.title = none → a.body = none →
      a.confidence = 3/5 ∧ a.errors ≠ []) ∧
    (∀ p a, apExtract p = .ok a → a.title = none → a.body = none →
      a.confidence = 1/2 ∧ a.errors ≠ []) ∧
    (∀ p a, foxExtract p = .ok a → a.title = none → a.body = none →
      a.confidence = 1/2 ∧ a.errors ≠ []) ∧
    (∀ p a, nytExtract p = .ok a → a.title = none → a.body = none →
      a.confidence = 1/2 ∧ a.errors ≠ []) ∧
    (∀ p a, cbsExtract p = .ok a → a.title = none → a.body = none →
      a.confidence = 3/5 ∧ a.errors ≠ []) := by
  refine ⟨?_, ?_, ?_, ?_, ?_, ?_⟩
  · intro p
    unfold bbcExtract mkArticle
    rw [if_pos ⟨le_trans (by norm_num) (bbcFields_conf_ge p),
      le_trans (bbcFields_conf_le p) (by norm_num)⟩]
  · intro p a h ht hb
    obtain ⟨rfl, -⟩ := bbcExtract_ok h
    exact bbcFields_floor hb
  · intro p a h ht hb
    obtain ⟨hf, -⟩ := apExtract_ok h
    unfold apFields at hf
    obtain ⟨meta, -, rfl⟩ := bind_pure_ok hf
    exact apAssemble_floor hb
  · intro p a h ht hb
    obtain ⟨hf, -⟩ := foxExtract_ok h
    obtain ⟨st, -, rfl⟩ := bind_pure_ok hf
    exact foxAssemble_floor hb
  · intro p a h ht hb
    obtain ⟨hf, -⟩ := nytExtract_ok h
    obtain ⟨st, -, rfl⟩ := bind_pure_ok hf
    exact nytAssemble_floor hb
  · intro p a h ht hb
    obtain ⟨hf, -⟩ := cbsExtract_ok h
    obtain ⟨st, -, rfl⟩ := bind_pure_ok hf
    exact cbsAssemble_floor hb

/-- A JSON-LD `NewsArticle` whose `datePublished` is the number `1` makes
`APNewsExtractor.extract` raise `AttributeError` (`value.strip()` on a
non-string inside `parse_datetime_from_meta`), refuting "extractor methods
never raise". -/
theorem apExtract_raises_cex :
    apExtract { scripts := [some (.jobj
      [((("@type").toList), .jstr (("NewsArticle").toList)),
       ((("datePublished").toList), .jnum 1)])] } = .error .attrError := rfl

/-- Concrete instance: the empty page floors the BBC extractor. -/
theorem extractor_total_failure_floor_witness :
    (bbcFields ({} : Page)).confidence = 3/5 ∧
      (bbcFields ({} : Page)).errors ≠ [] :=
  extractor_total_failure_floor.2.1 {} (bbcFields {})
    (extractor_total_failure_floor.1 {}) rfl rfl

theorem except_bind_ok {α β : Type} {x : Except PyExc α} {f : α → Except PyExc β}
    {b : β} (h : x >>= f = .ok b) : ∃ a, x = .ok a ∧ f a = .ok b := by
  match x with
  | .error e => exact Except.noConfusion h
  | .ok a => exact ⟨a, rfl, h⟩

/-- Once the CBS loop state holds a truthy body, a further JSON-LD item
leaves body, flag and method untouched. -/
theorem cbsItemStep_persist {st : CbsSt} {o : List (Str × Json)} {st' : CbsSt}
    (h : cbsItemStep st o = .ok st') (hb : obTruthy st.body = true) :
    st'.body = st.body ∧ st'.hasBody = st.hasBody ∧ st'.method = st.method := by
  unfold cbsItemStep at h
  split at h
  · obtain ⟨a1, -, h⟩ := except_bind_ok h
    obtain ⟨a2, -, h⟩ := except_bind_ok h
    obtain ⟨a3, -, h⟩ := except_bind_ok h
    obtain rfl : st' = _ := (Except.ok.inj h).symm
    dsimp only
    split
    · split
      · next hcond => rw [hb] at hcond; simp at hcond
      · exact ⟨rfl, rfl, rfl⟩
    · exact ⟨rfl, rfl, rfl⟩
  · obtain rfl : st' = st := (Except.ok.inj h).symm
    exact ⟨rfl, rfl, rfl⟩

/-- A CBS loop step either leaves the body flag and method alone or sets
the flag with method `jsonld_full`. -/
theorem cbsItemStep_shape {st : CbsSt} {o : List (Str × Json)} {st' : CbsSt}
    (h : cbsItemStep st o = .ok st') :
    (st'.hasBody = st.hasBody ∧ st'.method = st.method) ∨
    (st'.hasBody = true ∧ st'.method = ("jsonld_full").toList) := by
  unfold cbsItemStep at h
  split at h
  · obtain ⟨a1, -, h⟩ := except_bind_ok h
    obtain ⟨a2, -, h⟩ := except_bind_ok h
    obtain ⟨a3, -, h⟩ := except_bind_ok h
    obtain rfl : st' = _ := (Except.ok.inj h).symm
    dsimp only
    split
    · split
      · exact Or.inr ⟨rfl, rfl⟩
      · exact Or.inl ⟨rfl, rfl⟩
    · exact Or.inl ⟨rfl, rfl⟩
  · obtain rfl : st' = st := (Except.ok.inj h).symm
    exact Or.inl ⟨rfl, rfl⟩

/-- Over the whole CBS loop, a set body flag forces method `jsonld_full`. -/
theorem cbsFold_method :
    ∀ (items : List (List (Str × Json))) {st st' : CbsSt},
      List.foldlM cbsItemStep st items = .ok st' →
      (st.hasBody = true → st.method = ("jsonld_full").toList) →
      (st'.hasBody = true → st'.method = ("jsonld_full").toList) := by
  intro items
  induction items with
  | nil =>
    intro st st' h hP
    obtain rfl : st' = st := (Except.ok.inj h).symm
    exact hP
  | cons o os ih =>
    intro st st' h hP
    have h' : (cbsItemStep st o >>= fun st1 =>
        List.foldlM cbsItemStep st1 os) = .ok st' := h
    obtain ⟨st1, h1, h2⟩ := except_bind_ok h'
    refine ih h2 ?_
    intro hb1
    rcases cbsItemStep_shape h1 with ⟨he, hm⟩ | ⟨-, hm⟩
    · rw [hm]; exact hP (by rw [← he]; exact hb1)
    · exact hm

/-- **C7** (amended): a truthy JSON-LD `articleBody` makes the CBS loop
state authoritative — later items never overwrite a truthy body, a set flag
implies method `jsonld_full`, the assembled record takes the loop body
verbatim (DOM paragraphs are skipped) and keeps the loop method when any
JSON-LD was present — but confidence is 1.0 exactly when a title was also
found, not unconditionally. -/
theorem cbs_jsonld_body_authoritative :
    (∀ (st : CbsSt) (o : List (Str × Json)) (st' : CbsSt),
      cbsItemStep st o = .ok st' → obTruthy st.body = true →
      st'.body = st.body ∧ st'.hasBody = st.hasBody ∧ st'.method = st.method) ∧
    (∀ (items : List (List (Str × Json))) (st' : CbsSt),
      List.foldlM cbsItemStep
        ⟨none, none, none, none, none, none, false, ("json-ld").toList, []⟩
        items = .ok st' →
      st'.hasBody = true → st'.method = ("jsonld_full").toList) ∧
    (∀ (p : Page) (jldE : Bool) (st : CbsSt), st.hasBody = true →
      (cbsAssemble p jldE st).body = st.body ∧
      (jldE = false → (cbsAssemble p jldE st).extraction_method = st.method) ∧
      ((cbsAssemble p jldE st).confidence = 1 ↔
        obTruthy st.body = true ∧
          obTruthy (cbsAssemble p jldE st).title = true)) := by
  refine ⟨fun st o st' h hb => cbsItemStep_persist h hb,
    fun items st' h => cbsFold_method items h (fun hx => absurd hx (by decide)),
    ?_⟩
  intro p jldE st hb
  refine ⟨by simp [cbsAssemble, hb], fun hj => by simp [cbsAssemble, hb, hj], ?_⟩
  simp only [cbsAssemble]
  rw [hb]
  rw [if_pos rfl]
  split
  · by_cases h1 : obTruthy st.body = true <;>
      by_cases h2 : obTruthy (cleanTextO p.h1Text) = true <;>
        norm_num [h1, h2]
  · by_cases h1 : obTruthy st.body = true <;>
      by_cases h2 : obTruthy st.title = true <;>
        norm_num [h1, h2]

/-- The single JSON-LD `NewsArticle` item of the C7 counterexample page. -/
def cbsItemC7 : List (Str × Json) :=
  [((("@type").toList), .jstr (("NewsArticle").toList)),
   ((("articleBody").toList), .jstr (("Body text here.").toList))]

/-- The C7 counterexample page: JSON-LD body present, no title anywhere. -/
def cbsPageC7 : Page := { scripts := [some (.jobj cbsItemC7)] }

/-- The CBS loop state after the single C7 item. -/
def cbsStC7 : CbsSt :=
  ⟨none, none, none, none, none, some (("Body text here.").toList), true,
    ("jsonld_full").toList, []⟩

/-- On a page whose JSON-LD `NewsArticle` has a non-empty `articleBody` but
no headline and no DOM `h1`, the CBS extractor returns method `jsonld_full`
with confidence 0.60, not 1.0: the spec's unconditional "confidence exactly
1.0" is wrong when the title is missing. -/
theorem cbs_jsonld_not_confidence_one_cex :
    (cbsExtract cbsPageC7).map
      (fun a => (a.extraction_method, a.confidence)) =
      .ok ((("jsonld_full").toList), 3/5) ∧ ((3:ℚ)/5) ≠ 1 := by
  have hstep : cbsItemStep
      ⟨none, none, none, none, none, none, false, ("json-ld").toList, []⟩
      cbsItemC7 = .ok cbsStC7 := by
    simp [cbsItemStep, cbsItemC7, cbsStC7, isArtType, isTypeStr, jget,
      jtruthy, obTruthy, cleanTextJ, cleanTextJO, cleanCore, collapseWs,
      pyStrip, isPySpace, authorFromJson, cbsAuthorStep, cbsDateStep]
    rfl
  have hfold : List.foldlM cbsItemStep
      ⟨none, none, none, none, none, none, false, ("json-ld").toList, []⟩
      (extractJsonLd cbsPageC7.scripts) = .ok cbsStC7 := by
    show (cbsItemStep
      ⟨none, none, none, none, none, none, false, ("json-ld").toList, []⟩
      cbsItemC7 >>= fun st1 => List.foldlM cbsItemStep st1 []) = .ok cbsStC7
    rw [hstep]
    rfl
  have hf : cbsFields cbsPageC7 = .ok (cbsAssemble cbsPageC7 false cbsStC7) := by
    unfold cbsFields
    rw [hfold]
    rfl
  have hc : (cbsAssemble cbsPageC7 false cbsStC7).confidence = 3/5 := by
    norm_num [cbsAssemble, cbsStC7, cbsPageC7, obTruthy, obLen, cleanTextO]
  have hm : (cbsAssemble cbsPageC7 false cbsStC7).extraction_method =
      ("jsonld_full").toList := by
    simp [cbsAssemble, cbsStC7]
  refine ⟨?_, by norm_num⟩
  unfold cbsExtract
  rw [hf]
  show (mkArticle (cbsAssemble cbsPageC7 false cbsStC7)).map
    (fun a => (a.extraction_method, a.confidence)) =
    .ok ((("jsonld_full").toList), 3/5)
  unfold mkArticle
  rw [if_pos ⟨by rw [hc]; norm_num, by rw [hc]; norm_num⟩]
  show Except.ok ((cbsAssemble cbsPageC7 false cbsStC7).extraction_method,
    (cbsAssemble cbsPageC7 false cbsStC7).confidence) =
    .ok ((("jsonld_full").toList), 3/5)
  rw [hc, hm]

/-- Concrete instance: an authoritative loop state flows verbatim into the
assembled CBS record. -/
theorem cbs_jsonld_body_authoritative_witness :
    (cbsAssemble {} false
        ⟨none, none, none, none, none, some (("B").toList), true,
          ("jsonld_full").toList, []⟩).body = some (("B").toList) ∧
    ((false = false) →
      (cbsAssemble {} false
        ⟨none, none, none, none, none, some (("B").toList), true,
          ("jsonld_full").toList, []⟩).extraction_method =
        ("jsonld_full").toList) ∧
    ((cbsAssemble {} false
        ⟨none, none, none, none, none, some (("B").toList), true,
          ("jsonld_full").toList, []⟩).confidence = 1 ↔
      obTruthy (some (("B").toList)) = true ∧
        obTruthy (cbsAssemble {} false
          ⟨none, none, none, none, none, some (("B").toList), true,
            ("jsonld_full").toList, []⟩).title = true) :=
  cbs_jsonld_body_authoritative.2.2 {} false
    ⟨none, none, none, none, none, some (("B").toList), true,
      ("jsonld_full").toList, []⟩ rfl

/-! ## The spider: `process_article` and the discovery loop -/

/-- `normalize_whitespace` from `newsspider.py`. -/
def normalizeWhitespace : Option Str → Option Str
  | none => none
  | some t =>
    if t = [] then none
    else
      match pyStrip (collapseWs t) with
      | [] => none
      | r => some r

/-- `dt.astimezone(timezone.utc)` on an aware datetime with offset `off`
minutes: the shifted instant, or `OverflowError` when it falls outside
CPython's year range 1–9999 (`datetime.min`–`datetime.max`). -/
def astimezoneUtcM (dt : PyDateTime) (off : Int) : Except PyExc PyDateTime :=
  let total : Int := daysFromCivil (dt.year : Int) dt.month dt.day * 1440 +
    (dt.hour : Int) * 60 + (dt.minute : Int) - off
  if daysFromCivil 1 1 1 * 1440 ≤ total ∧
      total ≤ daysFromCivil 9999 12 31 * 1440 + 1439 then
    let rem := (total.emod 1440).toNat
    match civilFromDays (total.ediv 1440) with
    | (y, mo, d) =>
      .ok ⟨y.toNat, mo, d, rem / 60, rem % 60, dt.second, dt.usec, some 0⟩
  else .error .overflowError

/-- `parse_iso8601_date` on the `datetime`-object branch
(`article.publish_date` is a `datetime` or `None` under newspaper3k): a naive
datetime is stamped UTC via `replace`, an aware one goes through
`astimezone(timezone.utc)` — which raises uncaught `OverflowError` on a
boundary instant (this branch has no `try`). -/
def parseIso8601DT : Option PyDateTime → Except PyExc (Option Str)
  | none => .ok none
  | some dt =>
    match dt.tz with
    | none => .ok (some (strftimeZ { dt with tz := some 0 }))
    | some off =>
      match astimezoneUtcM dt off with
      | .ok res => .ok (some (strftimeZ res))
      | .error e => .error e

/-- `NewsSpider._compute_fingerprint`. -/
def computeFingerprint (title published_at : Option Str) (source : Str)
    (text : Option Str) : Str :=
  let basis :=
    if obTruthy text ∧ 0 < obLen text then
      (title.getD []) ++ '|' :: ((text.getD []).take 2000)
    else
      (title.getD []) ++ '|' :: (published_at.getD []) ++ '|' :: source
  sha256hex (basis.flatMap utf8Encode)

/-- The download/parse outcome of newspaper3k, an external library: title,
author list, text, summary and publish date as its attributes expose them. -/
structure ArticleData where
  title : Option Str := none
  authors : List Str := []
  text : Option Str := none
  summary : Option Str := none
  publish_date : Option PyDateTime := none

/-- The response data `process_article` and `_extract_author` read: the URL
plus the author-fallback selector results (`ldScripts` are `json.loads`
outcomes of the `ld+json` script bodies, `none` = decode error). -/
structure Resp where
  url : Str := []
  feedAuthor : Option Str := none
  metaAuthorR : Option Str := none
  ogAuthorR : Option Str := none
  bylAuthorR : Option Str := none
  ldScripts : List (Option Json) := []

/-- The `NewsItem` fields `process_article` populates (the JSON-LD author
fallback can return a non-string `name` verbatim, hence `Option Json`). -/
structure NewsItemM where
  url : Str
  source : Str
  scraped_at : Str
  parse_ok : Bool
  parse_error : Option Str
  extraction_method : Str
  content_length_chars : Nat
  title : Option Str
  author : Option Json
  author_source : Str
  text : Option Str
  summary : Option Str
  summary_max_chars : Nat
  summary_truncated : Bool
  published_at : Option Str
  url_hash : Str
  fingerprint : Str

/-- `NewsSpider._validate_article_content` (`MIN_ARTICLE_TEXT_LENGTH = 250`;
the nav-junk ratio `short_lines / len(lines) > 0.7` taken exactly). -/
def validateArticleContent (a : ArticleData) : Bool :=
  if ¬ obTruthy a.title ∨ (pyStrip (a.title.getD [])).length = 0 then false
  else
    let text := pyStrip (a.text.getD [])
    if text.length < 250 then false
    else
      let lines := splitAll '\n' text
      if 10 < lines.length then
        let shortLines := (lines.filter (fun l => (pyStrip l).length < 30)).length
        if 7 * lines.length < 10 * shortLines then false else true
      else true

/-- One `ld+json` script of the JSON-LD author fallback in
`NewsSpider._extract_author`; `none` = this script contributes nothing (not a
dict, falsy author, no usable name, decode error, or the `", ".join`
`TypeError` that the inner `except` turns into `continue`). -/
def ldAuthorScript : Option Json → Option Json
  | some (.jobj o) =>
    (match jget o (("author").toList) with
     | some ad =>
       if jtruthy ad then
         match ad with
         | .jstr s => some (.jstr s)
         | .jobj a2 =>
           (match jget a2 (("name").toList) with
            | some nv => if jtruthy nv then some nv else none
            | none => none)
         | .jarr l =>
           if l.isEmpty then none
           else
             let names := l.filterMap (fun a =>
               match a with
               | .jstr s => some (Json.jstr s)
               | .jobj a2 =>
                 (match jget a2 (("name").toList) with
                  | some nv => if jtruthy nv then some nv else none
                  | none => none)
               | _ => none)
             if names.isEmpty then none
             else
               match joinNames names with
               | .ok j => some (.jstr j)
               | .error _ => none
         | _ => none
       else none
     | none => none)
  | _ => none

/-- `NewsSpider._extract_author`: feed author, newspaper3k authors, meta
tags, JSON-LD, else `(None, "missing")`. -/
def extractAuthorSp (a : ArticleData) (r : Resp) : Option Json × Str :=
  if obTruthy r.feedAuthor ∧ pyStrip (r.feedAuthor.getD []) ≠ [] then
    (some (.jstr (pyStrip (r.feedAuthor.getD []))), ("feed").toList)
  else
    let valid := (a.authors.filter (fun s => s ≠ [] ∧ pyStrip s ≠ [])).map pyStrip
    if a.authors ≠ [] ∧ valid ≠ [] then
      (some (.jstr (joinSep ((", ").toList) valid)), ("newspaper3k").toList)
    else if obTruthy r.metaAuthorR ∧ pyStrip (r.metaAuthorR.getD []) ≠ [] then
      (some (.jstr (pyStrip (r.metaAuthorR.getD []))), ("meta").toList)
    else if obTruthy r.ogAuthorR ∧ pyStrip (r.ogAuthorR.getD []) ≠ [] then
      (some (.jstr (pyStrip (r.ogAuthorR.getD []))), ("meta").toList)
    else if obTruthy r.bylAuthorR ∧ pyStrip (r.bylAuthorR.getD []) ≠ [] then
      let t := pyStrip (r.bylAuthorR.getD [])
      let t2 := if (lowerS t).take 3 = ("by ").toList then t.drop 3 else t
      (some (.jstr t2), ("meta").toList)
    else
      match r.ldScripts.findSome? ldAuthorScript with
      | some v => (some v, ("meta").toList)
      | none => (none, ("missing").toList)

/-- Is the previous character (head of the reversed prefix) a sentence end? -/
def isSentEnd : Str → Bool
  | p :: _ => p = '.' ∨ p = '!' ∨ p = '?'
  | [] => false

/-- `re.split(r"(?<=[.!?])\s+", text)` worker; `acc` is the reversed current
piece. -/
def sentSplitAux (acc : Str) : Str → List Str
  | [] => [acc.reverse]
  | c :: t =>
    if isPySpace c ∧ isSentEnd acc then
      acc.reverse :: sentSplitAux [] (t.dropWhile isPySpace)
    else sentSplitAux (c :: acc) t
termination_by s => s.length
decreasing_by
  · have := (List.dropWhile_sublist (l := t) (p := isPySpace)).length_le
    simp only [List.length_cons]
    omega
  · simp

def splitSentencesPy (t : Str) : List Str := sentSplitAux [] t

/-- `s.rsplit(" ", 1)[0]`. -/
def rsplitHead (s : Str) : Str :=
  if (' ' : Char) ∈ s then
    ((s.reverse.dropWhile (fun c => c ≠ ' ')).drop 1).reverse
  else s

/-- `s.rstrip(".,!?;:")`. -/
def rstripPunct (s : Str) : Str :=
  (s.reverse.dropWhile (fun c =>
    c = '.' ∨ c = ',' ∨ c = '!' ∨ c = '?' ∨ c = ';' ∨ c = ':')).reverse

/-- `NewsSpider._get_summary_with_metadata` (`SUMMARY_MAX_CHARS = 512`). -/
def getSummaryWithMeta (a : ArticleData) : Option Str × Bool :=
  let rawSummary := pyStrip (a.summary.getD [])
  let rawOpt :=
    if rawSummary = [] ∨ rawSummary.length < 50 then
      let text := pyStrip (a.text.getD [])
      if text = [] then none
      else some (joinSep [' '] ((splitSentencesPy text).take 5))
    else some rawSummary
  match rawOpt with
  | none => (none, false)
  | some raw =>
    match normalizeWhitespace (some raw) with
    | none => (none, false)
    | some normalized =>
      if 512 < normalized.length then
        let truncated := rsplitHead (normalized.take 512)
        let truncated2 := if truncated.length < normalized.length then
            rstripPunct truncated ++ ("...").toList
          else truncated
        (some truncated2, true)
      else (some normalized, false)

/-- `NewsSpider.process_article`: `parseRes` is the outcome of the
`article.download` / `article.parse` try-block (`.error msg` = the caught
exception's `str(e)`). The parse-exception path always returns an item; the
other two paths call `parse_iso8601_date`, whose `astimezone` can raise an
uncaught `OverflowError` on an aware boundary `publish_date` — then no item
is returned. -/
def processArticle (r : Resp) (source : Str) (nowS : Str)
    (parseRes : Except Str ArticleData) : Except PyExc NewsItemM :=
  match parseRes with
  | .error e =>
    .ok
      { url := r.url, source := source, scraped_at := nowS,
        parse_ok := false,
        parse_error := some ((("Parse failed: ").toList) ++ e.take 200),
        extraction_method := ("newspaper3k").toList,
        content_length_chars := 0,
        title := none, author := none, author_source := ("missing").toList,
        text := none, summary := none, summary_max_chars := 512,
        summary_truncated := false, published_at := none,
        url_hash := computeUrlHash r.url,
        fingerprint := computeFingerprint none none source none }
  | .ok a =>
    if ¬ validateArticleContent a then
      match parseIso8601DT a.publish_date with
      | .error ex => .error ex
      | .ok published =>
        .ok
          { url := r.url, source := source, scraped_at := nowS,
            parse_ok := false,
            parse_error :=
              some (("Content validation failed (too short or invalid)").toList),
            extraction_method := ("newspaper3k").toList,
            content_length_chars := 0,
            title := normalizeWhitespace a.title, author := none,
            author_source := ("missing").toList,
            text := none, summary := none, summary_max_chars := 512,
            summary_truncated := false,
            published_at := published,
            url_hash := computeUrlHash r.url,
            fingerprint := computeFingerprint (normalizeWhitespace a.title)
              published source none }
    else
      match parseIso8601DT a.publish_date with
      | .error ex => .error ex
      | .ok published =>
        let normalizedText0 := normalizeWhitespace (some (a.text.getD []))
        let normalizedText :=
          if obTruthy normalizedText0 ∧ obLen normalizedText0 < 200 then none
          else normalizedText0
        let auth := extractAuthorSp a r
        let title := normalizeWhitespace a.title
        let sm := getSummaryWithMeta a
        .ok
          { url := r.url, source := source, scraped_at := nowS,
            parse_ok := true, parse_error := none,
            extraction_method := ("newspaper3k").toList,
            content_length_chars := obLen normalizedText,
            title := title, author := auth.1, author_source := auth.2,
            text := normalizedText, summary := sm.1, summary_max_chars := 512,
            summary_truncated := sm.2, published_at := published,
            url_hash := computeUrlHash r.url,
            fingerprint :=
              computeFingerprint title published source normalizedText }

/-- Python `needle in hay` substring test. -/
def strContains (needle : Str) : Str → Bool
  | [] => decide (needle = [])
  | c :: t => decide (needle = (c :: t).take needle.length) || strContains needle t

/-- `NewsSpider.is_valid_url` (`FEED_PATTERNS = rss, feed, sitemap, atom`). -/
def isValidUrl (u : Str) : Bool :=
  (u.take 7 = ("http://").toList ∨ u.take 8 = ("https://").toList) ∧
  ¬ (strContains (("rss").toList) (lowerS u) ∨
     strContains (("feed").toList) (lowerS u) ∨
     strContains (("sitemap").toList) (lowerS u) ∨
     strContains (("atom").toList) (lowerS u))

/-- CPython `SplitResult.hostname`: strip userinfo, bracketed IPv6 or
port-stripped host, lowercased, `None` when empty. -/
def pyHostname (netloc : Str) : Option Str :=
  let hostinfo := (netloc.reverse.takeWhile (fun c => c ≠ '@')).reverse
  let hostname := if ('[' : Char) ∈ hostinfo then
      ((hostinfo.dropWhile (fun c => c ≠ '[')).drop 1).takeWhile
        (fun c => c ≠ ']')
    else hostinfo.takeWhile (fun c => c ≠ ':')
  if hostname = [] then none else some (lowerS hostname)

/-- `NewsSpider._is_same_domain`. -/
def isSameDomain (allowed : List Str) (u : Str) : Bool :=
  match urlparseM u with
  | .error _ => false
  | .ok pr =>
    let hostname := (pyHostname pr.netloc).getD []
    allowed.any (fun domain =>
      hostname = domain ∨ List.IsSuffix ('.' :: domain) hostname)

/-- The discovery-page href loop of `NewsSpider.parse`
(`MAX_FOLLOW_PER_PAGE = 100`); `isArt` is the dynamically dispatched
`self.is_article_url`, `joinU` is `response.urljoin`. -/
def followLoop (allowed : List Str) (isArt : Str → Bool) (joinU : Str → Str) :
    Nat → List Str → List Str
  | _, [] => []
  | count, href :: rest =>
    if 100 ≤ count then []
    else
      let absUrl := joinU href
      if ¬ isValidUrl absUrl then followLoop allowed isArt joinU count rest
      else if ¬ isSameDomain allowed absUrl then
        followLoop allowed isArt joinU count rest
      else if isArt absUrl then
        absUrl :: followLoop allowed isArt joinU (count + 1) rest
      else followLoop allowed isArt joinU count rest

/-- What one `parse` call yields: article items or follow requests. -/
inductive SpiderOut where
  | item : NewsItemM → SpiderOut
  | request : Str → SpiderOut

/-- `NewsSpider.parse`: an article page yields exactly the processed item
(and follows nothing), propagating a raise from `process_article`; a
discovery page yields only follow requests and never raises. -/
def parseSpider (r : Resp) (source : Str) (nowS : Str)
    (parseRes : Except Str ArticleData) (isArticlePage : Bool)
    (hrefs : List Str) (allowed : List Str) (isArt : Str → Bool)
    (joinU : Str → Str) : Except PyExc (List SpiderOut) :=
  if isArticlePage then
    match processArticle r source nowS parseRes with
    | .ok it => .ok [SpiderOut.item it]
    | .error e => .error e
  else .ok ((followLoop allowed isArt joinU 0 hrefs).map SpiderOut.request)

theorem parseIso8601DT_naive {pd : Option PyDateTime}
    (h : ∀ d, pd = some d → d.tz = none) : ∃ s, parseIso8601DT pd = .ok s := by
  match pd with
  | none => exact ⟨none, rfl⟩
  | some d =>
    have htz : d.tz = none := h d rfl
    refine ⟨some (strftimeZ { d with tz := some 0 }), ?_⟩
    simp [parseIso8601DT, htz]

/-- **C1** (amended): the parse-exception path always returns a record, and
every returned record echoes `url`/`source`/`scraped_at` and carries the
computed `url_hash` and `fingerprint`, with `parse_ok = false` on both
failure paths; but `process_article` is not total — the only escape is the
uncaught `OverflowError` from `parse_iso8601_date`'s `astimezone` on an
aware boundary `publish_date`, and an absent or naive `publish_date` always
yields a record. -/
theorem process_article_always_emits :
    (∀ (r : Resp) (source nowS e : Str),
      ∃ it, processArticle r source nowS (.error e) = .ok it) ∧
    (∀ (r : Resp) (source nowS : Str) (pr : Except Str ArticleData)
      (it : NewsItemM), processArticle r source nowS pr = .ok it →
      it.url = r.url ∧ it.source = source ∧ it.scraped_at = nowS ∧
      it.url_hash = computeUrlHash r.url ∧
      it.fingerprint =
        computeFingerprint it.title it.published_at source it.text ∧
      (∀ e, pr = .error e → it.parse_ok = false) ∧
      (∀ a, pr = .ok a → validateArticleContent a = false →
        it.parse_ok = false)) ∧
    (∀ (r : Resp) (source nowS : Str) (a : ArticleData) (ex : PyExc),
      processArticle r source nowS (.ok a) = .error ex →
      parseIso8601DT a.publish_date = .error ex) ∧
    (∀ (r : Resp) (source nowS : Str) (a : ArticleData),
      (∀ d, a.publish_date = some d → d.tz = none) →
      ∃ it, processArticle r source nowS (.ok a) = .ok it) := by
  refine ⟨?_, ?_, ?_, ?_⟩
  · intro r source nowS e
    exact ⟨_, rfl⟩
  · intro r source nowS pr it h
    match pr with
    | .error e =>
      obtain rfl : it = _ := (Except.ok.inj h).symm
      exact ⟨rfl, rfl, rfl, rfl, rfl, fun _ _ => rfl,
        fun a ha => Except.noConfusion ha⟩
    | .ok a =>
      simp only [processArticle] at h
      by_cases hv : validateArticleContent a = true
      · rw [if_neg (by simp [hv])] at h
        rcases hp : parseIso8601DT a.publish_date with ex | published
        · rw [hp] at h
          exact Except.noConfusion h
        · rw [hp] at h
          obtain rfl : it = _ := (Except.ok.inj h).symm
          refine ⟨rfl, rfl, rfl, rfl, rfl, fun e he => Except.noConfusion he, ?_⟩
          intro a' ha hvv
          obtain rfl : a' = a := (Except.ok.inj ha).symm
          exact absurd hv (by simp [hvv])
      · rw [if_pos hv] at h
        rcases hp : parseIso8601DT a.publish_date with ex | published
        · rw [hp] at h
          exact Except.noConfusion h
        · rw [hp] at h
          obtain rfl : it = _ := (Except.ok.inj h).symm
          exact ⟨rfl, rfl, rfl, rfl, rfl, fun e he => Except.noConfusion he,
            fun _ _ _ => rfl⟩
  · intro r source nowS a ex h
    simp only [processArticle] at h
    split at h
    · rcases hp : parseIso8601DT a.publish_date with ex' | published <;>
        rw [hp] at h
      · exact congrArg Except.error (Except.error.inj h)
      · exact Except.noConfusion h
    · rcases hp : parseIso8601DT a.publish_date with ex' | published <;>
        rw [hp] at h
      · exact congrArg Except.error (Except.error.inj h)
      · exact Except.noConfusion h
  · intro r source nowS a hn
    obtain ⟨s, hs⟩ := parseIso8601DT_naive hn
    simp only [processArticle]
    by_cases hv : validateArticleContent a = true
    · rw [if_neg (by simp [hv]), hs]
      exact ⟨_, rfl⟩
    · rw [if_pos hv, hs]
      exact ⟨_, rfl⟩

/-- A parsed page whose `publish_date` is the aware boundary datetime
0001-01-01T00:00:00+05:00 makes `process_article` raise `OverflowError`
inside `parse_iso8601_date` (`astimezone` has no enclosing `try`), so no
record is emitted — refuting the unconditional "always returns a record". -/
theorem process_article_overflow_cex :
    processArticle {} (("s").toList) (("t").toList)
      (.ok { publish_date := some ⟨1, 1, 1, 0, 0, 0, 0, some 300⟩ }) =
      .error .overflowError := rfl

/-- Concrete instances: a parse exception yields a `parse_ok = false`
record, and the aware year-1 publish date escapes as `OverflowError`. -/
theorem process_article_always_emits_witness :
    ({ url := ([] : Str), source := ("s").toList, scraped_at := ("t").toList,
       parse_ok := false,
       parse_error := some ((("Parse failed: ").toList) ++
         (("x").toList).take 200),
       extraction_method := ("newspaper3k").toList,
       content_length_chars := 0,
       title := none, author := none, author_source := ("missing").toList,
       text := none, summary := none, summary_max_chars := 512,
       summary_truncated := false, published_at := none,
       url_hash := computeUrlHash [],
       fingerprint := computeFingerprint none none (("s").toList) none } :
      NewsItemM).parse_ok = false ∧
    parseIso8601DT (some ⟨1, 1, 1, 0, 0, 0, 0, some 300⟩) =
      .error .overflowError :=
  ⟨(process_article_always_emits.2.1 {} (("s").toList) (("t").toList)
      (.error (("x").toList)) _ rfl).2.2.2.2.2.1 (("x").toList) rfl,
   process_article_always_emits.2.2.1 {} (("s").toList) (("t").toList)
     { publish_date := some ⟨1, 1, 1, 0, 0, 0, 0, some 300⟩ }
     .overflowError rfl⟩

theorem followLoop_length (allowed : List Str) (isArt : Str → Bool)
    (joinU : Str → Str) :
    ∀ (hrefs : List Str) (count : Nat),
      (followLoop allowed isArt joinU count hrefs).length ≤ 100 - count := by
  intro hrefs
  induction hrefs with
  | nil => intro count; simp [followLoop]
  | cons href rest ih =>
    intro count
    unfold followLoop
    split
    · simp
    · next hlt =>
      dsimp only
      split
      · exact ih count
      · split
        · exact ih count
        · split
          · have := ih (count + 1)
            simp only [List.length_cons]
            omega
          · exact ih count

/-- **C9**: a discovery page never raises and yields at most
`MAX_FOLLOW_PER_PAGE = 100` follow requests and never an article item; an
article page passes `process_article`'s outcome through, following
nothing. -/
theorem discovery_fanout_cap :
    ∀ (r : Resp) (source nowS : Str) (pr : Except Str ArticleData)
      (hrefs allowed : List Str) (isArt : Str → Bool) (joinU : Str → Str),
      parseSpider r source nowS pr false hrefs allowed isArt joinU =
        .ok ((followLoop allowed isArt joinU 0 hrefs).map SpiderOut.request) ∧
      (∀ l, parseSpider r source nowS pr false hrefs allowed isArt joinU =
          .ok l →
        l.length ≤ 100 ∧
        ∀ o, o ∈ l → ∀ it : NewsItemM, o ≠ SpiderOut.item it) ∧
      (∀ it, processArticle r source nowS pr = .ok it →
        parseSpider r source nowS pr true hrefs allowed isArt joinU =
          .ok [SpiderOut.item it]) ∧
      (∀ ex, processArticle r source nowS pr = .error ex →
        parseSpider r source nowS pr true hrefs allowed isArt joinU =
          .error ex) := by
  intro r source nowS pr hrefs allowed isArt joinU
  refine ⟨rfl, ?_, ?_, ?_⟩
  · intro l hl
    obtain rfl : l = _ := (Except.ok.inj hl).symm
    constructor
    · rw [List.length_map]
      exact le_trans (followLoop_length allowed isArt joinU hrefs 0) (by omega)
    · intro o ho it
      rcases List.mem_map.mp ho with ⟨u, -, rfl⟩
      exact fun hx => SpiderOut.noConfusion hx
  · intro it hit
    show (match processArticle r source nowS pr with
      | .ok it => Except.ok [SpiderOut.item it]
      | .error e => Except.error e) = .ok [SpiderOut.item it]
    rw [hit]
  · intro ex hex
    show (match processArticle r source nowS pr with
      | .ok it => Except.ok [SpiderOut.item it]
      | .error e => Except.error e) = .error ex
    rw [hex]

/-- Concrete instance: one valid same-domain article link yields one follow
request and no item. -/
theorem discovery_fanout_cap_witness :
    ([SpiderOut.request (("https://example.com/article/x").toList)] :
      List SpiderOut).length ≤ 100 ∧
    SpiderOut.request (("https://example.com/article/x").toList) ≠
      SpiderOut.item ⟨[], [], [], false, none, [], 0, none, none, [], none,
        none, 512, false, none, [], []⟩ :=
  ⟨((discovery_fanout_cap {} (("s").toList) (("t").toList)
      (.error (("x").toList)) [("https://example.com/article/x").toList]
      [("example.com").toList] (fun _ => true) (fun u => u)).2.1
      [SpiderOut.request (("https://example.com/article/x").toList)] rfl).1,
   ((discovery_fanout_cap {} (("s").toList) (("t").toList)
      (.error (("x").toList)) [("https://example.com/article/x").toList]
      [("example.com").toList] (fun _ => true) (fun u => u)).2.1
      [SpiderOut.request (("https://example.com/article/x").toList)] rfl).2
     (SpiderOut.request (("https://example.com/article/x").toList))
     (List.mem_singleton.mpr rfl)
     ⟨[], [], [], false, none, [], 0, none, none, [], none, none, 512, false,
       none, [], []⟩⟩

end NewsScraper
